import Mathlib

/-!
# bppPhyloSampler (bppphysamp): the redundancy-reduction loop

Shallow embedding of `src/bppSuite/bppPhyloSampler.cpp`:

* `Index`, `Test`         : the two helper classes (lines 81-103);
* `buildDistances`        : construction of the candidate list (lines 166-169);
* `remove_if`             : the algorithm `std::remove_if` as called on lines 199 and 232
                            (no `erase` follows the call, the vector keeps its length);
* `chooseRm`, `removalStep` : the body shared verbatim by the two loops (lines 180-199, 213-232);
* `thresholdLoop`, `sampleLoop`, `main` : lines 172-236;
* `thresholdVisited`, `sampleVisited` : the same two loops, returning the states in which the
                            loop condition is evaluated instead of the last one.

Distances are `double` in the source.  The program only stores and compares them
(`operator<` in `std::sort`, `<=` against the threshold), so finite distances are modelled
as rationals.  Sequence lengths and indices are `unsigned int`; they are only compared or
used as indices below `dist->size()`, so they are natural numbers.

What the program gets from its libraries is an input of the model: the distance matrix
(`DistanceMatrix`), the two site counts of the sequence of each name (`nbSites`,
`nbCompleteSites`; the sequence container is taken to hold a sequence for every name of the
matrix), the outcomes of `RandomTools::flipCoin()` in call order (`coins`), and the result of
`std::sort`, whose contract (`SortSpec`) leaves the order of equal elements open.  The library
functions `VectorTools::which` and `std::remove_if` are modelled after their documentation
(`which`, `remove_if`).  The sort itself is modelled as well (`stdSort`): the algorithm of
libstdc++ (`bits/stl_algo.h`, `bits/stl_heap.h`), function by function, that is the introsort
loop with its heap-sort fallback, then the final insertion sort; it meets `SortSpec`
(`stdSort_spec`), and on at most 16 elements it is the straight insertion alone.  Reading the parameters, the tree or matrix file and writing the
alignment are outside the model: a run is the value of `main` on these inputs, the retained
labels being the sequences written to the output file.
-/

namespace BppPhySamp

/-- Class `Index` (lines 81-92): a distance and the two matrix indices it belongs to. -/
structure Index where
  distance : ℚ
  i1 : Nat
  i2 : Nat
deriving DecidableEq

/-- Class `Test` (lines 94-103): `Test(pos)(index)` holds when `index` touches `pos`. -/
def Test (pos_ : Nat) (index : Index) : Bool :=
  index.i1 == pos_ || index.i2 == pos_

/-- The interface of `DistanceMatrix` used by the program: `size()`, `getName(i)` and
`operator()(i, j)`. -/
structure DistanceMatrix where
  size : Nat
  getName : Nat → String
  dist : Nat → Nat → ℚ

/-- The labels of the matrix are pairwise different (data model: a label names one sequence). -/
def DistanceMatrix.UniqueNames (m : DistanceMatrix) : Prop :=
  ((List.range m.size).map m.getName).Nodup

instance (m : DistanceMatrix) : Decidable m.UniqueNames := by
  unfold DistanceMatrix.UniqueNames
  infer_instance

/-- Ways in which a run ends abnormally.  `elementNotFound` is the exception of
`VectorTools::which`, `allRemoved` the exception of line 201, `unknownCriterion` the one of
lines 191 and 224, `unknownDeletionMethod` the one of line 236.  `outOfRange` stands for a read
of `distances[0]` on an empty vector, and `outOfFuel` for a loop that is cut before it ends
(shown below never to happen). -/
inductive Error where
  | unknownCriterion
  | unknownDeletionMethod
  | elementNotFound
  | allRemoved
  | outOfRange
  | outOfFuel
deriving DecidableEq

/-- Lines 166-169: one entry `(dist(i, j), i, j)` for `i` from `0` to `size - 2` and `j` from
`i + 1` to `size - 1`, in this order.  (For `size = 0` the unsigned `size - 1` wraps around, but
the inner loop `j < 0` never runs: the list is empty as here.) -/
def buildDistances (m : DistanceMatrix) : List Index :=
  (List.range (m.size - 1)).flatMap fun i =>
    (List.range' (i + 1) (m.size - (i + 1))).map fun j => ⟨m.dist i j, i, j⟩

/-- Contract of `std::sort(distances.begin(), distances.end())` with `Index::operator<`: the
result is a rearrangement of the input in which no element is smaller than an earlier one.  The
relative order of entries of equal distance is not fixed by the contract. -/
def SortSpec (srt : List Index → List Index) : Prop :=
  ∀ l, (srt l).Perm l ∧ (srt l).Pairwise (fun a b => ¬ b.distance < a.distance)

/-- Straight insertion sort on `distance`: one conforming `std::sort` (equal entries keep their
order). -/
def stableSort (l : List Index) : List Index :=
  l.insertionSort (fun a b => a.distance ≤ b.distance)

/-- The loop of `std::remove_if` after the first match: `first` scans the vector, `result` is
the next position to write; an element that fails the predicate is copied to `result`. -/
def removeIfLoop (pred : Index → Bool) : Nat → Nat → Nat → List Index → List Index
  | 0, _, _, v => v
  | k + 1, first, result, v =>
    match v[first]? with
    | none => v
    | some x =>
      if pred x then removeIfLoop pred k (first + 1) result v
      else removeIfLoop pred k (first + 1) (result + 1) (v.set result x)

/-- The call `remove_if(distances.begin(), distances.end(), pred)` (lines 199 and 232): find the
first element satisfying `pred`, then shift the later elements that fail `pred` forward.  The
returned iterator is dropped by the program, so the vector keeps all its cells. -/
def remove_if (v : List Index) (pred : Index → Bool) : List Index :=
  let first := v.findIdx pred
  if first = v.length then v
  else removeIfLoop pred (v.length - (first + 1)) (first + 1) first v

/-- The function `VectorTools::which(v, x)` of the Bio++ library: position of the first
occurrence of `x` in `v`, an `ElementNotFoundException` when there is none. -/
def which (v : List String) (x : String) : Except Error Nat :=
  if v.indexOf x < v.length then .ok (v.indexOf x) else .error .elementNotFound

/-- The vector `seqLen` (lines 153-163): the number of complete sites of the sequence named
`getName(i)` when the criterion is `length.complete`, its number of sites otherwise. -/
def seqLen (m : DistanceMatrix) (nbSites nbCompleteSites : String → Nat) (critMeth : String)
    (i : Nat) : Nat :=
  if critMeth = "length.complete" then nbCompleteSites (m.getName i) else nbSites (m.getName i)

/-- Variables of `main` that the loops change: `seqNames`, `distances`, the labels shown by the
`Remove sequence` lines so far, and the number of coins flipped so far. -/
structure State where
  seqNames : List String
  distances : List Index
  removed : List String
  flips : Nat
deriving DecidableEq

/-- Lines 181-191 (and 214-224): the choice of `rm` among the two indices of `distances[0]`.
Returns `rm` and the number of coins flipped so far. -/
def chooseRm (critMeth : String) (sLen : Nat → Nat) (coins : Nat → Bool)
    (distances : List Index) (flips : Nat) : Except Error (Nat × Nat) :=
  if critMeth = "length" ∨ critMeth = "length.complete" then
    match distances.head? with
    | none => .error .outOfRange
    | some d0 => if sLen d0.i1 > sLen d0.i2 then .ok (d0.i2, flips) else .ok (d0.i1, flips)
  else if critMeth = "random" then
    match distances.head? with
    | none => .error .outOfRange
    | some d0 => if coins flips then .ok (d0.i2, flips + 1) else .ok (d0.i1, flips + 1)
  else .error .unknownCriterion

/-- Lines 180-199 (and 213-232): choose `rm`, look its name up in `seqNames`, show it, erase it
from `seqNames`, and call `remove_if` on `distances` with `Test(rm)`. -/
def removalStep (m : DistanceMatrix) (critMeth : String) (sLen : Nat → Nat) (coins : Nat → Bool)
    (st : State) : Except Error State :=
  match chooseRm critMeth sLen coins st.distances st.flips with
  | .error e => .error e
  | .ok (rm, flips) =>
    match which st.seqNames (m.getName rm) with
    | .error e => .error e
    | .ok pos =>
      .ok { seqNames := st.seqNames.eraseIdx pos
            distances := remove_if st.distances (Test rm)
            removed := st.removed ++ [st.seqNames.getD pos ""]
            flips := flips }

/-- Lines 178-202: the loop of the `threshold` deletion method, `fuel` bounding the number of
evaluations of the loop condition. -/
def thresholdLoop (m : DistanceMatrix) (critMeth : String) (sLen : Nat → Nat)
    (coins : Nat → Bool) (threshold : ℚ) : Nat → State → Except Error State
  | 0, _ => .error .outOfFuel
  | fuel + 1, st =>
    match st.distances.head? with
    | none => .error .outOfRange
    | some d0 =>
      if d0.distance ≤ threshold then
        match removalStep m critMeth sLen coins st with
        | .error e => .error e
        | .ok st' =>
          if st'.distances.length = 0 then .error .allRemoved
          else thresholdLoop m critMeth sLen coins threshold fuel st'
      else .ok st

/-- Lines 211-233: the loop of the `sample` deletion method. -/
def sampleLoop (m : DistanceMatrix) (critMeth : String) (sLen : Nat → Nat)
    (coins : Nat → Bool) (sampleSize : Nat) : Nat → State → Except Error State
  | 0, _ => .error .outOfFuel
  | fuel + 1, st =>
    if st.seqNames.length > sampleSize then
      match removalStep m critMeth sLen coins st with
      | .error e => .error e
      | .ok st' => sampleLoop m critMeth sLen coins sampleSize fuel st'
    else .ok st

/-- Parameters read from the option file: `deletion_method`, `choice_criterion`, `threshold`,
`sample_size`. -/
structure Params where
  deleteMeth : String
  critMeth : String
  threshold : ℚ
  sampleSize : Nat

/-- What a run that ends normally leaves: the labels written to the output alignment
(`seqNames`), the labels shown as removed, in order of removal, the final vector `distances`, and
the value of the last `displayResult` line (number of sequences kept, or minimal distance). -/
structure Output where
  seqNames : List String
  removed : List String
  distances : List Index
  numberKept : Option Nat
  minimalDistance : Option ℚ
deriving DecidableEq

/-- State at line 171: all names in matrix order, the sorted candidate list, nothing removed. -/
def initState (srt : List Index → List Index) (m : DistanceMatrix) : State :=
  { seqNames := (List.range m.size).map m.getName
    distances := srt (buildDistances m)
    removed := []
    flips := 0 }

/-- Lines 145-236 of `main`: scores, candidate list, and the loop of the deletion method.  Both
loops complete at least one removal per iteration that does not end the run, so `size + 1`
evaluations of the loop condition are enough (see `thresholdLoop_fuel`, `sampleLoop_fuel`). -/
def main (srt : List Index → List Index) (m : DistanceMatrix)
    (nbSites nbCompleteSites : String → Nat) (coins : Nat → Bool) (p : Params) :
    Except Error Output :=
  let sLen := seqLen m nbSites nbCompleteSites p.critMeth
  let st0 := initState srt m
  if p.deleteMeth = "threshold" then
    match thresholdLoop m p.critMeth sLen coins p.threshold (m.size + 1) st0 with
    | .error e => .error e
    | .ok st =>
      .ok { seqNames := st.seqNames, removed := st.removed, distances := st.distances
            numberKept := some st.seqNames.length, minimalDistance := none }
  else if p.deleteMeth = "sample" then
    match sampleLoop m p.critMeth sLen coins p.sampleSize (m.size + 1) st0 with
    | .error e => .error e
    | .ok st =>
      match st.distances.head? with
      | none => .error .outOfRange
      | some d0 =>
        .ok { seqNames := st.seqNames, removed := st.removed, distances := st.distances
              numberKept := none, minimalDistance := some d0.distance }
  else .error .unknownDeletionMethod

/-- What `remove_if` leaves in the vector, as a list: the elements failing `pred` in order,
followed by the old contents of the remaining cells. -/
def shifted (v : List Index) (pred : Index → Bool) : List Index :=
  v.filter (fun x => !pred x) ++ v.drop (v.filter (fun x => !pred x)).length

/-- The criterion is one of the three the program knows. -/
def KnownCriterion (critMeth : String) : Prop :=
  critMeth = "length" ∨ critMeth = "length.complete" ∨ critMeth = "random"

instance (critMeth : String) : Decidable (KnownCriterion critMeth) := by
  unfold KnownCriterion
  infer_instance

/-- State after a removal step that removes index `rm` (lines 194-199). -/
def stepped (m : DistanceMatrix) (st : State) (rm flips : Nat) : State :=
  { seqNames := st.seqNames.erase (m.getName rm)
    distances := remove_if st.distances (Test rm)
    removed := st.removed ++ [m.getName rm]
    flips := flips }

/-- The entry `x` touches no index of `R`. -/
def live (R : List Nat) (x : Index) : Bool :=
  decide (x.i1 ∉ R ∧ x.i2 ∉ R)

/-- The sorted candidate list `V0` of the matrix `m`: each entry is `(dist(i, j), i, j)` with
`i < j < size`, every such pair has its entry, and no entry is smaller than an earlier one. -/
structure Candidates (m : DistanceMatrix) (V0 : List Index) : Prop where
  wf : ∀ x ∈ V0, x.i1 < x.i2 ∧ x.i2 < m.size ∧ x.distance = m.dist x.i1 x.i2
  complete : ∀ i j, i < j → j < m.size → (⟨m.dist i j, i, j⟩ : Index) ∈ V0
  sorted : V0.Pairwise (fun a b => ¬ b.distance < a.distance)

/-- The state reached when exactly the indices of `R` (in order of removal) have been removed
and at least one pair of indices was left before each removal: `seqNames` holds the names of the
other indices, and `distances` begins with the entries of the other indices in sorted order. -/
structure Clean (m : DistanceMatrix) (V0 : List Index) (R : List Nat) (st : State) : Prop where
  names : st.seqNames.Perm
    (((List.range m.size).filter (fun i => decide (i ∉ R))).map m.getName)
  dists : ∃ junk, st.distances = V0.filter (live R) ++ junk
  removed : st.removed = R.map m.getName

deriving instance DecidableEq for Except

/-- Scenario A and B of the specification: labels A, B, C, D in matrix order,
`d(A, B) = 0.001`, every other distance `0.5`. -/
def scenarioA : DistanceMatrix where
  size := 4
  getName := fun i => ["A", "B", "C", "D"].getD i ""
  dist := fun i j =>
    if i = j then 0 else if i + j = 1 then mkRat 1 1000 else mkRat 1 2

/-- Scenario D of the specification: labels A, B, C, all pairwise distances `0.001`. -/
def scenarioD : DistanceMatrix where
  size := 3
  getName := fun i => ["A", "B", "C"].getD i ""
  dist := fun i j => if i = j then 0 else mkRat 1 1000

/-- All sequences have 5 sites: equal scores. -/
def equalScores : String → Nat := fun _ => 5

/-- A coin that always falls on the same side. -/
def constCoin (b : Bool) : Nat → Bool := fun _ => b

/-- Either at most one name is left, or the state is clean. -/
def CleanOrSmall (m : DistanceMatrix) (V0 : List Index) (st : State) : Prop :=
  st.seqNames.length ≤ 1 ∨ ∃ R, Clean m V0 R st

/-- The retained labels of a run that ends normally. -/
def retained (r : Except Error Output) : Option (List String) :=
  match r with
  | .ok out => some out.seqNames
  | .error _ => none

/-- The labels removed by a run that ends normally, in order of removal. -/
def removedLabels (r : Except Error Output) : Option (List String) :=
  match r with
  | .ok out => some out.removed
  | .error _ => none

/-- Scenario with different scores: A has 7 sites, every other sequence 5. -/
def longerA : String → Nat := fun s => if s = "A" then 7 else 5

/-- Three labels A, B, C with `d(A, B) = 0.001`, `d(B, C) = 0.002`, `d(A, C) = 0.9`. -/
def chain3 : DistanceMatrix where
  size := 3
  getName := fun i => ["A", "B", "C"].getD i ""
  dist := fun i j =>
    if i = j then 0 else if i + j = 1 then mkRat 1 1000 else if i + j = 3 then mkRat 2 1000
    else mkRat 9 10

/-- Coin flips: the second flip gives `true`, every other flip `false`. -/
def secondCoin : Nat → Bool := fun n => decide (n = 1)

/-- Scenario C of the specification: labels A, B, C, D, E, all pairwise distances `0.2`. -/
def scenarioC : DistanceMatrix where
  size := 5
  getName := fun i => ["A", "B", "C", "D", "E"].getD i ""
  dist := fun i j => if i = j then 0 else mkRat 1 5

/-- The states in which the threshold loop (lines 178-202) evaluates its condition, in order:
the state given, and the state left by each iteration that completes.  Same cases as
`thresholdLoop`. -/
def thresholdVisited (m : DistanceMatrix) (critMeth : String) (sLen : Nat → Nat)
    (coins : Nat → Bool) (threshold : ℚ) : Nat → State → List State
  | 0, _ => []
  | fuel + 1, st =>
    st ::
      match st.distances.head? with
      | none => []
      | some d0 =>
        if d0.distance ≤ threshold then
          match removalStep m critMeth sLen coins st with
          | .error _ => []
          | .ok st' =>
            if st'.distances.length = 0 then []
            else thresholdVisited m critMeth sLen coins threshold fuel st'
        else []

/-- The states in which the sample loop (lines 211-233) evaluates its condition, in order.  Same
cases as `sampleLoop`. -/
def sampleVisited (m : DistanceMatrix) (critMeth : String) (sLen : Nat → Nat)
    (coins : Nat → Bool) (sampleSize : Nat) : Nat → State → List State
  | 0, _ => []
  | fuel + 1, st =>
    st ::
      if st.seqNames.length > sampleSize then
        match removalStep m critMeth sLen coins st with
        | .error _ => []
        | .ok st' => sampleVisited m critMeth sLen coins sampleSize fuel st'
      else []

/-- The state is clean for the list of removed indices, and every cell of `distances` holds an
entry of the sorted candidate list `V0`. -/
def Tracked (m : DistanceMatrix) (V0 : List Index) (st : State) : Prop :=
  (∃ R, Clean m V0 R st) ∧ ∀ x ∈ st.distances, x ∈ V0

/-- The entry `x` joins two labels that are still in `names`. -/
def bothIn (m : DistanceMatrix) (names : List String) (x : Index) : Bool :=
  decide (m.getName x.i1 ∈ names ∧ m.getName x.i2 ∈ names)

/-- Scenario A after the removal of A: the state left by the first iteration. -/
def scenarioA_afterA : State :=
  stepped scenarioA (initState stableSort scenarioA) 0 0

/-- A matrix with the single label A. -/
def singleLabel : DistanceMatrix where
  size := 1
  getName := fun i => ["A"].getD i ""
  dist := fun _ _ => 0

/-! ## The call of `std::sort` as libstdc++ carries it out -/

/-!
Line 170, `sort(distances.begin(), distances.end())`, is `std::sort` of libstdc++ (GCC 12,
`bits/stl_algo.h` and `bits/stl_heap.h`) with `Index::operator<` as the comparison.  The
definitions below follow the functions of the library one by one, each under the name of the
function it follows.  An iterator is the position of a cell in the vector, and a function that
writes to the vector returns the new vector.  A loop is a recursion over a number of rounds, shown
below to be enough (`unguardedPartition_fuel`, `pushHeap_fuel`, `adjustHeapLoop_fuel`, `lg_fuel`,
`scanUp_stop`).  The `__unguarded` functions of the library test no bound, a sentinel element
being there to stop them; the scans `scanUp`, `scanDown` and `linearInsertLoop` stop at the ends
of the vector at the latest, which changes no run in which the scan of the library stays inside
the vector.
-/

/-- The test `*a < *b` of `Index::operator<` (line 91) on two cells of the vector.  A position
outside the vector compares false. -/
def lessAt (v : List Index) (a b : Nat) : Bool :=
  match v[a]?, v[b]? with
  | some x, some y => decide (x.distance < y.distance)
  | _, _ => false

/-- The test `val < *b` for a value held outside the vector. -/
def lessValAt (val : Index) (v : List Index) (b : Nat) : Bool :=
  match v[b]? with
  | some y => decide (val.distance < y.distance)
  | none => false

/-- The test `*a < val` for a value held outside the vector. -/
def lessAtVal (v : List Index) (a : Nat) (val : Index) : Bool :=
  match v[a]? with
  | some x => decide (x.distance < val.distance)
  | none => false

/-- The assignment `*dst = *src` between two cells of the vector. -/
def moveTo (v : List Index) (dst src : Nat) : List Index :=
  match v[src]? with
  | some x => v.set dst x
  | none => v

/-- The call `std::iter_swap(a, b)` on two cells of the vector. -/
def iterSwap (v : List Index) (a b : Nat) : List Index :=
  match v[a]?, v[b]? with
  | some x, some y => (v.set a y).set b x
  | _, _ => v

/-- libstdc++ `__move_median_to_first(result, a, b, c)`: swaps the median of the cells `a`, `b`,
`c` into the cell `result`. -/
def moveMedianToFirst (v : List Index) (result a b c : Nat) : List Index :=
  if lessAt v a b then
    if lessAt v b c then iterSwap v result b
    else if lessAt v a c then iterSwap v result c
    else iterSwap v result a
  else if lessAt v a c then iterSwap v result a
  else if lessAt v b c then iterSwap v result c
  else iterSwap v result b

/-- The scan `while (*first < *pivot) ++first` of `__unguarded_partition`; `fuel` is the number
of cells it may pass. -/
def scanUp (v : List Index) (pivot : Nat) : Nat → Nat → Nat
  | 0, first => first
  | fuel + 1, first =>
    if lessAt v first pivot then scanUp v pivot fuel (first + 1) else first

/-- The scan `while (*pivot < *last) --last` of `__unguarded_partition`; it stops at the front
of the vector at the latest. -/
def scanDown (v : List Index) (pivot : Nat) : Nat → Nat
  | 0 => 0
  | last + 1 => if lessAt v pivot (last + 1) then scanDown v pivot last else last + 1

/-- libstdc++ `__unguarded_partition(first, last, pivot)`: returns the cut and the vector.
Each round moves `last` down by one cell at least, so `fuel` rounds with `last < fuel` are
enough (`unguardedPartition_fuel`). -/
def unguardedPartition (pivot : Nat) : Nat → Nat → Nat → List Index → Nat × List Index
  | 0, first, _, v => (first, v)
  | fuel + 1, first, last, v =>
    let first1 := scanUp v pivot v.length first
    let last1 := scanDown v pivot (last - 1)
    if first1 < last1 then
      unguardedPartition pivot fuel (first1 + 1) last1 (iterSwap v first1 last1)
    else (first1, v)

/-- libstdc++ `__unguarded_partition_pivot(first, last)`. -/
def unguardedPartitionPivot (v : List Index) (first last : Nat) : Nat × List Index :=
  let mid := first + (last - first) / 2
  let v1 := moveMedianToFirst v first (first + 1) mid (last - 1)
  unguardedPartition first (last + 1) (first + 1) last v1

/-- libstdc++ `__push_heap(first, holeIndex, topIndex, value)`.  The hole moves to its parent
in each round, so `fuel` rounds with `holeIndex ≤ fuel` are enough. -/
def pushHeap (first topIndex : Nat) (value : Index) : Nat → Nat → List Index → List Index
  | 0, holeIndex, v => v.set (first + holeIndex) value
  | fuel + 1, holeIndex, v =>
    let parent := (holeIndex - 1) / 2
    if holeIndex > topIndex ∧ lessAtVal v (first + parent) value = true then
      pushHeap first topIndex value fuel parent (moveTo v (first + holeIndex) (first + parent))
    else v.set (first + holeIndex) value

/-- The `while` loop of libstdc++ `__adjust_heap`: the hole moves to its larger child.  At the
head of the loop `secondChild == holeIndex`, so one index stands for both; it is returned with
the vector. -/
def adjustHeapLoop (first len : Nat) : Nat → Nat → List Index → Nat × List Index
  | 0, holeIndex, v => (holeIndex, v)
  | fuel + 1, holeIndex, v =>
    if holeIndex < (len - 1) / 2 then
      let child := 2 * (holeIndex + 1)
      let child1 := if lessAt v (first + child) (first + (child - 1)) then child - 1 else child
      adjustHeapLoop first len fuel child1 (moveTo v (first + holeIndex) (first + child1))
    else (holeIndex, v)

/-- libstdc++ `__adjust_heap(first, holeIndex, len, value)`. -/
def adjustHeap (v : List Index) (first holeIndex len : Nat) (value : Index) : List Index :=
  let r := adjustHeapLoop first len len holeIndex v
  let r1 : Nat × List Index :=
    if len % 2 = 0 ∧ r.1 = (len - 2) / 2 then
      (2 * (r.1 + 1) - 1, moveTo r.2 (first + r.1) (first + (2 * (r.1 + 1) - 1)))
    else r
  pushHeap first holeIndex value r1.1 r1.1 r1.2

/-- libstdc++ `__pop_heap(first, last, result)`. -/
def popHeap (v : List Index) (first last result : Nat) : List Index :=
  match v[result]? with
  | some value => adjustHeap (moveTo v result first) first 0 (last - first) value
  | none => v

/-- The loop of libstdc++ `__make_heap(first, last)`, from `parent` down to 0. -/
def makeHeapLoop (first len : Nat) : Nat → List Index → List Index
  | 0, v =>
    match v[first]? with
    | some value => adjustHeap v first 0 len value
    | none => v
  | parent + 1, v =>
    match v[first + (parent + 1)]? with
    | some value => makeHeapLoop first len parent (adjustHeap v first (parent + 1) len value)
    | none => v

/-- libstdc++ `__make_heap(first, last)`. -/
def makeHeap (v : List Index) (first last : Nat) : List Index :=
  if last - first < 2 then v else makeHeapLoop first (last - first) ((last - first - 2) / 2) v

/-- libstdc++ `__sort_heap(first, last)`, by the number of cells `last - first`. -/
def sortHeap (first : Nat) : Nat → List Index → List Index
  | 0, v => v
  | 1, v => v
  | n + 2, v => sortHeap first (n + 1) (popHeap v first (first + (n + 1)) (first + (n + 1)))

/-- libstdc++ `__partial_sort(first, last, last)`, the heap sort `__introsort_loop` falls back
on: with `middle == last` the loop of `__heap_select` has nothing to go through. -/
def partialSort (v : List Index) (first last : Nat) : List Index :=
  sortHeap first (last - first) (makeHeap v first last)

/-- libstdc++ `__introsort_loop(first, last, depth_limit)`.  Every round of its loop and every
recursive call lowers `depth_limit` by one. -/
def introsortLoop : Nat → Nat → Nat → List Index → List Index
  | 0, first, last, v => if last - first > 16 then partialSort v first last else v
  | depth + 1, first, last, v =>
    if last - first > 16 then
      let r := unguardedPartitionPivot v first last
      introsortLoop depth first r.1 (introsortLoop depth r.1 last r.2)
    else v

/-- The loop of libstdc++ `__unguarded_linear_insert(last)` for the value `val` taken out of the
cell `last`: larger elements move up by one cell.  The real loop has no test for the front of the
vector; here it ends there at the latest. -/
def linearInsertLoop (val : Index) : Nat → List Index → List Index
  | 0, v => v.set 0 val
  | last + 1, v =>
    if lessValAt val v last then linearInsertLoop val last (moveTo v (last + 1) last)
    else v.set (last + 1) val

/-- libstdc++ `__unguarded_linear_insert(last)`. -/
def unguardedLinearInsert (v : List Index) (last : Nat) : List Index :=
  match v[last]? with
  | some val => linearInsertLoop val last v
  | none => v

/-- One round of the loop of libstdc++ `__insertion_sort(first, last)` with `first` the front
of the vector: an element smaller than the front one goes to the front (`move_backward`),
another one is inserted by `__unguarded_linear_insert`. -/
def insertionStep (v : List Index) (i : Nat) : List Index :=
  if lessAt v i 0 then
    match v[i]? with
    | some val => val :: (v.take i ++ v.drop (i + 1))
    | none => v
  else unguardedLinearInsert v i

/-- libstdc++ `__insertion_sort(first, last)` from the cell `i` on, `n` cells. -/
def insertionSortLoop : Nat → Nat → List Index → List Index
  | 0, _, v => v
  | n + 1, i, v => insertionSortLoop n (i + 1) (insertionStep v i)

/-- libstdc++ `__unguarded_insertion_sort(first, last)` from the cell `i` on, `n` cells. -/
def unguardedInsertionSortLoop : Nat → Nat → List Index → List Index
  | 0, _, v => v
  | n + 1, i, v => unguardedInsertionSortLoop n (i + 1) (unguardedLinearInsert v i)

/-- libstdc++ `__final_insertion_sort(first, last)` on the whole vector (`_S_threshold = 16`). -/
def finalInsertionSort (v : List Index) : List Index :=
  if v.length > 16 then
    unguardedInsertionSortLoop (v.length - 16) 16 (insertionSortLoop 15 1 v)
  else insertionSortLoop (v.length - 1) 1 v

/-- libstdc++ `std::__lg(n)`: the position of the highest set bit of `n`. -/
def lg : Nat → Nat → Nat
  | 0, _ => 0
  | fuel + 1, n => if n < 2 then 0 else lg fuel (n / 2) + 1

/-- The call `sort(distances.begin(), distances.end())` of line 170 as libstdc++ carries it out
(`std::__sort` with `Index::operator<`): the introsort loop, then the final insertion sort. -/
def stdSort (v : List Index) : List Index :=
  if v.length = 0 then v
  else finalInsertionSort (introsortLoop (lg v.length v.length * 2) 0 v.length v)

/-! ## The order of the sorted candidate list -/

/-- Insertion of `val` into a list held back to front (largest first): `val` goes behind the
elements that are larger, which is where `__unguarded_linear_insert` leaves it. -/
def insRev : List Index → Index → List Index
  | [], val => [val]
  | x :: xs, val => if val.distance < x.distance then x :: insRev xs val else val :: x :: xs

/-- The index order of the candidate list: `(i1, i2)` before `(j1, j2)` when `i1 < j1`, or
`i1 = j1` and `i2 < j2`. -/
def IndexLt (a b : Index) : Prop :=
  a.i1 < b.i1 ∨ (a.i1 = b.i1 ∧ a.i2 < b.i2)

instance (a b : Index) : Decidable (IndexLt a b) := by
  unfold IndexLt
  infer_instance

/-- The order the specification gives for the sorted candidate list: ascending by distance, and
entries of equal distance in increasing `(i, j)` index order. -/
def TieIndexOrder (l : List Index) : Prop :=
  l.Pairwise (fun a b => a.distance < b.distance ∨ (a.distance = b.distance ∧ IndexLt a b))

instance (l : List Index) : Decidable (TieIndexOrder l) := by
  unfold TieIndexOrder
  infer_instance

/-- Seven labels A to G with one tie: `d(A, B) = d(A, C) = 0.001`; every other distance is
`(10 i + j + 10) / 1000` for the labels of index `i < j`, so the other distances are pairwise
different, larger than `0.001`, and ascending in the order in which the list is built. -/
def sevenLabels : DistanceMatrix where
  size := 7
  getName := fun i => ["A", "B", "C", "D", "E", "F", "G"].getD i ""
  dist := fun i j =>
    if i = j then 0
    else if min i j = 0 ∧ max i j ≤ 2 then mkRat 1 1000
    else mkRat (10 * min i j + max i j + 10) 1000

/-! ## The semantics of `remove_if` -/

theorem filter_take_length_le (v : List Index) (q : Index → Bool) (i : Nat) :
    ((v.take i).filter q).length ≤ i := by
  calc ((v.take i).filter q).length ≤ (v.take i).length := List.length_filter_le _ _
    _ ≤ i := by simp

theorem drop_set_zero (l : List Index) (r : Nat) (x : Index) (h : r < l.length) :
    (l.drop r).set 0 x = x :: l.drop (r + 1) := by
  rw [List.drop_eq_getElem_cons h]
  rfl

theorem removeIfLoop_spec (pred : Index → Bool) (v0 : List Index) :
    ∀ (k i : Nat), i + k = v0.length →
      removeIfLoop pred k i ((v0.take i).filter (fun x => !pred x)).length
        ((v0.take i).filter (fun x => !pred x) ++
          v0.drop ((v0.take i).filter (fun x => !pred x)).length) = shifted v0 pred := by
  intro k
  induction k with
  | zero =>
    intro i hi
    have : i = v0.length := by omega
    subst this
    simp [removeIfLoop, shifted]
  | succ k ih =>
    intro i hi
    have hlt : i < v0.length := by omega
    have hr := filter_take_length_le v0 (fun x => !pred x) i
    have hget : ((v0.take i).filter (fun x => !pred x) ++
          v0.drop ((v0.take i).filter (fun x => !pred x)).length)[i]? = some v0[i] := by
      rw [List.getElem?_append_right hr, List.getElem?_drop]
      rw [Nat.add_sub_cancel' hr]
      exact List.getElem?_eq_getElem hlt
    have htake : v0.take (i + 1) = v0.take i ++ [v0[i]] := by
      rw [List.take_succ, List.getElem?_eq_getElem hlt]; rfl
    unfold removeIfLoop
    rw [hget]
    simp only
    by_cases hp : pred v0[i] = true
    · rw [if_pos hp]
      have := ih (i + 1) (by omega)
      rw [htake, List.filter_append] at this
      simpa [hp] using this
    · rw [if_neg hp]
      have := ih (i + 1) (by omega)
      rw [htake, List.filter_append] at this
      simp only [Bool.not_eq_true] at hp
      simp only [List.filter_cons, hp, Bool.not_false, List.filter_nil, if_true,
        List.length_append, List.length_cons, List.length_nil, List.append_assoc,
        List.singleton_append] at this
      rw [← this]
      congr 1
      rw [List.set_append_right _ _ (le_refl _)]
      congr 1
      rw [Nat.sub_self]
      exact drop_set_zero v0 _ _ (by omega)

theorem remove_if_eq (v : List Index) (pred : Index → Bool) :
    remove_if v pred = shifted v pred := by
  unfold remove_if
  simp only
  by_cases h : v.findIdx pred = v.length
  · rw [if_pos h]
    have hall : ∀ x ∈ v, pred x = false := by
      intro x hx
      by_contra hc
      have : v.findIdx pred < v.length := List.findIdx_lt_length_of_exists ⟨x, hx, by simpa using hc⟩
      omega
    have hf : v.filter (fun x => !pred x) = v := by
      rw [List.filter_eq_self]; intro a ha; simp [hall a ha]
    simp [shifted, hf]
  · rw [if_neg h]
    have hlt : v.findIdx pred < v.length := lt_of_le_of_ne (List.findIdx_le_length pred) h
    have hp : pred v[v.findIdx pred] = true := List.findIdx_getElem
    have hpre : (v.take (v.findIdx pred)).filter (fun x => !pred x) = v.take (v.findIdx pred) := by
      rw [List.filter_eq_self]
      intro a ha
      obtain ⟨j, hj, rfl⟩ := List.getElem_of_mem ha
      have hj' : j < v.findIdx pred := by
        have := hj; simp at this; exact this.1
      rw [List.getElem_take]
      have := List.not_of_lt_findIdx hj'
      simpa using this
    have htake : v.take (v.findIdx pred + 1) = v.take (v.findIdx pred) ++ [v[v.findIdx pred]] := by
      rw [List.take_succ, List.getElem?_eq_getElem hlt]; rfl
    have hfil : (v.take (v.findIdx pred + 1)).filter (fun x => !pred x) = v.take (v.findIdx pred) := by
      rw [htake, List.filter_append, hpre]; simp [hp]
    have := removeIfLoop_spec pred v (v.length - (v.findIdx pred + 1)) (v.findIdx pred + 1) (by omega)
    rw [hfil] at this
    have hlen : (v.take (v.findIdx pred)).length = v.findIdx pred := by
      simp; omega
    rw [hlen, List.take_append_drop] at this
    exact this

/-! ## `which`, `erase` -/

theorem which_of_mem (v : List String) (x : String) (h : x ∈ v) :
    which v x = .ok (v.indexOf x) := by
  unfold which
  rw [if_pos (List.indexOf_lt_length.mpr h)]

theorem which_of_not_mem (v : List String) (x : String) (h : x ∉ v) :
    which v x = .error .elementNotFound := by
  unfold which
  rw [if_neg (fun hlt => h (List.indexOf_lt_length.mp hlt))]

theorem eraseIdx_indexOf (v : List String) (x : String) :
    v.eraseIdx (v.indexOf x) = v.erase x := by
  induction v with
  | nil => rfl
  | cons a l ih =>
    by_cases h : a = x
    · subst h
      simp [List.indexOf_cons_self]
    · have h' : (a == x) = false := by simpa using h
      rw [List.indexOf_cons_ne _ h, List.eraseIdx_cons_succ, ih, List.erase_cons, h']
      simp

theorem getD_indexOf (v : List String) (x : String) (h : x ∈ v) :
    v.getD (v.indexOf x) "" = x := by
  have hlt := List.indexOf_lt_length.mpr h
  rw [List.getD_eq_getElem _ _ hlt]
  exact List.getElem_indexOf hlt

/-! ## One removal step -/

theorem chooseRm_cases (critMeth : String) (sLen : Nat → Nat) (coins : Nat → Bool)
    (d0 : Index) (tl : List Index) (flips : Nat) :
    (∃ rm fl, (rm = d0.i1 ∨ rm = d0.i2) ∧
        chooseRm critMeth sLen coins (d0 :: tl) flips = .ok (rm, fl)) ∨
      (¬ KnownCriterion critMeth ∧
        chooseRm critMeth sLen coins (d0 :: tl) flips = .error .unknownCriterion) := by
  unfold chooseRm KnownCriterion
  by_cases h1 : critMeth = "length" ∨ critMeth = "length.complete"
  · left
    rw [if_pos h1]
    simp only [List.head?_cons]
    by_cases hs : sLen d0.i1 > sLen d0.i2
    · exact ⟨d0.i2, flips, Or.inr rfl, by rw [if_pos hs]⟩
    · exact ⟨d0.i1, flips, Or.inl rfl, by rw [if_neg hs]⟩
  · rw [if_neg h1]
    by_cases h2 : critMeth = "random"
    · left
      rw [if_pos h2]
      simp only [List.head?_cons]
      by_cases hc : coins flips = true
      · exact ⟨d0.i2, flips + 1, Or.inr rfl, by rw [if_pos hc]⟩
      · exact ⟨d0.i1, flips + 1, Or.inl rfl, by rw [if_neg hc]⟩
    · right
      rw [if_neg h2]
      refine ⟨?_, rfl⟩
      rintro (h | h | h)
      · exact h1 (Or.inl h)
      · exact h1 (Or.inr h)
      · exact h2 h

theorem chooseRm_nil (critMeth : String) (sLen : Nat → Nat) (coins : Nat → Bool) (flips : Nat) :
    ∃ e, chooseRm critMeth sLen coins [] flips = .error e := by
  unfold chooseRm
  split
  · exact ⟨_, rfl⟩
  · split
    · exact ⟨_, rfl⟩
    · exact ⟨_, rfl⟩

/-- A removal step whose choice is `rm`: it succeeds exactly when the name of `rm` is still in
`seqNames`. -/
theorem removalStep_of_choice (m : DistanceMatrix) (critMeth : String) (sLen : Nat → Nat)
    (coins : Nat → Bool) (st : State) (rm fl : Nat)
    (h : chooseRm critMeth sLen coins st.distances st.flips = .ok (rm, fl)) :
    removalStep m critMeth sLen coins st =
      if m.getName rm ∈ st.seqNames then .ok (stepped m st rm fl)
      else .error .elementNotFound := by
  unfold removalStep
  rw [h]
  simp only
  by_cases hm : m.getName rm ∈ st.seqNames
  · rw [if_pos hm, which_of_mem _ _ hm]
    simp only [stepped, eraseIdx_indexOf, getD_indexOf _ _ hm]
  · rw [if_neg hm, which_of_not_mem _ _ hm]

/-- Shape of every removal step that completes. -/
theorem removalStep_ok (m : DistanceMatrix) (critMeth : String) (sLen : Nat → Nat)
    (coins : Nat → Bool) (st st' : State)
    (h : removalStep m critMeth sLen coins st = .ok st') :
    ∃ d0 tl rm fl, st.distances = d0 :: tl ∧ (rm = d0.i1 ∨ rm = d0.i2) ∧
      chooseRm critMeth sLen coins st.distances st.flips = .ok (rm, fl) ∧
      m.getName rm ∈ st.seqNames ∧ st' = stepped m st rm fl := by
  cases hd : st.distances with
  | nil =>
    obtain ⟨e, he⟩ := chooseRm_nil critMeth sLen coins st.flips
    unfold removalStep at h
    rw [hd, he] at h
    cases h
  | cons d0 tl =>
    rcases chooseRm_cases critMeth sLen coins d0 tl st.flips with ⟨rm, fl, hrm, hch⟩ | ⟨_, hch⟩
    · rw [← hd] at hch
      have := removalStep_of_choice m critMeth sLen coins st rm fl hch
      rw [this] at h
      by_cases hm : m.getName rm ∈ st.seqNames
      · rw [if_pos hm] at h
        refine ⟨d0, tl, rm, fl, rfl, hrm, ?_, hm, ?_⟩
        · rw [← hd]; exact hch
        · cases h; rfl
      · rw [if_neg hm] at h
        cases h
    · unfold removalStep at h
      rw [hd, hch] at h
      cases h

theorem shifted_length (v : List Index) (pred : Index → Bool) :
    (shifted v pred).length = v.length := by
  unfold shifted
  have := List.length_filter_le (fun x => !pred x) v
  simp only [List.length_append, List.length_drop]
  omega

theorem remove_if_length (v : List Index) (pred : Index → Bool) :
    (remove_if v pred).length = v.length := by
  rw [remove_if_eq, shifted_length]

theorem mem_remove_if (v : List Index) (pred : Index → Bool) (x : Index)
    (h : x ∈ remove_if v pred) : x ∈ v := by
  rw [remove_if_eq] at h
  unfold shifted at h
  rcases List.mem_append.mp h with h | h
  · exact (List.mem_filter.mp h).1
  · exact List.mem_of_mem_drop h

theorem stepped_length (m : DistanceMatrix) (st : State) (rm fl : Nat)
    (h : m.getName rm ∈ st.seqNames) :
    (stepped m st rm fl).seqNames.length + 1 = st.seqNames.length := by
  simp only [stepped]
  rw [List.length_erase_of_mem h]
  have : 0 < st.seqNames.length := List.length_pos_of_mem h
  omega

theorem stepped_perm (m : DistanceMatrix) (st : State) (rm fl : Nat)
    (h : m.getName rm ∈ st.seqNames) :
    ((stepped m st rm fl).removed ++ (stepped m st rm fl).seqNames).Perm
      (st.removed ++ st.seqNames) := by
  simp only [stepped, List.append_assoc, List.singleton_append]
  exact List.Perm.append_left _ (List.perm_cons_erase h).symm

/-! ## The loops: fuel and invariants -/

theorem chooseRm_nil_cases (critMeth : String) (sLen : Nat → Nat) (coins : Nat → Bool)
    (flips : Nat) :
    chooseRm critMeth sLen coins [] flips = .error .outOfRange ∨
      chooseRm critMeth sLen coins [] flips = .error .unknownCriterion := by
  unfold chooseRm
  split
  · exact Or.inl rfl
  · split
    · exact Or.inl rfl
    · exact Or.inr rfl

theorem removalStep_error (m : DistanceMatrix) (critMeth : String) (sLen : Nat → Nat)
    (coins : Nat → Bool) (st : State) (e : Error)
    (h : removalStep m critMeth sLen coins st = .error e) :
    e = .unknownCriterion ∨ e = .outOfRange ∨ e = .elementNotFound := by
  cases hd : st.distances with
  | nil =>
    rcases chooseRm_nil_cases critMeth sLen coins st.flips with he | he <;>
    · unfold removalStep at h
      rw [hd, he] at h
      cases h
      simp
  | cons d0 tl =>
    rcases chooseRm_cases critMeth sLen coins d0 tl st.flips with ⟨rm, fl, _, hch⟩ | ⟨_, hch⟩
    · rw [← hd] at hch
      rw [removalStep_of_choice m critMeth sLen coins st rm fl hch] at h
      by_cases hm : m.getName rm ∈ st.seqNames
      · rw [if_pos hm] at h; cases h
      · rw [if_neg hm] at h; cases h; exact Or.inr (Or.inr rfl)
    · unfold removalStep at h
      rw [hd, hch] at h
      cases h
      exact Or.inl rfl

theorem removalStep_length (m : DistanceMatrix) (critMeth : String) (sLen : Nat → Nat)
    (coins : Nat → Bool) (st st' : State)
    (h : removalStep m critMeth sLen coins st = .ok st') :
    st'.seqNames.length + 1 = st.seqNames.length := by
  obtain ⟨d0, tl, rm, fl, _, _, _, hm, rfl⟩ := removalStep_ok m critMeth sLen coins st st' h
  exact stepped_length m st rm fl hm

theorem removalStep_distances_length (m : DistanceMatrix) (critMeth : String) (sLen : Nat → Nat)
    (coins : Nat → Bool) (st st' : State)
    (h : removalStep m critMeth sLen coins st = .ok st') :
    st'.distances.length = st.distances.length := by
  obtain ⟨d0, tl, rm, fl, _, _, _, hm, rfl⟩ := removalStep_ok m critMeth sLen coins st st' h
  simp only [stepped, remove_if_length]

/-- The threshold loop never stops for lack of fuel when it is given more fuel than there are
names left: each iteration that continues erases one name. -/
theorem thresholdLoop_fuel (m : DistanceMatrix) (critMeth : String) (sLen : Nat → Nat)
    (coins : Nat → Bool) (t : ℚ) :
    ∀ (fuel : Nat) (st : State), st.seqNames.length < fuel →
      thresholdLoop m critMeth sLen coins t fuel st ≠ .error .outOfFuel := by
  intro fuel
  induction fuel with
  | zero => intro st h; omega
  | succ fuel ih =>
    intro st h
    unfold thresholdLoop
    cases hd : st.distances.head? with
    | none => simp
    | some d0 =>
      simp only
      split
      · cases hs : removalStep m critMeth sLen coins st with
        | error e =>
          simp only
          rcases removalStep_error m critMeth sLen coins st e hs with h1 | h1 | h1 <;>
            simp [h1]
        | ok st' =>
          simp only
          split
          · simp
          · apply ih
            have := removalStep_length m critMeth sLen coins st st' hs
            omega
      · simp

/-- The sample loop never stops for lack of fuel under the same condition. -/
theorem sampleLoop_fuel (m : DistanceMatrix) (critMeth : String) (sLen : Nat → Nat)
    (coins : Nat → Bool) (k : Nat) :
    ∀ (fuel : Nat) (st : State), st.seqNames.length < fuel →
      sampleLoop m critMeth sLen coins k fuel st ≠ .error .outOfFuel := by
  intro fuel
  induction fuel with
  | zero => intro st h; omega
  | succ fuel ih =>
    intro st h
    unfold sampleLoop
    split
    · cases hs : removalStep m critMeth sLen coins st with
      | error e =>
        simp only
        rcases removalStep_error m critMeth sLen coins st e hs with h1 | h1 | h1 <;>
          simp [h1]
      | ok st' =>
        simp only
        apply ih
        have := removalStep_length m critMeth sLen coins st st' hs
        omega
    · simp

/-- A property of states kept by every completed removal step holds at the end of the threshold
loop; at the end the front entry is above the threshold. -/
theorem thresholdLoop_invariant (m : DistanceMatrix) (critMeth : String) (sLen : Nat → Nat)
    (coins : Nat → Bool) (t : ℚ) (P : State → Prop)
    (hstep : ∀ st st', P st → removalStep m critMeth sLen coins st = .ok st' → P st') :
    ∀ (fuel : Nat) (st st' : State), P st →
      thresholdLoop m critMeth sLen coins t fuel st = .ok st' →
      P st' ∧ ∃ d0, st'.distances.head? = some d0 ∧ ¬ d0.distance ≤ t := by
  intro fuel
  induction fuel with
  | zero => intro st st' _ h; simp [thresholdLoop] at h
  | succ fuel ih =>
    intro st st' hP h
    unfold thresholdLoop at h
    cases hd : st.distances.head? with
    | none => rw [hd] at h; simp at h
    | some d0 =>
      rw [hd] at h
      simp only at h
      by_cases hle : d0.distance ≤ t
      · rw [if_pos hle] at h
        cases hs : removalStep m critMeth sLen coins st with
        | error e => rw [hs] at h; simp at h
        | ok st1 =>
          rw [hs] at h
          simp only at h
          split at h
          · simp at h
          · exact ih st1 st' (hstep st st1 hP hs) h
      · rw [if_neg hle] at h
        cases h
        exact ⟨hP, d0, hd, hle⟩

/-- A property of states kept by every completed removal step holds at the end of the sample
loop; at the end at most `k` names are left. -/
theorem sampleLoop_invariant (m : DistanceMatrix) (critMeth : String) (sLen : Nat → Nat)
    (coins : Nat → Bool) (k : Nat) (P : State → Prop)
    (hstep : ∀ st st', P st → removalStep m critMeth sLen coins st = .ok st' → P st') :
    ∀ (fuel : Nat) (st st' : State), P st →
      sampleLoop m critMeth sLen coins k fuel st = .ok st' →
      P st' ∧ st'.seqNames.length ≤ k := by
  intro fuel
  induction fuel with
  | zero => intro st st' _ h; simp [sampleLoop] at h
  | succ fuel ih =>
    intro st st' hP h
    unfold sampleLoop at h
    by_cases hgt : st.seqNames.length > k
    · rw [if_pos hgt] at h
      cases hs : removalStep m critMeth sLen coins st with
      | error e => rw [hs] at h; simp at h
      | ok st1 =>
        rw [hs] at h
        exact ih st1 st' (hstep st st1 hP hs) h
    · rw [if_neg hgt] at h
      cases h
      exact ⟨hP, by omega⟩

/-! ## The candidate list -/

theorem mem_buildDistances (m : DistanceMatrix) (x : Index) :
    x ∈ buildDistances m ↔ x.i1 < x.i2 ∧ x.i2 < m.size ∧ x.distance = m.dist x.i1 x.i2 := by
  unfold buildDistances
  simp only [List.mem_flatMap, List.mem_range, List.mem_map, List.mem_range'_1]
  constructor
  · rintro ⟨i, hi, j, hj, rfl⟩
    simp only
    exact ⟨by omega, by omega, trivial⟩
  · rintro ⟨h1, h2, h3⟩
    refine ⟨x.i1, by omega, x.i2, by omega, ?_⟩
    cases x
    simp only at h3 ⊢
    rw [h3]

theorem candidates_of_sort (srt : List Index → List Index) (hs : SortSpec srt)
    (m : DistanceMatrix) : Candidates m (srt (buildDistances m)) := by
  obtain ⟨hperm, hsorted⟩ := hs (buildDistances m)
  refine ⟨?_, ?_, hsorted⟩
  · intro x hx
    exact (mem_buildDistances m x).mp (hperm.mem_iff.mp hx)
  · intro i j hij hj
    exact hperm.mem_iff.mpr ((mem_buildDistances m _).mpr ⟨hij, hj, rfl⟩)

theorem stableSort_spec : SortSpec stableSort := by
  intro l
  refine ⟨List.perm_insertionSort _ l, ?_⟩
  have h : (l.insertionSort (fun a b : Index => a.distance ≤ b.distance)).Sorted
      (fun a b : Index => a.distance ≤ b.distance) := by
    haveI : IsTotal Index (fun a b : Index => a.distance ≤ b.distance) :=
      ⟨fun a b => le_total a.distance b.distance⟩
    haveI : IsTrans Index (fun a b : Index => a.distance ≤ b.distance) :=
      ⟨fun a b c hab hbc => le_trans hab hbc⟩
    exact List.sorted_insertionSort _ l
  exact List.Pairwise.imp (fun hab => not_lt.mpr hab) h

theorem live_append (R : List Nat) (rm : Nat) (x : Index) :
    ((!Test rm x) && live R x) = live (R ++ [rm]) x := by
  unfold Test live
  by_cases h1 : x.i1 = rm <;> by_cases h2 : x.i2 = rm <;> by_cases h3 : x.i1 ∈ R <;>
    by_cases h4 : x.i2 ∈ R <;> simp [h1, h2, h3, h4]

theorem filter_live_append (V : List Index) (R : List Nat) (rm : Nat) :
    (V.filter (live R)).filter (fun x => !Test rm x) = V.filter (live (R ++ [rm])) := by
  rw [List.filter_filter]
  congr 1
  funext x
  exact live_append R rm x

/-! ## Clean states -/

theorem getName_inj (m : DistanceMatrix) (hu : m.UniqueNames) (i j : Nat) (hi : i < m.size)
    (hj : j < m.size) (h : m.getName i = m.getName j) : i = j :=
  List.inj_on_of_nodup_map hu (List.mem_range.mpr hi) (List.mem_range.mpr hj) h

theorem map_erase_perm (f : Nat → String) (a : Nat) :
    ∀ (L : List Nat), L.Nodup → a ∈ L →
      ((L.map f).erase (f a)).Perm ((L.filter (fun i => decide (i ≠ a))).map f) := by
  intro L
  induction L with
  | nil => intro _ h; cases h
  | cons x xs ih =>
    intro hnd ha
    have hnd' := List.nodup_cons.mp hnd
    by_cases hx : x = a
    · subst hx
      have hfil : xs.filter (fun i => decide (i ≠ x)) = xs := by
        rw [List.filter_eq_self]
        intro y hy
        have : y ≠ x := fun e => hnd'.1 (e ▸ hy)
        simpa using this
      rw [List.map_cons, List.erase_cons_head, List.filter_cons_of_neg (by simp), hfil]
    · have ha' : a ∈ xs := by
        rcases List.mem_cons.mp ha with h | h
        · exact absurd h.symm hx
        · exact h
      have hih := ih hnd'.2 ha'
      rw [List.filter_cons_of_pos (by simpa using hx), List.map_cons, List.map_cons]
      by_cases hf : f x = f a
      · rw [hf, List.erase_cons_head]
        have hmem : f a ∈ xs.map f := List.mem_map_of_mem f ha'
        exact (List.perm_cons_erase hmem).trans (List.Perm.cons _ hih)
      · have hb : (f x == f a) = false := by simpa using hf
        rw [List.erase_cons, hb]
        exact List.Perm.cons _ hih

theorem alive_filter_append (n : Nat) (R : List Nat) (rm : Nat) :
    ((List.range n).filter (fun i => decide (i ∉ R))).filter (fun i => decide (i ≠ rm)) =
      (List.range n).filter (fun i => decide (i ∉ R ++ [rm])) := by
  rw [List.filter_filter]
  congr 1
  funext i
  by_cases h1 : i = rm <;> by_cases h2 : i ∈ R <;> simp [h1, h2]

/-- The name of an index that is not removed is in `seqNames`. -/
theorem clean_mem_of_live (m : DistanceMatrix) (V0 : List Index) (R : List Nat) (st : State)
    (hcl : Clean m V0 R st) (i : Nat) (hi : i < m.size) (h : i ∉ R) :
    m.getName i ∈ st.seqNames := by
  rw [hcl.names.mem_iff, List.mem_map]
  exact ⟨i, List.mem_filter.mpr ⟨List.mem_range.mpr hi, by simpa using h⟩, rfl⟩

theorem clean_mem_names (m : DistanceMatrix) (hu : m.UniqueNames) (V0 : List Index)
    (R : List Nat) (st : State) (hcl : Clean m V0 R st) (i : Nat) (hi : i < m.size) :
    m.getName i ∈ st.seqNames ↔ i ∉ R := by
  rw [hcl.names.mem_iff, List.mem_map]
  constructor
  · rintro ⟨j, hj, hij⟩
    have hj' := List.mem_filter.mp hj
    have := getName_inj m hu j i (List.mem_range.mp hj'.1) hi hij
    subst this
    simpa using hj'.2
  · intro h
    exact ⟨i, List.mem_filter.mpr ⟨List.mem_range.mpr hi, by simpa using h⟩, rfl⟩

/-- In a clean state with at least two names left, `distances[0]` is an entry whose two indices
are not removed, and no entry of two such indices has a smaller distance. -/
theorem clean_front (m : DistanceMatrix) (V0 : List Index) (hc : Candidates m V0)
    (R : List Nat) (st : State) (hcl : Clean m V0 R st) (h2 : 2 ≤ st.seqNames.length) :
    ∃ d0 tl, st.distances = d0 :: tl ∧ d0 ∈ V0 ∧ live R d0 = true ∧
      ∀ y ∈ V0, live R y = true → ¬ y.distance < d0.distance := by
  have hlen : 2 ≤ ((List.range m.size).filter (fun i => decide (i ∉ R))).length := by
    have := hcl.names.length_eq
    simp only [List.length_map] at this
    omega
  have hnd : ((List.range m.size).filter (fun i => decide (i ∉ R))).Nodup :=
    (List.nodup_range m.size).filter _
  obtain ⟨x, hx⟩ : ∃ x, x ∈ V0.filter (live R) := by
    match hL : (List.range m.size).filter (fun i => decide (i ∉ R)), hlen, hnd with
    | a :: b :: rest, _, hnd' =>
      have ha : a ∈ (List.range m.size).filter (fun i => decide (i ∉ R)) := by
        rw [hL]; simp
      have hb : b ∈ (List.range m.size).filter (fun i => decide (i ∉ R)) := by
        rw [hL]; simp
      have hab : a ≠ b := by
        intro e
        have := (List.nodup_cons.mp hnd').1
        exact this (e ▸ List.mem_cons_self _ _)
      obtain ⟨ha1, ha2⟩ := List.mem_filter.mp ha
      obtain ⟨hb1, hb2⟩ := List.mem_filter.mp hb
      have ha1' := List.mem_range.mp ha1
      have hb1' := List.mem_range.mp hb1
      have ha2' : a ∉ R := by simpa using ha2
      have hb2' : b ∉ R := by simpa using hb2
      rcases Nat.lt_or_gt_of_ne hab with hlt | hlt
      · exact ⟨⟨m.dist a b, a, b⟩, List.mem_filter.mpr ⟨hc.complete a b hlt hb1', by
          simp [live, ha2', hb2']⟩⟩
      · exact ⟨⟨m.dist b a, b, a⟩, List.mem_filter.mpr ⟨hc.complete b a hlt ha1', by
          simp [live, ha2', hb2']⟩⟩
  obtain ⟨junk, hj⟩ := hcl.dists
  have hsorted : (V0.filter (live R)).Pairwise (fun a b => ¬ b.distance < a.distance) :=
    hc.sorted.filter _
  cases hF : V0.filter (live R) with
  | nil => rw [hF] at hx; cases hx
  | cons d0 tl =>
    have hd0 : d0 ∈ V0.filter (live R) := by rw [hF]; exact List.mem_cons_self _ _
    rw [hF] at hsorted
    refine ⟨d0, tl ++ junk, by rw [hj, hF]; rfl, (List.mem_filter.mp hd0).1,
      (List.mem_filter.mp hd0).2, ?_⟩
    intro y hy hly
    have : y ∈ d0 :: tl := by rw [← hF]; exact List.mem_filter.mpr ⟨hy, hly⟩
    rcases List.mem_cons.mp this with rfl | hmem
    · exact lt_irrefl _
    · exact (List.pairwise_cons.mp hsorted).1 y hmem

/-- Removing a live index `rm` from a clean state gives the clean state of `R ++ [rm]`. -/
theorem clean_stepped (m : DistanceMatrix) (V0 : List Index)
    (R : List Nat) (st : State) (hcl : Clean m V0 R st) (rm fl : Nat) (hrm : rm < m.size)
    (hnR : rm ∉ R) :
    Clean m V0 (R ++ [rm]) (stepped m st rm fl) := by
  refine ⟨?_, ?_, ?_⟩
  · simp only [stepped]
    have hmem : rm ∈ (List.range m.size).filter (fun i => decide (i ∉ R)) :=
      List.mem_filter.mpr ⟨List.mem_range.mpr hrm, by simpa using hnR⟩
    have h1 := List.Perm.erase (m.getName rm) hcl.names
    have h2 := map_erase_perm m.getName rm _ ((List.nodup_range m.size).filter _) hmem
    rw [alive_filter_append] at h2
    exact h1.trans h2
  · obtain ⟨junk, hj⟩ := hcl.dists
    simp only [stepped]
    rw [remove_if_eq, hj]
    unfold shifted
    rw [List.filter_append, filter_live_append, List.append_assoc]
    exact ⟨_, rfl⟩
  · simp only [stepped]
    rw [hcl.removed]
    simp

/-- A removal step in a clean state with at least two names left and a known criterion
completes: it removes an endpoint of the front entry, and the state stays clean. -/
theorem removalStep_clean (m : DistanceMatrix) (V0 : List Index)
    (hc : Candidates m V0) (critMeth : String) (hk : KnownCriterion critMeth)
    (sLen : Nat → Nat) (coins : Nat → Bool) (R : List Nat) (st : State)
    (hcl : Clean m V0 R st) (h2 : 2 ≤ st.seqNames.length) :
    ∃ rm fl, rm < m.size ∧ rm ∉ R ∧
      removalStep m critMeth sLen coins st = .ok (stepped m st rm fl) ∧
      Clean m V0 (R ++ [rm]) (stepped m st rm fl) ∧
      (stepped m st rm fl).seqNames.length + 1 = st.seqNames.length := by
  obtain ⟨d0, tl, hd, hd0, hlive, _⟩ := clean_front m V0 hc R st hcl h2
  obtain ⟨h12, h2s, _⟩ := hc.wf d0 hd0
  have hl : d0.i1 ∉ R ∧ d0.i2 ∉ R := by simpa [live] using hlive
  rcases chooseRm_cases critMeth sLen coins d0 tl st.flips with ⟨rm, fl, hrm, hch⟩ | ⟨hn, _⟩
  · have hlt : rm < m.size := by rcases hrm with rfl | rfl <;> omega
    have hnR : rm ∉ R := by rcases hrm with rfl | rfl; exact hl.1; exact hl.2
    have hmem : m.getName rm ∈ st.seqNames := clean_mem_of_live m V0 R st hcl rm hlt hnR
    rw [← hd] at hch
    refine ⟨rm, fl, hlt, hnR, ?_, clean_stepped m V0 R st hcl rm fl hlt hnR,
      stepped_length m st rm fl hmem⟩
    rw [removalStep_of_choice m critMeth sLen coins st rm fl hch, if_pos hmem]
  · exact absurd hk hn

/-! ## The initial state -/

theorem live_nil (x : Index) : live [] x = true := by
  simp [live]

theorem initState_clean (srt : List Index → List Index) (m : DistanceMatrix) :
    Clean m (srt (buildDistances m)) [] (initState srt m) := by
  refine ⟨?_, ⟨[], ?_⟩, rfl⟩
  · have : (List.range m.size).filter (fun i => decide (i ∉ ([] : List Nat))) =
        List.range m.size := by
      rw [List.filter_eq_self]
      intro a _
      simp
    rw [this]
    exact List.Perm.refl _
  · have : (srt (buildDistances m)).filter (live []) = srt (buildDistances m) := by
      rw [List.filter_eq_self]
      intro a _
      exact live_nil a
    rw [this]
    simp [initState]

theorem initState_names_length (srt : List Index → List Index) (m : DistanceMatrix) :
    (initState srt m).seqNames.length = m.size := by
  simp [initState]

theorem initState_distances_ne_nil (srt : List Index → List Index) (hs : SortSpec srt)
    (m : DistanceMatrix) (hn : 2 ≤ m.size) : (initState srt m).distances ≠ [] := by
  have h := (candidates_of_sort srt hs m).complete 0 1 (by omega) (by omega)
  intro e
  simp only [initState] at e
  rw [e] at h
  cases h

/-! ## Sample mode reaches the sample size -/

theorem sampleLoop_clean (m : DistanceMatrix) (V0 : List Index)
    (hc : Candidates m V0) (critMeth : String) (hk : KnownCriterion critMeth)
    (sLen : Nat → Nat) (coins : Nat → Bool) (k : Nat) (hk1 : 1 ≤ k) :
    ∀ (fuel : Nat) (R : List Nat) (st : State), Clean m V0 R st → k ≤ st.seqNames.length →
      st.seqNames.length - k < fuel →
      ∃ st', sampleLoop m critMeth sLen coins k fuel st = .ok st' ∧ st'.seqNames.length = k ∧
        st'.distances.length = st.distances.length ∧ ∃ R', Clean m V0 R' st' := by
  intro fuel
  induction fuel with
  | zero => intro R st _ _ h; omega
  | succ fuel ih =>
    intro R st hcl hle hfuel
    unfold sampleLoop
    by_cases hgt : st.seqNames.length > k
    · rw [if_pos hgt]
      obtain ⟨rm, fl, _, _, hstep, hcl', hlen⟩ :=
        removalStep_clean m V0 hc critMeth hk sLen coins R st hcl (by omega)
      rw [hstep]
      simp only
      obtain ⟨st', h1, h2, h3, h4⟩ := ih (R ++ [rm]) (stepped m st rm fl) hcl' (by omega)
        (by omega)
      refine ⟨st', h1, h2, ?_, h4⟩
      rw [h3]
      simp only [stepped, remove_if_length]
    · rw [if_neg hgt]
      exact ⟨st, rfl, by omega, rfl, R, hcl⟩

/-! ## The two branches of `main` -/

theorem main_threshold (srt : List Index → List Index) (m : DistanceMatrix)
    (nbSites nbCompleteSites : String → Nat) (coins : Nat → Bool) (p : Params)
    (hd : p.deleteMeth = "threshold") :
    main srt m nbSites nbCompleteSites coins p =
      match thresholdLoop m p.critMeth (seqLen m nbSites nbCompleteSites p.critMeth) coins
          p.threshold (m.size + 1) (initState srt m) with
      | .error e => .error e
      | .ok st =>
        .ok { seqNames := st.seqNames, removed := st.removed, distances := st.distances
              numberKept := some st.seqNames.length, minimalDistance := none } := by
  unfold main
  simp only [hd, if_true]

theorem main_sample (srt : List Index → List Index) (m : DistanceMatrix)
    (nbSites nbCompleteSites : String → Nat) (coins : Nat → Bool) (p : Params)
    (hd : p.deleteMeth = "sample") :
    main srt m nbSites nbCompleteSites coins p =
      match sampleLoop m p.critMeth (seqLen m nbSites nbCompleteSites p.critMeth) coins
          p.sampleSize (m.size + 1) (initState srt m) with
      | .error e => .error e
      | .ok st =>
        match st.distances.head? with
        | none => .error .outOfRange
        | some d0 =>
          .ok { seqNames := st.seqNames, removed := st.removed, distances := st.distances
                numberKept := none, minimalDistance := some d0.distance } := by
  unfold main
  have : ¬ ("sample" = "threshold") := by decide
  simp only [hd, this, if_false, if_true]

/-- The fuel given to the loops by `main` is never used up: the result of `main` is the result
of the program's loop. -/
theorem main_ne_outOfFuel (srt : List Index → List Index) (m : DistanceMatrix)
    (nbSites nbCompleteSites : String → Nat) (coins : Nat → Bool) (p : Params) :
    main srt m nbSites nbCompleteSites coins p ≠ .error .outOfFuel := by
  have hlen : (initState srt m).seqNames.length < m.size + 1 := by
    rw [initState_names_length]; omega
  by_cases hd : p.deleteMeth = "threshold"
  · rw [main_threshold srt m nbSites nbCompleteSites coins p hd]
    have := thresholdLoop_fuel m p.critMeth (seqLen m nbSites nbCompleteSites p.critMeth)
      coins p.threshold (m.size + 1) (initState srt m) hlen
    cases hl : thresholdLoop m p.critMeth (seqLen m nbSites nbCompleteSites p.critMeth) coins
        p.threshold (m.size + 1) (initState srt m) with
    | error e =>
      rw [hl] at this
      simp only
      intro h
      cases h
      exact this rfl
    | ok st => simp
  · by_cases hd' : p.deleteMeth = "sample"
    · rw [main_sample srt m nbSites nbCompleteSites coins p hd']
      have := sampleLoop_fuel m p.critMeth (seqLen m nbSites nbCompleteSites p.critMeth)
        coins p.sampleSize (m.size + 1) (initState srt m) hlen
      cases hl : sampleLoop m p.critMeth (seqLen m nbSites nbCompleteSites p.critMeth) coins
          p.sampleSize (m.size + 1) (initState srt m) with
      | error e =>
        rw [hl] at this
        simp only
        intro h
        cases h
        exact this rfl
      | ok st =>
        simp only
        cases st.distances.head? <;> simp
    · unfold main
      simp only [hd, hd', if_false]
      simp

/-! ## Sample-size correctness -/

/-- C1 (sample-size correctness): on a matrix of `n ≥ 2` labels, for every conforming sort,
every score assignment, every known criterion (for `random`: every sequence of coin flips) and
every sample size `k` with `1 ≤ k ≤ n`, the `sample` run ends without error and the retained
list `seqNames` has exactly `k` entries. -/
theorem sample_size_correct (srt : List Index → List Index) (hs : SortSpec srt)
    (m : DistanceMatrix) (hn : 2 ≤ m.size)
    (nbSites nbCompleteSites : String → Nat) (coins : Nat → Bool) (p : Params)
    (hd : p.deleteMeth = "sample") (hk : KnownCriterion p.critMeth)
    (h1 : 1 ≤ p.sampleSize) (h2 : p.sampleSize ≤ m.size) :
    ∃ out, main srt m nbSites nbCompleteSites coins p = .ok out ∧
      out.seqNames.length = p.sampleSize := by
  have hc := candidates_of_sort srt hs m
  have hlen := initState_names_length srt m
  obtain ⟨st', hrun, hk', hdl, _⟩ := sampleLoop_clean m _ hc p.critMeth hk
    (seqLen m nbSites nbCompleteSites p.critMeth) coins p.sampleSize h1 (m.size + 1) []
    (initState srt m) (initState_clean srt m) (by omega) (by omega)
  rw [main_sample srt m nbSites nbCompleteSites coins p hd, hrun]
  simp only
  cases hh : st'.distances with
  | nil =>
    have h0 := initState_distances_ne_nil srt hs m hn
    rw [hh] at hdl
    exact absurd (List.length_eq_zero.mp hdl.symm) h0
  | cons d0 tl => exact ⟨_, rfl, hk'⟩

theorem sample_size_correct_witness :
    ∃ out, main stableSort scenarioA equalScores equalScores (constCoin false)
        ⟨"sample", "length", 0, 3⟩ = .ok out ∧ out.seqNames.length = 3 :=
  sample_size_correct stableSort stableSort_spec scenarioA (by decide)
    equalScores equalScores (constCoin false) ⟨"sample", "length", 0, 3⟩ rfl (Or.inl rfl)
    (by decide) (by decide)

/-! ## Threshold mode -/

theorem cleanOrSmall_step (m : DistanceMatrix) (V0 : List Index)
    (hc : Candidates m V0) (critMeth : String) (sLen : Nat → Nat) (coins : Nat → Bool)
    (st st' : State) (hP : CleanOrSmall m V0 st)
    (h : removalStep m critMeth sLen coins st = .ok st') : CleanOrSmall m V0 st' := by
  have hlen := removalStep_length m critMeth sLen coins st st' h
  by_cases h2 : 2 ≤ st.seqNames.length
  · rcases hP with hP | ⟨R, hcl⟩
    · omega
    · obtain ⟨d0, tl, hd, hd0, hlive, _⟩ := clean_front m V0 hc R st hcl h2
      obtain ⟨d0', tl', rm, fl, hd', hrm, _, _, rfl⟩ :=
        removalStep_ok m critMeth sLen coins st st' h
      rw [hd] at hd'
      cases hd'
      obtain ⟨h12, h2s, _⟩ := hc.wf d0 hd0
      have hl : d0.i1 ∉ R ∧ d0.i2 ∉ R := by simpa [live] using hlive
      have hlt : rm < m.size := by rcases hrm with rfl | rfl <;> omega
      have hnR : rm ∉ R := by rcases hrm with rfl | rfl; exact hl.1; exact hl.2
      exact Or.inr ⟨R ++ [rm], clean_stepped m V0 R st hcl rm fl hlt hnR⟩
  · left
    omega

/-- C2 (threshold correctness): on a matrix of uniquely named labels (`n ≥ 2` or not), for every
conforming sort, score assignment, criterion, coin sequence and threshold `t`, when the
`threshold` run ends without error, either at most one label is retained or every two retained
labels `i < j` have `dist(i, j) > t`. -/
theorem threshold_correct (srt : List Index → List Index) (hs : SortSpec srt)
    (m : DistanceMatrix) (hu : m.UniqueNames)
    (nbSites nbCompleteSites : String → Nat) (coins : Nat → Bool) (p : Params)
    (hd : p.deleteMeth = "threshold") (out : Output)
    (hrun : main srt m nbSites nbCompleteSites coins p = .ok out) :
    out.seqNames.length ≤ 1 ∨
      ∀ i j, i < j → j < m.size → m.getName i ∈ out.seqNames → m.getName j ∈ out.seqNames →
        p.threshold < m.dist i j := by
  have hc := candidates_of_sort srt hs m
  rw [main_threshold srt m nbSites nbCompleteSites coins p hd] at hrun
  cases hl : thresholdLoop m p.critMeth (seqLen m nbSites nbCompleteSites p.critMeth) coins
      p.threshold (m.size + 1) (initState srt m) with
  | error e => rw [hl] at hrun; cases hrun
  | ok st =>
    rw [hl] at hrun
    cases hrun
    simp only
    obtain ⟨hP, d0, hhead, hgt⟩ := thresholdLoop_invariant m p.critMeth _ coins p.threshold
      (CleanOrSmall m (srt (buildDistances m)))
      (fun s s' => cleanOrSmall_step m _ hc p.critMeth _ coins s s')
      (m.size + 1) (initState srt m) st (Or.inr ⟨[], initState_clean srt m⟩) hl
    by_cases h2 : 2 ≤ st.seqNames.length
    · right
      rcases hP with hP | ⟨R, hcl⟩
      · omega
      · obtain ⟨d0', tl, hd', _, _, hmin⟩ := clean_front m _ hc R st hcl h2
        rw [hd'] at hhead
        cases hhead
        intro i j hij hj hi' hj'
        have hiR := (clean_mem_names m hu _ R st hcl i (by omega)).mp hi'
        have hjR := (clean_mem_names m hu _ R st hcl j hj).mp hj'
        have := hmin ⟨m.dist i j, i, j⟩ (hc.complete i j hij hj) (by simp [live, hiR, hjR])
        simp only [not_lt] at this
        exact lt_of_lt_of_le (not_le.mp hgt) this
    · left
      omega

theorem threshold_correct_witness :
    (["B", "C", "D"] : List String).length ≤ 1 ∨
      ∀ i j, i < j → j < scenarioA.size → scenarioA.getName i ∈ ["B", "C", "D"] →
        scenarioA.getName j ∈ ["B", "C", "D"] → mkRat 1 100 < scenarioA.dist i j :=
  threshold_correct stableSort stableSort_spec scenarioA (by decide)
    equalScores equalScores (constCoin false) ⟨"threshold", "length", mkRat 1 100, 10⟩ rfl
    { seqNames := ["B", "C", "D"], removed := ["A"],
      distances := [⟨mkRat 1 2, 1, 2⟩, ⟨mkRat 1 2, 1, 3⟩, ⟨mkRat 1 2, 2, 3⟩,
        ⟨mkRat 1 2, 1, 2⟩, ⟨mkRat 1 2, 1, 3⟩, ⟨mkRat 1 2, 2, 3⟩],
      numberKept := some 3, minimalDistance := none } (by decide)

/-! ## Partition of the labels -/

theorem removalStep_perm (m : DistanceMatrix) (critMeth : String) (sLen : Nat → Nat)
    (coins : Nat → Bool) (L : List String) (st st' : State)
    (hP : (st.removed ++ st.seqNames).Perm L)
    (h : removalStep m critMeth sLen coins st = .ok st') :
    (st'.removed ++ st'.seqNames).Perm L := by
  obtain ⟨d0, tl, rm, fl, _, _, _, hm, rfl⟩ := removalStep_ok m critMeth sLen coins st st' h
  exact (stepped_perm m st rm fl hm).trans hP

/-- The list of removed labels followed by the retained list is a rearrangement of the matrix
labels, for every run that ends without error. -/
theorem main_perm (srt : List Index → List Index) (m : DistanceMatrix)
    (nbSites nbCompleteSites : String → Nat) (coins : Nat → Bool) (p : Params) (out : Output)
    (hrun : main srt m nbSites nbCompleteSites coins p = .ok out) :
    (out.removed ++ out.seqNames).Perm ((List.range m.size).map m.getName) := by
  have h0 : ((initState srt m).removed ++ (initState srt m).seqNames).Perm
      ((List.range m.size).map m.getName) := by
    simp [initState]
  by_cases hd : p.deleteMeth = "threshold"
  · rw [main_threshold srt m nbSites nbCompleteSites coins p hd] at hrun
    cases hl : thresholdLoop m p.critMeth (seqLen m nbSites nbCompleteSites p.critMeth) coins
        p.threshold (m.size + 1) (initState srt m) with
    | error e => rw [hl] at hrun; cases hrun
    | ok st =>
      rw [hl] at hrun
      cases hrun
      exact (thresholdLoop_invariant m p.critMeth _ coins p.threshold _
        (fun s s' => removalStep_perm m p.critMeth _ coins _ s s') _ _ st h0 hl).1
  · by_cases hd' : p.deleteMeth = "sample"
    · rw [main_sample srt m nbSites nbCompleteSites coins p hd'] at hrun
      cases hl : sampleLoop m p.critMeth (seqLen m nbSites nbCompleteSites p.critMeth) coins
          p.sampleSize (m.size + 1) (initState srt m) with
      | error e => rw [hl] at hrun; cases hrun
      | ok st =>
        rw [hl] at hrun
        simp only at hrun
        cases hh : st.distances.head? with
        | none => rw [hh] at hrun; cases hrun
        | some d0 =>
          rw [hh] at hrun
          cases hrun
          exact (sampleLoop_invariant m p.critMeth _ coins p.sampleSize _
            (fun s s' => removalStep_perm m p.critMeth _ coins _ s s') _ _ st h0 hl).1
    · unfold main at hrun
      simp only [hd, hd', if_false] at hrun
      cases hrun

/-- C7 (partition of the labels): for every run of either deletion mode and any criterion that
ends without error on a matrix of `n` uniquely named labels, the retained list and the list of
removed labels have no label in common, neither has a duplicate, a label is in one of them
exactly when it is a matrix label, and their lengths add up to `n`. -/
theorem labels_partition (srt : List Index → List Index) (m : DistanceMatrix)
    (hu : m.UniqueNames) (nbSites nbCompleteSites : String → Nat) (coins : Nat → Bool)
    (p : Params) (out : Output)
    (hrun : main srt m nbSites nbCompleteSites coins p = .ok out) :
    (∀ x, x ∈ out.seqNames → x ∉ out.removed) ∧ out.seqNames.Nodup ∧ out.removed.Nodup ∧
      (∀ x, (x ∈ out.seqNames ∨ x ∈ out.removed) ↔ ∃ i, i < m.size ∧ m.getName i = x) ∧
      out.seqNames.length + out.removed.length = m.size := by
  have hperm := main_perm srt m nbSites nbCompleteSites coins p out hrun
  have hnd : (out.removed ++ out.seqNames).Nodup := hperm.nodup_iff.mpr hu
  have hnd' := List.nodup_append.mp hnd
  refine ⟨?_, hnd'.2.1, hnd'.1, ?_, ?_⟩
  · intro x hx hx'
    exact hnd'.2.2 hx' hx
  · intro x
    have := @List.Perm.mem_iff _ x _ _ hperm
    rw [List.mem_append, List.mem_map] at this
    constructor
    · intro h
      obtain ⟨i, hi, hix⟩ := this.mp (Or.symm h)
      exact ⟨i, List.mem_range.mp hi, hix⟩
    · rintro ⟨i, hi, hix⟩
      exact Or.symm (this.mpr ⟨i, List.mem_range.mpr hi, hix⟩)
  · have := hperm.length_eq
    simp only [List.length_append, List.length_map, List.length_range] at this
    omega

theorem labels_partition_witness :
    (∀ x, x ∈ ["B", "C", "D"] → x ∉ ["A"]) ∧ (["B", "C", "D"] : List String).Nodup ∧
      (["A"] : List String).Nodup ∧
      (∀ x, (x ∈ ["B", "C", "D"] ∨ x ∈ ["A"]) ↔
        ∃ i, i < scenarioA.size ∧ scenarioA.getName i = x) ∧
      (["B", "C", "D"] : List String).length + (["A"] : List String).length =
        scenarioA.size :=
  labels_partition stableSort scenarioA (by decide) equalScores equalScores (constCoin false)
    ⟨"sample", "length", 0, 3⟩
    { seqNames := ["B", "C", "D"], removed := ["A"],
      distances := [⟨mkRat 1 2, 1, 2⟩, ⟨mkRat 1 2, 1, 3⟩, ⟨mkRat 1 2, 2, 3⟩,
        ⟨mkRat 1 2, 1, 2⟩, ⟨mkRat 1 2, 1, 3⟩, ⟨mkRat 1 2, 2, 3⟩],
      numberKept := none, minimalDistance := some (mkRat 1 2) } (by decide)

/-! ## No-op runs -/

theorem front_of_initState (srt : List Index → List Index) (hs : SortSpec srt)
    (m : DistanceMatrix) (hn : 2 ≤ m.size) :
    ∃ d0 tl, srt (buildDistances m) = d0 :: tl ∧ d0.i1 < d0.i2 ∧ d0.i2 < m.size ∧
      d0.distance = m.dist d0.i1 d0.i2 := by
  have hc := candidates_of_sort srt hs m
  cases hV : srt (buildDistances m) with
  | nil =>
    have := initState_distances_ne_nil srt hs m hn
    simp only [initState] at this
    exact absurd hV this
  | cons d0 tl =>
    have hmem : d0 ∈ srt (buildDistances m) := by rw [hV]; exact List.mem_cons_self _ _
    obtain ⟨h1, h2, h3⟩ := hc.wf d0 hmem
    exact ⟨d0, tl, rfl, h1, h2, h3⟩

/-- With every pairwise distance above the threshold the loop condition fails at once. -/
theorem main_threshold_above (srt : List Index → List Index) (hs : SortSpec srt)
    (m : DistanceMatrix) (hn : 2 ≤ m.size)
    (nbSites nbCompleteSites : String → Nat) (coins : Nat → Bool) (p : Params)
    (hd : p.deleteMeth = "threshold")
    (hall : ∀ i j, i < j → j < m.size → p.threshold < m.dist i j) :
    main srt m nbSites nbCompleteSites coins p =
      .ok { seqNames := (List.range m.size).map m.getName, removed := [],
            distances := srt (buildDistances m), numberKept := some m.size,
            minimalDistance := none } := by
  obtain ⟨d0, tl, hV, h1, h2, h3⟩ := front_of_initState srt hs m hn
  have hgt : ¬ d0.distance ≤ p.threshold := by
    rw [h3]
    exact not_le.mpr (hall d0.i1 d0.i2 h1 h2)
  rw [main_threshold srt m nbSites nbCompleteSites coins p hd]
  unfold thresholdLoop
  simp only [initState, hV, List.head?_cons, if_neg hgt, List.length_map, List.length_range]

/-- C10 (threshold no-op): on a matrix of `n ≥ 2` labels whose pairwise distances are all
strictly greater than `t`, for every conforming sort, score assignment, criterion and coin
sequence, the `threshold` run ends without error, removes nothing and returns all `n` labels in
matrix order. -/
theorem threshold_noop (srt : List Index → List Index) (hs : SortSpec srt)
    (m : DistanceMatrix) (hn : 2 ≤ m.size)
    (nbSites nbCompleteSites : String → Nat) (coins : Nat → Bool) (p : Params)
    (hd : p.deleteMeth = "threshold")
    (hall : ∀ i j, i < j → j < m.size → p.threshold < m.dist i j) :
    main srt m nbSites nbCompleteSites coins p =
      .ok { seqNames := (List.range m.size).map m.getName, removed := [],
            distances := srt (buildDistances m), numberKept := some m.size,
            minimalDistance := none } :=
  main_threshold_above srt hs m hn nbSites nbCompleteSites coins p hd hall

theorem threshold_noop_witness :
    main stableSort scenarioA equalScores equalScores (constCoin true)
        ⟨"threshold", "random", mkRat 1 10000, 10⟩ =
      .ok { seqNames := (List.range scenarioA.size).map scenarioA.getName, removed := [],
            distances := stableSort (buildDistances scenarioA),
            numberKept := some scenarioA.size, minimalDistance := none } :=
  threshold_noop stableSort stableSort_spec scenarioA (by decide) equalScores equalScores
    (constCoin true) ⟨"threshold", "random", mkRat 1 10000, 10⟩ rfl (by
      intro i j hij hj
      have hj' : j < 4 := hj
      interval_cases j <;> interval_cases i <;> decide)

/-! ## The choice under the length criteria -/

theorem chooseRm_length (critMeth : String) (sLen : Nat → Nat) (coins : Nat → Bool)
    (d0 : Index) (tl : List Index) (flips : Nat)
    (hcrit : critMeth = "length" ∨ critMeth = "length.complete") :
    chooseRm critMeth sLen coins (d0 :: tl) flips =
      .ok (if sLen d0.i1 > sLen d0.i2 then d0.i2 else d0.i1, flips) := by
  unfold chooseRm
  rw [if_pos hcrit]
  simp only [List.head?_cons]
  split <;> rfl

/-- One iteration of the threshold loop that removes `rm`. -/
theorem thresholdLoop_succ (m : DistanceMatrix) (critMeth : String) (sLen : Nat → Nat)
    (coins : Nat → Bool) (t : ℚ) (fuel : Nat) (st : State) (d0 : Index) (tl : List Index)
    (rm fl : Nat) (hd : st.distances = d0 :: tl) (hle : d0.distance ≤ t)
    (hch : chooseRm critMeth sLen coins st.distances st.flips = .ok (rm, fl))
    (hmem : m.getName rm ∈ st.seqNames) :
    thresholdLoop m critMeth sLen coins t (fuel + 1) st =
      thresholdLoop m critMeth sLen coins t fuel (stepped m st rm fl) := by
  conv_lhs => unfold thresholdLoop
  have hlen : ¬ (stepped m st rm fl).distances.length = 0 := by
    simp only [stepped, remove_if_length, hd, List.length_cons]
    omega
  rw [removalStep_of_choice m critMeth sLen coins st rm fl hch, if_pos hmem]
  simp only [hd, List.head?_cons, if_pos hle]
  rw [if_neg hlen]

/-- One iteration of the sample loop that removes `rm`. -/
theorem sampleLoop_succ (m : DistanceMatrix) (critMeth : String) (sLen : Nat → Nat)
    (coins : Nat → Bool) (k : Nat) (fuel : Nat) (st : State)
    (rm fl : Nat) (hgt : k < st.seqNames.length)
    (hch : chooseRm critMeth sLen coins st.distances st.flips = .ok (rm, fl))
    (hmem : m.getName rm ∈ st.seqNames) :
    sampleLoop m critMeth sLen coins k (fuel + 1) st =
      sampleLoop m critMeth sLen coins k fuel (stepped m st rm fl) := by
  conv_lhs => unfold sampleLoop
  rw [removalStep_of_choice m critMeth sLen coins st rm fl hch, if_pos hmem, if_pos hgt]

/-- C3, as the code has it (equal-score fallback): under the criteria `length` and
`length.complete`, when the two indices `i1`, `i2` of `distances[0]` have equal scores, the
removal step removes the label of `i1`, the first (lower) index, provided that label is still in
`seqNames`; `i2` is kept.  In Scenario A (threshold `0.01`, equal scores, `length`) the run
removes exactly A and retains B, C, D. -/
theorem equal_score_removes_first :
    (∀ (m : DistanceMatrix) (critMeth : String) (sLen : Nat → Nat) (coins : Nat → Bool)
        (st : State) (d0 : Index) (tl : List Index),
        (critMeth = "length" ∨ critMeth = "length.complete") → st.distances = d0 :: tl →
        sLen d0.i1 = sLen d0.i2 → m.getName d0.i1 ∈ st.seqNames →
        removalStep m critMeth sLen coins st = .ok (stepped m st d0.i1 st.flips)) ∧
      (removedLabels (main stableSort scenarioA equalScores equalScores (constCoin false)
          ⟨"threshold", "length", mkRat 1 100, 10⟩) = some ["A"] ∧
        retained (main stableSort scenarioA equalScores equalScores (constCoin false)
          ⟨"threshold", "length", mkRat 1 100, 10⟩) = some ["B", "C", "D"]) := by
  constructor
  · intro m critMeth sLen coins st d0 tl hcrit hd heq hmem
    have hch := chooseRm_length critMeth sLen coins d0 tl st.flips hcrit
    rw [if_neg (by omega), ← hd] at hch
    rw [removalStep_of_choice m critMeth sLen coins st d0.i1 st.flips hch, if_pos hmem]
  · decide

theorem equal_score_removes_first_witness :
    removalStep scenarioA "length" (seqLen scenarioA equalScores equalScores "length")
        (constCoin false) (initState stableSort scenarioA) =
      .ok (stepped scenarioA (initState stableSort scenarioA) 0 0) :=
  equal_score_removes_first.1 scenarioA "length"
    (seqLen scenarioA equalScores equalScores "length") (constCoin false)
    (initState stableSort scenarioA) ⟨mkRat 1 1000, 0, 1⟩
    [⟨mkRat 1 2, 0, 2⟩, ⟨mkRat 1 2, 0, 3⟩, ⟨mkRat 1 2, 1, 2⟩, ⟨mkRat 1 2, 1, 3⟩,
      ⟨mkRat 1 2, 2, 3⟩]
    (Or.inl rfl) (by decide) (by decide) (by decide)

/-- C3 as stated fails in Scenario A: the run does not remove B and retain A, C, D; it removes
A and retains B, C, D. -/
theorem equal_score_fallback_counterexample :
    removedLabels (main stableSort scenarioA equalScores equalScores (constCoin false)
        ⟨"threshold", "length", mkRat 1 100, 10⟩) ≠ some ["B"] ∧
      retained (main stableSort scenarioA equalScores equalScores (constCoin false)
        ⟨"threshold", "length", mkRat 1 100, 10⟩) ≠ some ["A", "C", "D"] := by
  decide

/-- C4 (PreferLonger tie-break): under the criteria `length` and `length.complete`, when the two
indices of `distances[0]` have different scores, the index `e` chosen for removal is the one
with the strictly smaller score, whether it is the first or the second index of the entry: the
choice is the same when the entry holds the two indices in the other order.  The removal step
removes the label of `e` (it fails only when that label is no longer in `seqNames`), and this is
the step both loops take: an iteration of the threshold loop (front distance `≤ t`) and an
iteration of the sample loop (more than `k` names left) continue from the state without `e`. -/
theorem prefer_longer_removes_smaller (m : DistanceMatrix) (critMeth : String)
    (sLen : Nat → Nat) (coins : Nat → Bool) (t : ℚ) (k fuel : Nat) (st : State) (d0 : Index)
    (tl : List Index) (hcrit : critMeth = "length" ∨ critMeth = "length.complete")
    (hd : st.distances = d0 :: tl) (hne : sLen d0.i1 ≠ sLen d0.i2) :
    ∃ e o, ((e = d0.i1 ∧ o = d0.i2) ∨ (e = d0.i2 ∧ o = d0.i1)) ∧ sLen e < sLen o ∧
      chooseRm critMeth sLen coins (d0 :: tl) st.flips = .ok (e, st.flips) ∧
      chooseRm critMeth sLen coins (⟨d0.distance, d0.i2, d0.i1⟩ :: tl) st.flips =
        .ok (e, st.flips) ∧
      removalStep m critMeth sLen coins st =
        (if m.getName e ∈ st.seqNames then .ok (stepped m st e st.flips)
         else .error .elementNotFound) ∧
      (m.getName e ∈ st.seqNames → d0.distance ≤ t →
        thresholdLoop m critMeth sLen coins t (fuel + 1) st =
          thresholdLoop m critMeth sLen coins t fuel (stepped m st e st.flips)) ∧
      (m.getName e ∈ st.seqNames → k < st.seqNames.length →
        sampleLoop m critMeth sLen coins k (fuel + 1) st =
          sampleLoop m critMeth sLen coins k fuel (stepped m st e st.flips)) := by
  have hch := chooseRm_length critMeth sLen coins d0 tl st.flips hcrit
  have hch' := chooseRm_length critMeth sLen coins ⟨d0.distance, d0.i2, d0.i1⟩ tl st.flips hcrit
  simp only at hch'
  by_cases hgt : sLen d0.i1 > sLen d0.i2
  · rw [if_pos hgt] at hch
    rw [if_neg (by omega)] at hch'
    have hch2 := hch
    rw [← hd] at hch2
    exact ⟨d0.i2, d0.i1, Or.inr ⟨rfl, rfl⟩, hgt, hch, hch',
      removalStep_of_choice m critMeth sLen coins st _ _ hch2,
      fun hmem hle => thresholdLoop_succ m critMeth sLen coins t fuel st d0 tl _ _ hd hle hch2 hmem,
      fun hmem hk => sampleLoop_succ m critMeth sLen coins k fuel st _ _ hk hch2 hmem⟩
  · rw [if_neg hgt] at hch
    rw [if_pos (by omega)] at hch'
    have hch2 := hch
    rw [← hd] at hch2
    exact ⟨d0.i1, d0.i2, Or.inl ⟨rfl, rfl⟩, by omega, hch, hch',
      removalStep_of_choice m critMeth sLen coins st _ _ hch2,
      fun hmem hle => thresholdLoop_succ m critMeth sLen coins t fuel st d0 tl _ _ hd hle hch2 hmem,
      fun hmem hk => sampleLoop_succ m critMeth sLen coins k fuel st _ _ hk hch2 hmem⟩

theorem prefer_longer_removes_smaller_witness :
    ∃ e o, ((e = 0 ∧ o = 1) ∨ (e = 1 ∧ o = 0)) ∧
      seqLen scenarioA longerA longerA "length" e < seqLen scenarioA longerA longerA "length" o ∧
      chooseRm "length" (seqLen scenarioA longerA longerA "length") (constCoin false)
        (⟨mkRat 1 1000, 0, 1⟩ :: [⟨mkRat 1 2, 0, 2⟩, ⟨mkRat 1 2, 0, 3⟩, ⟨mkRat 1 2, 1, 2⟩,
          ⟨mkRat 1 2, 1, 3⟩, ⟨mkRat 1 2, 2, 3⟩]) 0 = .ok (e, 0) ∧
      chooseRm "length" (seqLen scenarioA longerA longerA "length") (constCoin false)
        (⟨mkRat 1 1000, 1, 0⟩ :: [⟨mkRat 1 2, 0, 2⟩, ⟨mkRat 1 2, 0, 3⟩, ⟨mkRat 1 2, 1, 2⟩,
          ⟨mkRat 1 2, 1, 3⟩, ⟨mkRat 1 2, 2, 3⟩]) 0 = .ok (e, 0) ∧
      removalStep scenarioA "length" (seqLen scenarioA longerA longerA "length")
          (constCoin false) (initState stableSort scenarioA) =
        (if scenarioA.getName e ∈ (initState stableSort scenarioA).seqNames then
          .ok (stepped scenarioA (initState stableSort scenarioA) e 0)
         else .error .elementNotFound) ∧
      (scenarioA.getName e ∈ (initState stableSort scenarioA).seqNames →
        mkRat 1 1000 ≤ mkRat 1 100 →
        thresholdLoop scenarioA "length" (seqLen scenarioA longerA longerA "length")
            (constCoin false) (mkRat 1 100) (4 + 1) (initState stableSort scenarioA) =
          thresholdLoop scenarioA "length" (seqLen scenarioA longerA longerA "length")
            (constCoin false) (mkRat 1 100) 4
            (stepped scenarioA (initState stableSort scenarioA) e 0)) ∧
      (scenarioA.getName e ∈ (initState stableSort scenarioA).seqNames →
        3 < (initState stableSort scenarioA).seqNames.length →
        sampleLoop scenarioA "length" (seqLen scenarioA longerA longerA "length")
            (constCoin false) 3 (4 + 1) (initState stableSort scenarioA) =
          sampleLoop scenarioA "length" (seqLen scenarioA longerA longerA "length")
            (constCoin false) 3 4 (stepped scenarioA (initState stableSort scenarioA) e 0)) :=
  prefer_longer_removes_smaller scenarioA "length"
    (seqLen scenarioA longerA longerA "length") (constCoin false) (mkRat 1 100) 3 4
    (initState stableSort scenarioA) ⟨mkRat 1 1000, 0, 1⟩
    [⟨mkRat 1 2, 0, 2⟩, ⟨mkRat 1 2, 0, 3⟩, ⟨mkRat 1 2, 1, 2⟩, ⟨mkRat 1 2, 1, 3⟩,
      ⟨mkRat 1 2, 2, 3⟩]
    (Or.inl rfl) (by decide) (by decide)

/-! ## Exhaustion in threshold mode -/

/-- C5, the run at the failing input: on `chain3` with threshold `0.01`, the criterion `random`
and the coin flips false, true, false, the threshold run ends without error, shows
`Number of sequences kept: 0` and returns the empty list: A, C and B have all been removed. -/
theorem threshold_returns_empty :
    main stableSort chain3 equalScores equalScores secondCoin
        ⟨"threshold", "random", mkRat 1 100, 10⟩ =
      .ok { seqNames := [], removed := ["A", "C", "B"],
            distances := [⟨mkRat 9 10, 0, 2⟩, ⟨mkRat 2 1000, 1, 2⟩, ⟨mkRat 9 10, 0, 2⟩],
            numberKept := some 0, minimalDistance := none } := by
  decide

theorem removalStep_error_cons (m : DistanceMatrix) (critMeth : String) (sLen : Nat → Nat)
    (coins : Nat → Bool) (st : State) (e : Error) (hne : st.distances ≠ [])
    (h : removalStep m critMeth sLen coins st = .error e) :
    (KnownCriterion critMeth ∧ e = .elementNotFound) ∨
      (¬ KnownCriterion critMeth ∧ e = .unknownCriterion) := by
  cases hd : st.distances with
  | nil => exact absurd hd hne
  | cons d0 tl =>
    rcases chooseRm_cases critMeth sLen coins d0 tl st.flips with ⟨rm, fl, _, hch⟩ | ⟨hn, hch⟩
    · have hkn : KnownCriterion critMeth := by
        by_contra hn
        unfold chooseRm at hch
        unfold KnownCriterion at hn
        rw [if_neg (fun h => hn (h.elim Or.inl (fun h => Or.inr (Or.inl h)))),
          if_neg (fun h => hn (Or.inr (Or.inr h)))] at hch
        cases hch
      rw [← hd] at hch
      rw [removalStep_of_choice m critMeth sLen coins st rm fl hch] at h
      by_cases hm : m.getName rm ∈ st.seqNames
      · rw [if_pos hm] at h; cases h
      · rw [if_neg hm] at h; cases h; exact Or.inl ⟨hkn, rfl⟩
    · unfold removalStep at h
      rw [hd, hch] at h
      cases h
      exact Or.inr ⟨hn, rfl⟩

/-- When every entry of `distances` is at most the threshold, the threshold loop cannot end
normally: it ends with the exception of the name lookup (or of the unknown criterion). -/
theorem thresholdLoop_all_below (m : DistanceMatrix) (critMeth : String) (sLen : Nat → Nat)
    (coins : Nat → Bool) (t : ℚ) :
    ∀ (fuel : Nat) (st : State), st.seqNames.length < fuel → st.distances ≠ [] →
      (∀ x ∈ st.distances, x.distance ≤ t) →
      (KnownCriterion critMeth ∧
          thresholdLoop m critMeth sLen coins t fuel st = .error .elementNotFound) ∨
        (¬ KnownCriterion critMeth ∧
          thresholdLoop m critMeth sLen coins t fuel st = .error .unknownCriterion) := by
  intro fuel
  induction fuel with
  | zero => intro st h; omega
  | succ fuel ih =>
    intro st hlen hne hall
    cases hd : st.distances with
    | nil => exact absurd hd hne
    | cons d0 tl =>
      have hle : d0.distance ≤ t := hall d0 (by rw [hd]; exact List.mem_cons_self _ _)
      unfold thresholdLoop
      simp only [hd, List.head?_cons, if_pos hle]
      cases hs : removalStep m critMeth sLen coins st with
      | error e =>
        simp only
        rcases removalStep_error_cons m critMeth sLen coins st e hne hs with ⟨h1, rfl⟩ | ⟨h1, rfl⟩
        · exact Or.inl ⟨h1, rfl⟩
        · exact Or.inr ⟨h1, rfl⟩
      | ok st' =>
        simp only
        have hl1 := removalStep_length m critMeth sLen coins st st' hs
        have hl2 := removalStep_distances_length m critMeth sLen coins st st' hs
        have hne' : st'.distances ≠ [] := by
          intro e
          rw [e, hd] at hl2
          simp at hl2
        have hlen0 : ¬ st'.distances.length = 0 := fun e => hne' (List.length_eq_zero.mp e)
        rw [if_neg hlen0]
        apply ih st' (by omega) hne'
        obtain ⟨_, _, rm, fl, _, _, _, _, rfl⟩ := removalStep_ok m critMeth sLen coins st st' hs
        intro x hx
        exact hall x (mem_remove_if _ _ x hx)

/-- C6, as the code has it: on a matrix of `n ≥ 2` labels whose pairwise distances are all at
most `t` (the threshold loop then comes down to one label), the `threshold` run does not stop
successfully with that label: for every conforming sort, score assignment and coin sequence it
ends in an error and returns no retained list, the error of the failed name lookup for a known
criterion.  Scenario D (3 labels, all distances `0.001`, equal scores, `t = 0.01`, `length`) is
such a run. -/
theorem one_label_left_is_error (srt : List Index → List Index) (hs : SortSpec srt)
    (m : DistanceMatrix) (hn : 2 ≤ m.size)
    (nbSites nbCompleteSites : String → Nat) (coins : Nat → Bool) (p : Params)
    (hd : p.deleteMeth = "threshold")
    (hall : ∀ i j, i < j → j < m.size → m.dist i j ≤ p.threshold) :
    (∃ e, main srt m nbSites nbCompleteSites coins p = .error e) ∧
      (KnownCriterion p.critMeth →
        main srt m nbSites nbCompleteSites coins p = .error .elementNotFound) := by
  have hc := candidates_of_sort srt hs m
  have h := thresholdLoop_all_below m p.critMeth
    (seqLen m nbSites nbCompleteSites p.critMeth) coins p.threshold (m.size + 1)
    (initState srt m) (by rw [initState_names_length]; omega)
    (initState_distances_ne_nil srt hs m hn)
    (by
      intro x hx
      obtain ⟨h1, h2, h3⟩ := hc.wf x hx
      rw [h3]
      exact hall _ _ h1 h2)
  rw [main_threshold srt m nbSites nbCompleteSites coins p hd]
  rcases h with ⟨hk, h⟩ | ⟨hk, h⟩
  · rw [h]
    exact ⟨⟨_, rfl⟩, fun _ => rfl⟩
  · rw [h]
    exact ⟨⟨_, rfl⟩, fun hk' => absurd hk' hk⟩

theorem one_label_left_is_error_witness :
    (∃ e, main stableSort scenarioD equalScores equalScores (constCoin false)
        ⟨"threshold", "length", mkRat 1 100, 10⟩ = .error e) ∧
      (KnownCriterion "length" →
        main stableSort scenarioD equalScores equalScores (constCoin false)
          ⟨"threshold", "length", mkRat 1 100, 10⟩ = .error .elementNotFound) :=
  one_label_left_is_error stableSort stableSort_spec scenarioD (by decide) equalScores
    equalScores (constCoin false) ⟨"threshold", "length", mkRat 1 100, 10⟩ rfl (by
      intro i j hij hj
      have hj' : j < 3 := hj
      interval_cases j <;> interval_cases i <;> decide)

/-- C6 as stated fails in Scenario D: the run does not end normally with one label retained,
it ends in an error and retains nothing. -/
theorem one_label_left_counterexample :
    main stableSort scenarioD equalScores equalScores (constCoin false)
        ⟨"threshold", "length", mkRat 1 100, 10⟩ = .error .elementNotFound ∧
      retained (main stableSort scenarioD equalScores equalScores (constCoin false)
        ⟨"threshold", "length", mkRat 1 100, 10⟩) = none := by
  decide

/-! ## No validation of the sample size and of the criterion -/

/-- With a sample size of at least `n` the sample loop does not run. -/
theorem main_sample_large (srt : List Index → List Index) (hs : SortSpec srt)
    (m : DistanceMatrix) (hn : 2 ≤ m.size)
    (nbSites nbCompleteSites : String → Nat) (coins : Nat → Bool) (p : Params)
    (hd : p.deleteMeth = "sample") (hk : m.size ≤ p.sampleSize) :
    ∃ d0 tl, srt (buildDistances m) = d0 :: tl ∧
      main srt m nbSites nbCompleteSites coins p =
        .ok { seqNames := (List.range m.size).map m.getName, removed := [],
              distances := srt (buildDistances m), numberKept := none,
              minimalDistance := some d0.distance } := by
  obtain ⟨d0, tl, hV, _, _, _⟩ := front_of_initState srt hs m hn
  refine ⟨d0, tl, hV, ?_⟩
  rw [main_sample srt m nbSites nbCompleteSites coins p hd]
  unfold sampleLoop
  have : ¬ (initState srt m).seqNames.length > p.sampleSize := by
    rw [initState_names_length]; omega
  rw [if_neg this]
  simp only [initState, hV, List.head?_cons]

theorem removalStep_unknown (m : DistanceMatrix) (critMeth : String) (sLen : Nat → Nat)
    (coins : Nat → Bool) (st : State) (hk : ¬ KnownCriterion critMeth) :
    removalStep m critMeth sLen coins st = .error .unknownCriterion := by
  unfold removalStep chooseRm
  unfold KnownCriterion at hk
  rw [if_neg (fun h => hk (h.elim Or.inl (fun h => Or.inr (Or.inl h)))),
    if_neg (fun h => hk (Or.inr (Or.inr h)))]

/-- The front entry of the sorted list is a smallest one. -/
theorem front_le (m : DistanceMatrix) (V0 : List Index) (hc : Candidates m V0) (d0 : Index)
    (tl : List Index) (hV : V0 = d0 :: tl) (i j : Nat) (hij : i < j) (hj : j < m.size) :
    d0.distance ≤ m.dist i j := by
  have hmem := hc.complete i j hij hj
  have hs := hc.sorted
  rw [hV] at hmem hs
  rcases List.mem_cons.mp hmem with h | h
  · rw [← h]
  · have := (List.pairwise_cons.mp hs).1 _ h
    simpa using this

/-- C8, as the code has it: the sample size is not validated.  On a matrix of `n ≥ 2` labels,
for every conforming sort, score assignment, criterion and coin sequence, a `sample` run with
sample size `k ≥ n` (so also `k > n`) ends without error, removes nothing and returns all `n`
labels in matrix order.  A run with `k = 0` is not rejected before the loop either: with a
known criterion its first iteration removes a label, and the run goes on from there. -/
theorem sample_size_not_validated (srt : List Index → List Index) (hs : SortSpec srt)
    (m : DistanceMatrix) (hn : 2 ≤ m.size)
    (nbSites nbCompleteSites : String → Nat) (coins : Nat → Bool) (p : Params)
    (hd : p.deleteMeth = "sample") :
    (m.size ≤ p.sampleSize →
      retained (main srt m nbSites nbCompleteSites coins p) =
          some ((List.range m.size).map m.getName) ∧
        removedLabels (main srt m nbSites nbCompleteSites coins p) = some []) ∧
      (p.sampleSize = 0 → KnownCriterion p.critMeth →
        ∃ rm fl, rm < m.size ∧
          removalStep m p.critMeth (seqLen m nbSites nbCompleteSites p.critMeth) coins
              (initState srt m) = .ok (stepped m (initState srt m) rm fl) ∧
          sampleLoop m p.critMeth (seqLen m nbSites nbCompleteSites p.critMeth) coins
              p.sampleSize (m.size + 1) (initState srt m) =
            sampleLoop m p.critMeth (seqLen m nbSites nbCompleteSites p.critMeth) coins
              p.sampleSize m.size (stepped m (initState srt m) rm fl)) := by
  constructor
  · intro hk
    obtain ⟨d0, tl, _, h⟩ := main_sample_large srt hs m hn nbSites nbCompleteSites coins p hd hk
    rw [h]
    exact ⟨rfl, rfl⟩
  · intro hk hkn
    have hc := candidates_of_sort srt hs m
    obtain ⟨rm, fl, hlt, _, hstep, _, _⟩ := removalStep_clean m _ hc p.critMeth hkn
      (seqLen m nbSites nbCompleteSites p.critMeth) coins [] (initState srt m)
      (initState_clean srt m) (by rw [initState_names_length]; omega)
    refine ⟨rm, fl, hlt, hstep, ?_⟩
    conv_lhs => unfold sampleLoop
    rw [hstep, if_pos (by rw [initState_names_length]; omega)]

theorem sample_size_not_validated_witness :
    (retained (main stableSort scenarioA equalScores equalScores (constCoin false)
          ⟨"sample", "length", 0, 7⟩) =
          some ((List.range scenarioA.size).map scenarioA.getName) ∧
        removedLabels (main stableSort scenarioA equalScores equalScores (constCoin false)
          ⟨"sample", "length", 0, 7⟩) = some []) ∧
      (∃ rm fl, rm < scenarioA.size ∧
          removalStep scenarioA "length" (seqLen scenarioA equalScores equalScores "length")
              (constCoin false) (initState stableSort scenarioA) =
            .ok (stepped scenarioA (initState stableSort scenarioA) rm fl) ∧
          sampleLoop scenarioA "length" (seqLen scenarioA equalScores equalScores "length")
              (constCoin false) 0 (scenarioA.size + 1) (initState stableSort scenarioA) =
            sampleLoop scenarioA "length" (seqLen scenarioA equalScores equalScores "length")
              (constCoin false) 0 scenarioA.size
              (stepped scenarioA (initState stableSort scenarioA) rm fl)) :=
  ⟨(sample_size_not_validated stableSort stableSort_spec scenarioA (by decide) equalScores
      equalScores (constCoin false) ⟨"sample", "length", 0, 7⟩ rfl).1 (by decide),
    (sample_size_not_validated stableSort stableSort_spec scenarioA (by decide) equalScores
      equalScores (constCoin false) ⟨"sample", "length", 0, 0⟩ rfl).2 rfl (Or.inl rfl)⟩

/-- C8 as stated fails: in Scenario A a sample size of 7 (more than the 4 labels) is not
rejected, the run ends without error and returns the four labels unchanged. -/
theorem sample_size_validation_counterexample :
    main stableSort scenarioA equalScores equalScores (constCoin false)
        ⟨"sample", "length", 0, 7⟩ =
      .ok { seqNames := ["A", "B", "C", "D"], removed := [],
            distances := [⟨mkRat 1 1000, 0, 1⟩, ⟨mkRat 1 2, 0, 2⟩, ⟨mkRat 1 2, 0, 3⟩,
              ⟨mkRat 1 2, 1, 2⟩, ⟨mkRat 1 2, 1, 3⟩, ⟨mkRat 1 2, 2, 3⟩],
            numberKept := none, minimalDistance := some (mkRat 1 1000) } := by
  decide

/-- C9, as the code has it: an unknown deletion method always ends in the error
`Unknown deletion method`.  An unknown criterion is only detected inside a loop iteration: on a
matrix of `n ≥ 2` labels with a conforming sort, the run ends in the error `Unknown criterion`
when a removal is needed (threshold mode with some distance `≤ t`, sample mode with `k < n`);
when no removal is needed (threshold below every distance, or `k ≥ n`) the run ends without
error and returns all `n` labels, the same result as with the criterion `length`. -/
theorem unknown_selectors (srt : List Index → List Index) (m : DistanceMatrix)
    (nbSites nbCompleteSites : String → Nat) (coins : Nat → Bool) (p : Params) :
    (p.deleteMeth ≠ "threshold" → p.deleteMeth ≠ "sample" →
      main srt m nbSites nbCompleteSites coins p = .error .unknownDeletionMethod) ∧
    (SortSpec srt → 2 ≤ m.size → ¬ KnownCriterion p.critMeth → p.deleteMeth = "threshold" →
      ((∃ i j, i < j ∧ j < m.size ∧ m.dist i j ≤ p.threshold) →
        main srt m nbSites nbCompleteSites coins p = .error .unknownCriterion) ∧
      ((∀ i j, i < j → j < m.size → p.threshold < m.dist i j) →
        retained (main srt m nbSites nbCompleteSites coins p) =
            some ((List.range m.size).map m.getName) ∧
          main srt m nbSites nbCompleteSites coins p =
            main srt m nbSites nbCompleteSites coins { p with critMeth := "length" })) ∧
    (SortSpec srt → 2 ≤ m.size → ¬ KnownCriterion p.critMeth → p.deleteMeth = "sample" →
      (p.sampleSize < m.size →
        main srt m nbSites nbCompleteSites coins p = .error .unknownCriterion) ∧
      (m.size ≤ p.sampleSize →
        retained (main srt m nbSites nbCompleteSites coins p) =
            some ((List.range m.size).map m.getName) ∧
          main srt m nbSites nbCompleteSites coins p =
            main srt m nbSites nbCompleteSites coins { p with critMeth := "length" })) := by
  refine ⟨?_, ?_, ?_⟩
  · intro h1 h2
    unfold main
    simp only [h1, h2, if_false]
  · intro hs hn hk hd
    constructor
    · rintro ⟨i, j, hij, hj, hle⟩
      obtain ⟨d0, tl, hV, _, _, _⟩ := front_of_initState srt hs m hn
      have hfront := front_le m _ (candidates_of_sort srt hs m) d0 tl hV i j hij hj
      rw [main_threshold srt m nbSites nbCompleteSites coins p hd]
      unfold thresholdLoop
      rw [removalStep_unknown m p.critMeth _ coins _ hk]
      simp only [initState, hV, List.head?_cons, if_pos (le_trans hfront hle)]
    · intro hall
      rw [main_threshold_above srt hs m hn nbSites nbCompleteSites coins p hd hall,
        main_threshold_above srt hs m hn nbSites nbCompleteSites coins
          { p with critMeth := "length" } hd hall]
      exact ⟨rfl, rfl⟩
  · intro hs hn hk hd
    constructor
    · intro hlt
      rw [main_sample srt m nbSites nbCompleteSites coins p hd]
      unfold sampleLoop
      rw [removalStep_unknown m p.critMeth _ coins _ hk,
        if_pos (by rw [initState_names_length]; omega)]
    · intro hle
      obtain ⟨d0, tl, hV, h⟩ :=
        main_sample_large srt hs m hn nbSites nbCompleteSites coins p hd hle
      obtain ⟨d0', tl', hV', h'⟩ :=
        main_sample_large srt hs m hn nbSites nbCompleteSites coins
          { p with critMeth := "length" } hd hle
      rw [hV] at hV'
      cases hV'
      rw [h, h']
      exact ⟨rfl, rfl⟩

theorem unknown_selectors_witness :
    main stableSort scenarioA equalScores equalScores (constCoin false)
        ⟨"prune", "length", mkRat 1 100, 3⟩ = .error .unknownDeletionMethod ∧
      main stableSort scenarioA equalScores equalScores (constCoin false)
        ⟨"threshold", "shortest", mkRat 1 100, 3⟩ = .error .unknownCriterion ∧
      main stableSort scenarioA equalScores equalScores (constCoin false)
        ⟨"sample", "shortest", mkRat 1 100, 3⟩ = .error .unknownCriterion ∧
      retained (main stableSort scenarioA equalScores equalScores (constCoin false)
        ⟨"sample", "shortest", mkRat 1 100, 4⟩) =
          some ((List.range scenarioA.size).map scenarioA.getName) :=
  ⟨(unknown_selectors stableSort scenarioA equalScores equalScores (constCoin false)
      ⟨"prune", "length", mkRat 1 100, 3⟩).1 (by decide) (by decide),
    ((unknown_selectors stableSort scenarioA equalScores equalScores (constCoin false)
      ⟨"threshold", "shortest", mkRat 1 100, 3⟩).2.1 stableSort_spec (by decide) (by decide)
      rfl).1 ⟨0, 1, by decide, by decide, by decide⟩,
    ((unknown_selectors stableSort scenarioA equalScores equalScores (constCoin false)
      ⟨"sample", "shortest", mkRat 1 100, 3⟩).2.2 stableSort_spec (by decide) (by decide)
      rfl).1 (by decide),
    (((unknown_selectors stableSort scenarioA equalScores equalScores (constCoin false)
      ⟨"sample", "shortest", mkRat 1 100, 4⟩).2.2 stableSort_spec (by decide) (by decide)
      rfl).2 (by decide)).1⟩

/-- C9 as stated fails: in Scenario A with the unknown criterion `shortest` and a threshold of
`0.0001`, below every distance, the run is not rejected: it ends without error and returns the
four labels. -/
theorem unknown_criterion_counterexample :
    main stableSort scenarioA equalScores equalScores (constCoin false)
        ⟨"threshold", "shortest", mkRat 1 10000, 3⟩ =
      .ok { seqNames := ["A", "B", "C", "D"], removed := [],
            distances := [⟨mkRat 1 1000, 0, 1⟩, ⟨mkRat 1 2, 0, 2⟩, ⟨mkRat 1 2, 0, 3⟩,
              ⟨mkRat 1 2, 1, 2⟩, ⟨mkRat 1 2, 1, 3⟩, ⟨mkRat 1 2, 2, 3⟩],
            numberKept := some 4, minimalDistance := none } := by
  decide

/-! ## What the end of a run says about the last state of the loop -/

/-- A run that ends normally returns the last state of its loop; a property of states kept by
every completed removal step holds of it.  In threshold mode the front entry of that state is
above the threshold; in sample mode at most `sampleSize` names are left and the front entry
gives the reported distance. -/
theorem main_ok_state (srt : List Index → List Index) (m : DistanceMatrix)
    (nbSites nbCompleteSites : String → Nat) (coins : Nat → Bool) (p : Params) (out : Output)
    (P : State → Prop)
    (hstep : ∀ st st', P st →
      removalStep m p.critMeth (seqLen m nbSites nbCompleteSites p.critMeth) coins st = .ok st' →
      P st')
    (h0 : P (initState srt m))
    (hrun : main srt m nbSites nbCompleteSites coins p = .ok out) :
    ∃ st d0, P st ∧ out.seqNames = st.seqNames ∧ out.removed = st.removed ∧
      out.distances = st.distances ∧ st.distances.head? = some d0 ∧
      ((p.deleteMeth = "threshold" ∧ ¬ d0.distance ≤ p.threshold ∧
          out.numberKept = some st.seqNames.length ∧
          thresholdLoop m p.critMeth (seqLen m nbSites nbCompleteSites p.critMeth) coins
            p.threshold (m.size + 1) (initState srt m) = .ok st) ∨
        (p.deleteMeth = "sample" ∧ st.seqNames.length ≤ p.sampleSize ∧
          out.minimalDistance = some d0.distance ∧
          sampleLoop m p.critMeth (seqLen m nbSites nbCompleteSites p.critMeth) coins
            p.sampleSize (m.size + 1) (initState srt m) = .ok st)) := by
  by_cases hd : p.deleteMeth = "threshold"
  · rw [main_threshold srt m nbSites nbCompleteSites coins p hd] at hrun
    cases hl : thresholdLoop m p.critMeth (seqLen m nbSites nbCompleteSites p.critMeth) coins
        p.threshold (m.size + 1) (initState srt m) with
    | error e => rw [hl] at hrun; cases hrun
    | ok st =>
      rw [hl] at hrun
      cases hrun
      obtain ⟨hP, d0, hhead, hgt⟩ := thresholdLoop_invariant m p.critMeth _ coins p.threshold P
        hstep _ _ st h0 hl
      exact ⟨st, d0, hP, rfl, rfl, rfl, hhead, Or.inl ⟨hd, hgt, rfl, rfl⟩⟩
  · by_cases hd' : p.deleteMeth = "sample"
    · rw [main_sample srt m nbSites nbCompleteSites coins p hd'] at hrun
      cases hl : sampleLoop m p.critMeth (seqLen m nbSites nbCompleteSites p.critMeth) coins
          p.sampleSize (m.size + 1) (initState srt m) with
      | error e => rw [hl] at hrun; cases hrun
      | ok st =>
        rw [hl] at hrun
        simp only at hrun
        cases hh : st.distances.head? with
        | none => rw [hh] at hrun; cases hrun
        | some d0 =>
          rw [hh] at hrun
          cases hrun
          obtain ⟨hP, hle⟩ := sampleLoop_invariant m p.critMeth _ coins p.sampleSize P
            hstep _ _ st h0 hl
          exact ⟨st, d0, hP, rfl, rfl, rfl, hh, Or.inr ⟨hd', hle, rfl, rfl⟩⟩
    · unfold main at hrun
      simp only [hd, hd', if_false] at hrun
      cases hrun

/-! ## Sample no-op and retained order -/

/-- C11 (sample no-op): on a matrix of `n ≥ 2` labels, for every conforming sort, score
assignment, criterion and coin sequence, the `sample` run with `k = n` ends without error,
removes nothing and returns all `n` labels in matrix order. -/
theorem sample_noop (srt : List Index → List Index) (hs : SortSpec srt)
    (m : DistanceMatrix) (hn : 2 ≤ m.size)
    (nbSites nbCompleteSites : String → Nat) (coins : Nat → Bool) (p : Params)
    (hd : p.deleteMeth = "sample") (hk : p.sampleSize = m.size) :
    retained (main srt m nbSites nbCompleteSites coins p) =
        some ((List.range m.size).map m.getName) ∧
      removedLabels (main srt m nbSites nbCompleteSites coins p) = some [] := by
  obtain ⟨d0, tl, _, h⟩ :=
    main_sample_large srt hs m hn nbSites nbCompleteSites coins p hd (by omega)
  rw [h]
  exact ⟨rfl, rfl⟩

theorem sample_noop_witness :
    retained (main stableSort scenarioC equalScores equalScores (constCoin false)
        ⟨"sample", "length", 0, 5⟩) = some ["A", "B", "C", "D", "E"] ∧
      removedLabels (main stableSort scenarioC equalScores equalScores (constCoin false)
        ⟨"sample", "length", 0, 5⟩) = some [] :=
  sample_noop stableSort stableSort_spec scenarioC (by decide) equalScores equalScores
    (constCoin false) ⟨"sample", "length", 0, 5⟩ rfl rfl

theorem removalStep_sublist (m : DistanceMatrix) (critMeth : String) (sLen : Nat → Nat)
    (coins : Nat → Bool) (L : List String) (st st' : State)
    (hP : st.seqNames.Sublist L)
    (h : removalStep m critMeth sLen coins st = .ok st') : st'.seqNames.Sublist L := by
  obtain ⟨d0, tl, rm, fl, _, _, _, _, rfl⟩ := removalStep_ok m critMeth sLen coins st st' h
  exact (List.erase_sublist _ _).trans hP

/-- C12 (retained order): for every run of either mode that ends without error, the retained
list is a subsequence of the matrix labels in matrix order: it is the list of names of an
increasing list of indices below `n`; with unique labels, whenever a retained label comes before
another one in the retained list, its index in the matrix is the smaller one. -/
theorem retained_order (srt : List Index → List Index) (m : DistanceMatrix)
    (nbSites nbCompleteSites : String → Nat) (coins : Nat → Bool) (p : Params) (out : Output)
    (hrun : main srt m nbSites nbCompleteSites coins p = .ok out) :
    out.seqNames.Sublist ((List.range m.size).map m.getName) ∧
      (∃ L : List Nat, L.Sublist (List.range m.size) ∧ L.Pairwise (fun i j => i < j) ∧
        out.seqNames = L.map m.getName) ∧
      (m.UniqueNames → out.seqNames.Pairwise (fun a b =>
        ∀ i j, i < m.size → j < m.size → m.getName i = a → m.getName j = b → i < j)) := by
  obtain ⟨st, d0, hP, hnames, _⟩ := main_ok_state srt m nbSites nbCompleteSites coins p out
    (fun st => st.seqNames.Sublist ((List.range m.size).map m.getName))
    (fun s s' => removalStep_sublist m p.critMeth _ coins _ s s')
    (List.Sublist.refl _) hrun
  rw [hnames]
  obtain ⟨L, hL, hLe⟩ := List.sublist_map_iff.mp hP
  have hpw : L.Pairwise (fun i j => i < j) := (List.pairwise_lt_range m.size).sublist hL
  refine ⟨hP, ⟨L, hL, hpw, hLe⟩, ?_⟩
  intro hu
  rw [hLe, List.pairwise_map]
  refine hpw.imp_of_mem ?_
  intro a b ha hb hab i j hi hj hia hjb
  have ha' := List.mem_range.mp (hL.subset ha)
  have hb' := List.mem_range.mp (hL.subset hb)
  have e1 := getName_inj m hu i a hi ha' hia
  have e2 := getName_inj m hu j b hj hb' hjb
  omega

theorem retained_order_witness :
    (["B", "C", "D"] : List String).Sublist
        ((List.range scenarioA.size).map scenarioA.getName) ∧
      (∃ L : List Nat, L.Sublist (List.range scenarioA.size) ∧
        L.Pairwise (fun i j => i < j) ∧ ["B", "C", "D"] = L.map scenarioA.getName) ∧
      (scenarioA.UniqueNames → (["B", "C", "D"] : List String).Pairwise (fun a b =>
        ∀ i j, i < scenarioA.size → j < scenarioA.size → scenarioA.getName i = a →
          scenarioA.getName j = b → i < j)) :=
  retained_order stableSort scenarioA equalScores equalScores (constCoin false)
    ⟨"threshold", "length", mkRat 1 100, 10⟩
    { seqNames := ["B", "C", "D"], removed := ["A"],
      distances := [⟨mkRat 1 2, 1, 2⟩, ⟨mkRat 1 2, 1, 3⟩, ⟨mkRat 1 2, 2, 3⟩,
        ⟨mkRat 1 2, 1, 2⟩, ⟨mkRat 1 2, 1, 3⟩, ⟨mkRat 1 2, 2, 3⟩],
      numberKept := some 3, minimalDistance := none } (by decide)

/-! ## The states visited by the loops -/

theorem getLast?_cons_of_some (a : State) (l : List State) (x : State)
    (h : l.getLast? = some x) : (a :: l).getLast? = some x := by
  cases l with
  | nil => simp at h
  | cons b l => rw [List.getLast?_cons_cons]; exact h

/-- The last state visited by a threshold loop that ends normally is the state it returns. -/
theorem thresholdVisited_last (m : DistanceMatrix) (critMeth : String) (sLen : Nat → Nat)
    (coins : Nat → Bool) (t : ℚ) :
    ∀ (fuel : Nat) (st st' : State),
      thresholdLoop m critMeth sLen coins t fuel st = .ok st' →
      (thresholdVisited m critMeth sLen coins t fuel st).getLast? = some st' := by
  intro fuel
  induction fuel with
  | zero => intro st st' h; simp [thresholdLoop] at h
  | succ fuel ih =>
    intro st st' h
    unfold thresholdLoop at h
    unfold thresholdVisited
    cases hd : st.distances.head? with
    | none => rw [hd] at h; simp at h
    | some d0 =>
      rw [hd] at h
      simp only at h ⊢
      by_cases hle : d0.distance ≤ t
      · rw [if_pos hle] at h ⊢
        cases hs : removalStep m critMeth sLen coins st with
        | error e => rw [hs] at h; simp at h
        | ok st1 =>
          rw [hs] at h
          simp only at h ⊢
          by_cases h0 : st1.distances.length = 0
          · rw [if_pos h0] at h; simp at h
          · rw [if_neg h0] at h ⊢
            exact getLast?_cons_of_some st _ st' (ih st1 st' h)
      · rw [if_neg hle] at h ⊢
        cases h
        rfl

/-- The last state visited by a sample loop that ends normally is the state it returns. -/
theorem sampleVisited_last (m : DistanceMatrix) (critMeth : String) (sLen : Nat → Nat)
    (coins : Nat → Bool) (k : Nat) :
    ∀ (fuel : Nat) (st st' : State),
      sampleLoop m critMeth sLen coins k fuel st = .ok st' →
      (sampleVisited m critMeth sLen coins k fuel st).getLast? = some st' := by
  intro fuel
  induction fuel with
  | zero => intro st st' h; simp [sampleLoop] at h
  | succ fuel ih =>
    intro st st' h
    unfold sampleLoop at h
    unfold sampleVisited
    by_cases hgt : st.seqNames.length > k
    · rw [if_pos hgt] at h ⊢
      cases hs : removalStep m critMeth sLen coins st with
      | error e => rw [hs] at h; simp at h
      | ok st1 =>
        rw [hs] at h
        simp only at h ⊢
        exact getLast?_cons_of_some st _ st' (ih st1 st' h)
    · rw [if_neg hgt] at h ⊢
      cases h
      rfl

/-- A property of states that holds at the start and is kept by every completed removal step
holds in every state visited by the threshold loop. -/
theorem thresholdVisited_invariant (m : DistanceMatrix) (critMeth : String) (sLen : Nat → Nat)
    (coins : Nat → Bool) (t : ℚ) (P : State → Prop)
    (hstep : ∀ st st', P st → removalStep m critMeth sLen coins st = .ok st' → P st') :
    ∀ (fuel : Nat) (st : State), P st →
      ∀ s ∈ thresholdVisited m critMeth sLen coins t fuel st, P s := by
  intro fuel
  induction fuel with
  | zero => intro st _ s hs; simp [thresholdVisited] at hs
  | succ fuel ih =>
    intro st hP s hs
    unfold thresholdVisited at hs
    rcases List.mem_cons.mp hs with rfl | hs
    · exact hP
    · cases hd : st.distances.head? with
      | none => rw [hd] at hs; simp at hs
      | some d0 =>
        rw [hd] at hs
        simp only at hs
        split at hs
        · cases hst : removalStep m critMeth sLen coins st with
          | error e => rw [hst] at hs; simp at hs
          | ok st1 =>
            rw [hst] at hs
            simp only at hs
            split at hs
            · simp at hs
            · exact ih st1 (hstep st st1 hP hst) s hs
        · simp at hs

/-- The same for the sample loop. -/
theorem sampleVisited_invariant (m : DistanceMatrix) (critMeth : String) (sLen : Nat → Nat)
    (coins : Nat → Bool) (k : Nat) (P : State → Prop)
    (hstep : ∀ st st', P st → removalStep m critMeth sLen coins st = .ok st' → P st') :
    ∀ (fuel : Nat) (st : State), P st →
      ∀ s ∈ sampleVisited m critMeth sLen coins k fuel st, P s := by
  intro fuel
  induction fuel with
  | zero => intro st _ s hs; simp [sampleVisited] at hs
  | succ fuel ih =>
    intro st hP s hs
    unfold sampleVisited at hs
    rcases List.mem_cons.mp hs with rfl | hs
    · exact hP
    · split at hs
      · cases hst : removalStep m critMeth sLen coins st with
        | error e => rw [hst] at hs; simp at hs
        | ok st1 =>
          rw [hst] at hs
          exact ih st1 (hstep st st1 hP hst) s hs
      · simp at hs

/-- More fuel than names left does not change the states visited by the threshold loop: the
list is not cut short. -/
theorem thresholdVisited_fuel (m : DistanceMatrix) (critMeth : String) (sLen : Nat → Nat)
    (coins : Nat → Bool) (t : ℚ) :
    ∀ (fuel : Nat) (st : State), st.seqNames.length < fuel →
      thresholdVisited m critMeth sLen coins t (fuel + 1) st =
        thresholdVisited m critMeth sLen coins t fuel st := by
  intro fuel
  induction fuel with
  | zero => intro st h; omega
  | succ fuel ih =>
    intro st h
    conv_lhs => unfold thresholdVisited
    conv_rhs => unfold thresholdVisited
    cases hd : st.distances.head? with
    | none => rfl
    | some d0 =>
      simp only
      split
      · cases hs : removalStep m critMeth sLen coins st with
        | error e => rfl
        | ok st' =>
          simp only
          split
          · rfl
          · have := removalStep_length m critMeth sLen coins st st' hs
            rw [ih st' (by omega)]
      · rfl

/-- The same for the sample loop. -/
theorem sampleVisited_fuel (m : DistanceMatrix) (critMeth : String) (sLen : Nat → Nat)
    (coins : Nat → Bool) (k : Nat) :
    ∀ (fuel : Nat) (st : State), st.seqNames.length < fuel →
      sampleVisited m critMeth sLen coins k (fuel + 1) st =
        sampleVisited m critMeth sLen coins k fuel st := by
  intro fuel
  induction fuel with
  | zero => intro st h; omega
  | succ fuel ih =>
    intro st h
    conv_lhs => unfold sampleVisited
    conv_rhs => unfold sampleVisited
    split
    · cases hs : removalStep m critMeth sLen coins st with
      | error e => rfl
      | ok st' =>
        simp only
        have := removalStep_length m critMeth sLen coins st st' hs
        rw [ih st' (by omega)]
    · rfl

/-! ## Every visited state is clean when the labels are unique -/

theorem initState_tracked (srt : List Index → List Index) (m : DistanceMatrix) :
    Tracked m (srt (buildDistances m)) (initState srt m) :=
  ⟨⟨[], initState_clean srt m⟩, fun _ hx => hx⟩

theorem tracked_step (m : DistanceMatrix) (hu : m.UniqueNames) (V0 : List Index)
    (hc : Candidates m V0) (critMeth : String) (sLen : Nat → Nat) (coins : Nat → Bool)
    (st st' : State) (hP : Tracked m V0 st)
    (h : removalStep m critMeth sLen coins st = .ok st') : Tracked m V0 st' := by
  obtain ⟨⟨R, hcl⟩, hsub⟩ := hP
  obtain ⟨d0, tl, rm, fl, hd, hrm, _, hmem, rfl⟩ := removalStep_ok m critMeth sLen coins st st' h
  have hd0 : d0 ∈ V0 := hsub d0 (by rw [hd]; exact List.mem_cons_self _ _)
  obtain ⟨h12, h2s, _⟩ := hc.wf d0 hd0
  have hlt : rm < m.size := by rcases hrm with rfl | rfl <;> omega
  have hnR : rm ∉ R := (clean_mem_names m hu V0 R st hcl rm hlt).mp hmem
  refine ⟨⟨R ++ [rm], clean_stepped m V0 R st hcl rm fl hlt hnR⟩, ?_⟩
  intro x hx
  exact hsub x (mem_remove_if _ _ x hx)

/-- In a clean state the entries of two labels still in `seqNames` are the entries that touch
no removed index. -/
theorem filter_bothIn_eq (m : DistanceMatrix) (hu : m.UniqueNames) (V0 : List Index)
    (hc : Candidates m V0) (R : List Nat) (st : State) (hcl : Clean m V0 R st) :
    V0.filter (bothIn m st.seqNames) = V0.filter (live R) := by
  apply List.filter_congr
  intro x hx
  obtain ⟨h12, h2s, _⟩ := hc.wf x hx
  have h1 := clean_mem_names m hu V0 R st hcl x.i1 (by omega)
  have h2 := clean_mem_names m hu V0 R st hcl x.i2 h2s
  unfold bothIn live
  rw [decide_eq_decide]
  exact and_congr h1 h2

/-- C14 (greedy minimum selection): on a matrix of uniquely named labels with a conforming sort,
in every state in which the threshold loop or the sample loop evaluates its condition, the list
`distances` begins with exactly the entries of the sorted list that join two labels still in
`seqNames`, in ascending order of distance; and when at least two labels are left, the front
entry `distances[0]` joins two labels still in `seqNames` and its distance is the least matrix
distance over the pairs `i < j` of such labels. -/
theorem greedy_minimum (srt : List Index → List Index) (hs : SortSpec srt)
    (m : DistanceMatrix) (hu : m.UniqueNames)
    (nbSites nbCompleteSites : String → Nat) (coins : Nat → Bool) (p : Params) (s : State)
    (hvis : s ∈ thresholdVisited m p.critMeth (seqLen m nbSites nbCompleteSites p.critMeth)
          coins p.threshold (m.size + 1) (initState srt m) ∨
        s ∈ sampleVisited m p.critMeth (seqLen m nbSites nbCompleteSites p.critMeth)
          coins p.sampleSize (m.size + 1) (initState srt m)) :
    (∃ junk, s.distances =
        (srt (buildDistances m)).filter (bothIn m s.seqNames) ++ junk) ∧
      ((srt (buildDistances m)).filter (bothIn m s.seqNames)).Pairwise
        (fun a b => a.distance ≤ b.distance) ∧
      (2 ≤ s.seqNames.length →
        ∃ d0 tl, s.distances = d0 :: tl ∧ d0.i1 < d0.i2 ∧ d0.i2 < m.size ∧
          d0.distance = m.dist d0.i1 d0.i2 ∧
          m.getName d0.i1 ∈ s.seqNames ∧ m.getName d0.i2 ∈ s.seqNames ∧
          ∀ i j, i < j → j < m.size → m.getName i ∈ s.seqNames → m.getName j ∈ s.seqNames →
            d0.distance ≤ m.dist i j) := by
  have hc := candidates_of_sort srt hs m
  have htr : Tracked m (srt (buildDistances m)) s := by
    rcases hvis with h | h
    · exact thresholdVisited_invariant m p.critMeth _ coins p.threshold _
        (fun a b => tracked_step m hu _ hc p.critMeth _ coins a b) _ _
        (initState_tracked srt m) s h
    · exact sampleVisited_invariant m p.critMeth _ coins p.sampleSize _
        (fun a b => tracked_step m hu _ hc p.critMeth _ coins a b) _ _
        (initState_tracked srt m) s h
  obtain ⟨⟨R, hcl⟩, _⟩ := htr
  have hfil := filter_bothIn_eq m hu _ hc R s hcl
  refine ⟨?_, ?_, ?_⟩
  · rw [hfil]
    exact hcl.dists
  · exact (hc.sorted.filter _).imp (fun h => not_lt.mp h)
  · intro h2
    obtain ⟨d0, tl, hd, hd0, hlive, hmin⟩ := clean_front m _ hc R s hcl h2
    obtain ⟨h12, h2s, hdist⟩ := hc.wf d0 hd0
    have hl : d0.i1 ∉ R ∧ d0.i2 ∉ R := by simpa [live] using hlive
    refine ⟨d0, tl, hd, h12, h2s, hdist,
      clean_mem_of_live m _ R s hcl d0.i1 (by omega) hl.1,
      clean_mem_of_live m _ R s hcl d0.i2 h2s hl.2, ?_⟩
    intro i j hij hj hi' hj'
    have hiR := (clean_mem_names m hu _ R s hcl i (by omega)).mp hi'
    have hjR := (clean_mem_names m hu _ R s hcl j hj).mp hj'
    have := hmin ⟨m.dist i j, i, j⟩ (hc.complete i j hij hj) (by simp [live, hiR, hjR])
    simpa using this

theorem greedy_minimum_witness :
    (∃ junk, scenarioA_afterA.distances =
        (stableSort (buildDistances scenarioA)).filter
          (bothIn scenarioA scenarioA_afterA.seqNames) ++ junk) ∧
      ((stableSort (buildDistances scenarioA)).filter
        (bothIn scenarioA scenarioA_afterA.seqNames)).Pairwise
        (fun a b => a.distance ≤ b.distance) ∧
      (2 ≤ scenarioA_afterA.seqNames.length →
        ∃ d0 tl, scenarioA_afterA.distances = d0 :: tl ∧ d0.i1 < d0.i2 ∧
          d0.i2 < scenarioA.size ∧ d0.distance = scenarioA.dist d0.i1 d0.i2 ∧
          scenarioA.getName d0.i1 ∈ scenarioA_afterA.seqNames ∧
          scenarioA.getName d0.i2 ∈ scenarioA_afterA.seqNames ∧
          ∀ i j, i < j → j < scenarioA.size →
            scenarioA.getName i ∈ scenarioA_afterA.seqNames →
            scenarioA.getName j ∈ scenarioA_afterA.seqNames →
            d0.distance ≤ scenarioA.dist i j) :=
  greedy_minimum stableSort stableSort_spec scenarioA (by decide) equalScores equalScores
    (constCoin false) ⟨"sample", "length", 0, 2⟩ scenarioA_afterA (Or.inr (by decide))

/-! ## Runs that read a cell they should not read -/

/-- C13, the run at the failing input: on a matrix with the single label A the candidate list
is empty, and both the threshold run (any threshold, any criterion) and the sample run with
`k = 1` read `distances[0]` of the empty vector, on line 178 and on line 234. -/
theorem single_label_reads_out_of_range (t : ℚ) (critMeth : String) (coins : Nat → Bool)
    (k : Nat) :
    buildDistances singleLabel = [] ∧
      main stableSort singleLabel equalScores equalScores coins
        ⟨"threshold", critMeth, t, k⟩ = .error .outOfRange ∧
      main stableSort singleLabel equalScores equalScores coins
        ⟨"sample", critMeth, t, 1⟩ = .error .outOfRange :=
  ⟨rfl, rfl, rfl⟩

/-- C15, the run at the failing input: in Scenario D (threshold `0.01`, equal scores, `length`)
the threshold loop evaluates its condition three times.  The third time only C is left, and the
entry read as `distances[0]` is the entry of A and C, although A was removed in the first
iteration. -/
theorem stale_pair_is_read :
    (thresholdVisited scenarioD "length" (seqLen scenarioD equalScores equalScores "length")
        (constCoin false) (mkRat 1 100) (scenarioD.size + 1)
        (initState stableSort scenarioD)).map
        (fun s => (s.seqNames, s.removed, s.distances.head?)) =
      [(["A", "B", "C"], [], some ⟨mkRat 1 1000, 0, 1⟩),
       (["B", "C"], ["A"], some ⟨mkRat 1 1000, 1, 2⟩),
       (["C"], ["A", "B"], some ⟨mkRat 1 1000, 0, 2⟩)] := by
  decide

/-- C16, the run at the failing input: on the three labels of `chain3` with threshold `0.01`,
the criterion `random` and the coin flips false, true, false, the threshold loop completes three
iterations, one more than `n - 1 = 2`: it evaluates its condition four times and removes A, C
and B. -/
theorem threshold_three_iterations :
    chain3.size = 3 ∧
      (thresholdVisited chain3 "random" (seqLen chain3 equalScores equalScores "random")
        secondCoin (mkRat 1 100) (chain3.size + 1) (initState stableSort chain3)).map
        (fun s => s.removed) =
      [[], ["A"], ["A", "C"], ["A", "C", "B"]] := by
  decide

/-! ## Number of iterations -/

/-- The threshold loop evaluates its condition at most once more than there are names: it
completes at most as many iterations as there are names left. -/
theorem thresholdVisited_length_le (m : DistanceMatrix) (critMeth : String) (sLen : Nat → Nat)
    (coins : Nat → Bool) (t : ℚ) :
    ∀ (fuel : Nat) (st : State),
      (thresholdVisited m critMeth sLen coins t fuel st).length ≤ st.seqNames.length + 1 := by
  intro fuel
  induction fuel with
  | zero => intro st; simp [thresholdVisited]
  | succ fuel ih =>
    intro st
    unfold thresholdVisited
    cases hd : st.distances.head? with
    | none => simp
    | some d0 =>
      simp only
      split
      · cases hs : removalStep m critMeth sLen coins st with
        | error e => simp
        | ok st' =>
          simp only
          have hlen := removalStep_length m critMeth sLen coins st st' hs
          split
          · simp
          · have := ih st'
            simp only [List.length_cons]
            omega
      · simp

/-- From a clean state with at least `k ≥ 1` names and a known criterion, the sample loop
completes exactly as many iterations as there are names above `k`. -/
theorem sampleVisited_length (m : DistanceMatrix) (V0 : List Index)
    (hc : Candidates m V0) (critMeth : String) (hk : KnownCriterion critMeth)
    (sLen : Nat → Nat) (coins : Nat → Bool) (k : Nat) (hk1 : 1 ≤ k) :
    ∀ (fuel : Nat) (R : List Nat) (st : State), Clean m V0 R st → k ≤ st.seqNames.length →
      st.seqNames.length - k < fuel →
      (sampleVisited m critMeth sLen coins k fuel st).length = st.seqNames.length - k + 1 := by
  intro fuel
  induction fuel with
  | zero => intro R st _ _ h; omega
  | succ fuel ih =>
    intro R st hcl hle hfuel
    unfold sampleVisited
    by_cases hgt : st.seqNames.length > k
    · rw [if_pos hgt]
      obtain ⟨rm, fl, _, _, hstep, hcl', hlen⟩ :=
        removalStep_clean m V0 hc critMeth hk sLen coins R st hcl (by omega)
      rw [hstep]
      simp only [List.length_cons]
      rw [ih (R ++ [rm]) (stepped m st rm fl) hcl' (by omega) (by omega)]
      omega
    · rw [if_neg hgt]
      simp only [List.length_cons, List.length_nil]
      omega

/-! ## Threshold mode and sample mode take the same steps -/

theorem thresholdLoop_length_le (m : DistanceMatrix) (critMeth : String) (sLen : Nat → Nat)
    (coins : Nat → Bool) (t : ℚ) (fuel : Nat) (st st' : State)
    (h : thresholdLoop m critMeth sLen coins t fuel st = .ok st') :
    st'.seqNames.length ≤ st.seqNames.length :=
  (thresholdLoop_invariant m critMeth sLen coins t
    (fun s => s.seqNames.length ≤ st.seqNames.length)
    (fun a b ha hab => by
      have := removalStep_length m critMeth sLen coins a b hab
      omega)
    fuel st st' (le_refl _) h).1

/-- When the threshold loop ends normally in the state `st'`, the sample loop asked for as
many names as `st'` has left ends in the same state. -/
theorem sampleLoop_of_thresholdLoop (m : DistanceMatrix) (critMeth : String) (sLen : Nat → Nat)
    (coins : Nat → Bool) (t : ℚ) :
    ∀ (fuel : Nat) (st st' : State),
      thresholdLoop m critMeth sLen coins t fuel st = .ok st' →
      ∀ fuel2, st.seqNames.length - st'.seqNames.length < fuel2 →
        sampleLoop m critMeth sLen coins st'.seqNames.length fuel2 st = .ok st' := by
  intro fuel
  induction fuel with
  | zero => intro st st' h; simp [thresholdLoop] at h
  | succ fuel ih =>
    intro st st' h fuel2 hf
    have hle := thresholdLoop_length_le m critMeth sLen coins t _ st st' h
    unfold thresholdLoop at h
    cases hd : st.distances.head? with
    | none => rw [hd] at h; simp at h
    | some d0 =>
      rw [hd] at h
      simp only at h
      by_cases hlt : d0.distance ≤ t
      · rw [if_pos hlt] at h
        cases hs : removalStep m critMeth sLen coins st with
        | error e => rw [hs] at h; simp at h
        | ok st1 =>
          rw [hs] at h
          simp only at h
          split at h
          · simp at h
          · have hlen := removalStep_length m critMeth sLen coins st st1 hs
            have hle1 := thresholdLoop_length_le m critMeth sLen coins t _ st1 st' h
            cases fuel2 with
            | zero => omega
            | succ f2 =>
              unfold sampleLoop
              rw [if_pos (by omega), hs]
              exact ih st1 st' h f2 (by omega)
      · rw [if_neg hlt] at h
        cases h
        cases fuel2 with
        | zero => omega
        | succ f2 =>
          unfold sampleLoop
          rw [if_neg (by omega)]

/-- C17 (threshold and sample modes agree): for every matrix, sort, score assignment, criterion
and coin sequence (so also under the criterion `length`), when the `threshold` run ends without
error having removed `m` labels, the `sample` run with `k = n - m` on the same input ends
without error, removes the same labels in the same order and returns the same retained list. -/
theorem modes_agree (srt : List Index → List Index) (m : DistanceMatrix)
    (nbSites nbCompleteSites : String → Nat) (coins : Nat → Bool) (critMeth : String)
    (t t' : ℚ) (k0 : Nat) (out : Output)
    (hrun : main srt m nbSites nbCompleteSites coins ⟨"threshold", critMeth, t, k0⟩ = .ok out) :
    ∃ out', main srt m nbSites nbCompleteSites coins
        ⟨"sample", critMeth, t', m.size - out.removed.length⟩ = .ok out' ∧
      out'.removed = out.removed ∧ out'.seqNames = out.seqNames := by
  have hperm := main_perm srt m nbSites nbCompleteSites coins _ out hrun
  obtain ⟨st, d0, _, hnames, hrem, _, hhead, hmode⟩ :=
    main_ok_state srt m nbSites nbCompleteSites coins ⟨"threshold", critMeth, t, k0⟩ out
      (fun _ => True) (fun _ _ _ _ => trivial) trivial hrun
  rcases hmode with ⟨_, _, _, hloop⟩ | ⟨hd, _⟩
  · have hk : m.size - out.removed.length = st.seqNames.length := by
      have := hperm.length_eq
      simp only [List.length_append, List.length_map, List.length_range] at this
      rw [← hnames]
      omega
    have hsl := sampleLoop_of_thresholdLoop m critMeth _ coins t _ _ st hloop (m.size + 1)
      (by rw [initState_names_length]; omega)
    rw [main_sample srt m nbSites nbCompleteSites coins _ rfl]
    simp only at hsl ⊢
    rw [hk, hsl]
    simp only [hhead]
    exact ⟨_, rfl, hrem.symm, hnames.symm⟩
  · have hne : ¬ ("threshold" = "sample") := by decide
    exact absurd hd hne

theorem modes_agree_witness :
    ∃ out', main stableSort scenarioA equalScores equalScores (constCoin false)
        ⟨"sample", "length", 0, scenarioA.size - (["A"] : List String).length⟩ = .ok out' ∧
      out'.removed = ["A"] ∧ out'.seqNames = ["B", "C", "D"] :=
  modes_agree stableSort scenarioA equalScores equalScores (constCoin false) "length"
    (mkRat 1 100) 0 10
    { seqNames := ["B", "C", "D"], removed := ["A"],
      distances := [⟨mkRat 1 2, 1, 2⟩, ⟨mkRat 1 2, 1, 3⟩, ⟨mkRat 1 2, 2, 3⟩,
        ⟨mkRat 1 2, 1, 2⟩, ⟨mkRat 1 2, 1, 3⟩, ⟨mkRat 1 2, 2, 3⟩],
      numberKept := some 3, minimalDistance := none } (by decide)

/-! ## The candidate list -/

theorem sum_range_sub (c : Nat) :
    ∀ k, k ≤ c → 2 * ((List.range k).map (fun i => c - i)).sum + k * k = k * (2 * c + 1) := by
  intro k
  induction k with
  | zero => intro _; simp
  | succ k ih =>
    intro hk
    have h := ih (by omega)
    rw [List.range_succ, List.map_append, List.sum_append]
    simp only [List.map_cons, List.map_nil, List.sum_cons, List.sum_nil, Nat.add_zero]
    have e1 : (k + 1) * (k + 1) = k * k + 2 * k + 1 := by ring
    have e2 : (k + 1) * (2 * c + 1) = k * (2 * c + 1) + 2 * c + 1 := by ring
    rw [e1, e2]
    omega

theorem buildDistances_length (m : DistanceMatrix) :
    (buildDistances m).length = m.size * (m.size - 1) / 2 := by
  unfold buildDistances
  rw [List.length_flatMap]
  have hmap : (List.range (m.size - 1)).map
      (List.length ∘ fun i => ((List.range' (i + 1) (m.size - (i + 1))).map
        (fun j => (⟨m.dist i j, i, j⟩ : Index)))) =
      (List.range (m.size - 1)).map (fun i => (m.size - 1) - i) := by
    apply List.map_congr_left
    intro i _
    simp only [Function.comp_apply, List.length_map, List.length_range']
    omega
  rw [hmap]
  have h := sum_range_sub (m.size - 1) (m.size - 1) (le_refl _)
  have e : m.size * (m.size - 1) = (m.size - 1) * (m.size - 1) + (m.size - 1) := by
    cases hsz : m.size with
    | zero => simp
    | succ n => simp only [Nat.add_sub_cancel]; ring
  have e2 : (m.size - 1) * (2 * (m.size - 1) + 1) =
      2 * ((m.size - 1) * (m.size - 1)) + (m.size - 1) := by ring
  rw [e]
  omega

theorem buildDistances_nodup (m : DistanceMatrix) : (buildDistances m).Nodup := by
  unfold buildDistances
  rw [List.nodup_flatMap]
  constructor
  · intro i _
    refine List.Nodup.map_on ?_ (List.nodup_range' _ _)
    intro x _ y _ h
    exact congrArg Index.i2 h
  · refine (List.nodup_range (m.size - 1)).imp ?_
    intro a b hab
    show List.Disjoint _ _
    intro x hxa hxb
    obtain ⟨j, _, rfl⟩ := List.mem_map.mp hxa
    obtain ⟨j', _, h⟩ := List.mem_map.mp hxb
    exact hab (congrArg Index.i1 h).symm

/-! ## The insertion sort of libstdc++ -/

theorem insRev_cons (x : Index) (xs : List Index) (val : Index) :
    insRev (x :: xs) val =
      if val.distance < x.distance then x :: insRev xs val else val :: x :: xs := rfl

theorem insRev_perm (acc : List Index) (val : Index) : (insRev acc val).Perm (val :: acc) := by
  induction acc with
  | nil => exact List.Perm.refl _
  | cons x xs ih =>
    unfold insRev
    split
    · exact (List.Perm.cons x ih).trans (List.Perm.swap val x xs)
    · exact List.Perm.refl _

theorem insRev_length (acc : List Index) (val : Index) :
    (insRev acc val).length = acc.length + 1 := by
  have := (insRev_perm acc val).length_eq
  simpa using this

/-- Inserting `val` keeps the list ordered (back to front) by distance and, among equal
distances, by a second relation `S`, when `val` comes after every element for `S`. -/
theorem insRev_pairwise (S : Index → Index → Prop) (acc : List Index) (val : Index)
    (hacc : acc.Pairwise (fun b a => a.distance < b.distance ∨ (a.distance = b.distance ∧ S a b)))
    (hS : ∀ x ∈ acc, S x val) :
    (insRev acc val).Pairwise
      (fun b a => a.distance < b.distance ∨ (a.distance = b.distance ∧ S a b)) := by
  induction acc with
  | nil => simp [insRev]
  | cons x xs ih =>
    have hx := List.pairwise_cons.mp hacc
    unfold insRev
    split
    · rename_i hlt
      refine List.pairwise_cons.mpr ⟨?_, ih hx.2 (fun y hy => hS y (List.mem_cons_of_mem _ hy))⟩
      intro y hy
      rcases List.mem_cons.mp ((insRev_perm xs val).mem_iff.mp hy) with rfl | hmem
      · exact Or.inl hlt
      · exact hx.1 y hmem
    · rename_i hnlt
      have hle : x.distance ≤ val.distance := not_lt.mp hnlt
      refine List.pairwise_cons.mpr ⟨?_, hacc⟩
      intro y hy
      have hyle : y.distance ≤ val.distance := by
        rcases List.mem_cons.mp hy with rfl | hmem
        · exact hle
        · rcases hx.1 y hmem with h | h
          · exact le_trans (le_of_lt h) hle
          · exact le_trans (le_of_eq h.1) hle
      rcases lt_or_eq_of_le hyle with h | h
      · exact Or.inl h
      · exact Or.inr ⟨h, hS y hy⟩

theorem insRev_all_greater (acc : List Index) (val : Index)
    (h : ∀ x ∈ acc, val.distance < x.distance) : insRev acc val = acc ++ [val] := by
  induction acc with
  | nil => rfl
  | cons x xs ih =>
    unfold insRev
    rw [if_pos (h x (List.mem_cons_self _ _)), ih (fun y hy => h y (List.mem_cons_of_mem _ hy))]
    rfl

theorem foldl_insRev_perm (l : List Index) :
    ∀ acc, (l.foldl insRev acc).Perm (l.reverse ++ acc) := by
  induction l with
  | nil => intro acc; exact List.Perm.refl _
  | cons x xs ih =>
    intro acc
    rw [List.foldl_cons, List.reverse_cons, List.append_assoc]
    exact (ih (insRev acc x)).trans (List.Perm.append_left _ (insRev_perm acc x))

theorem foldl_insRev_pairwise (S : Index → Index → Prop) (l : List Index) :
    ∀ acc, l.Pairwise S →
      acc.Pairwise (fun b a => a.distance < b.distance ∨ (a.distance = b.distance ∧ S a b)) →
      (∀ x ∈ acc, ∀ y ∈ l, S x y) →
      (l.foldl insRev acc).Pairwise
        (fun b a => a.distance < b.distance ∨ (a.distance = b.distance ∧ S a b)) := by
  induction l with
  | nil => intro acc _ hacc _; exact hacc
  | cons x xs ih =>
    intro acc hl hacc hS
    have hl' := List.pairwise_cons.mp hl
    rw [List.foldl_cons]
    apply ih (insRev acc x) hl'.2
      (insRev_pairwise S acc x hacc (fun y hy => hS y hy x (List.mem_cons_self _ _)))
    intro y hy z hz
    rcases List.mem_cons.mp ((insRev_perm acc x).mem_iff.mp hy) with rfl | hmem
    · exact hl'.1 z hz
    · exact hS y hmem z (List.mem_cons_of_mem _ hz)

theorem getElem?_append_length (a : List Index) (x : Index) (b : List Index) :
    (a ++ x :: b)[a.length]? = some x := by
  induction a with
  | nil => simp
  | cons z zs ih => simpa using ih

theorem getElem?_reverse_append_length (a : List Index) (x : Index) (b : List Index) :
    (a.reverse ++ x :: b)[a.length]? = some x := by
  have h := getElem?_append_length a.reverse x b
  rwa [List.length_reverse] at h

theorem set_append_length (a : List Index) (x y : Index) (b : List Index) :
    (a ++ x :: b).set a.length y = a ++ y :: b := by
  induction a with
  | nil => rfl
  | cons z zs ih => simp only [List.cons_append, List.length_cons, List.set_cons_succ, ih]

theorem set_reverse_append_length (a : List Index) (x y : Index) (b : List Index) :
    (a.reverse ++ x :: b).set a.length y = a.reverse ++ y :: b := by
  have h := set_append_length a.reverse x y b
  rwa [List.length_reverse] at h

theorem linearInsertLoop_eq (val : Index) :
    ∀ (rpre : List Index) (x : Index) (post : List Index),
      linearInsertLoop val rpre.length (rpre.reverse ++ x :: post) =
        (insRev rpre val).reverse ++ post := by
  intro rpre
  induction rpre with
  | nil =>
    intro x post
    rfl
  | cons y ys ih =>
    intro x post
    have hv : (y :: ys).reverse ++ x :: post = ys.reverse ++ y :: x :: post := by
      simp
    rw [hv, List.length_cons]
    unfold linearInsertLoop
    have hget : (ys.reverse ++ y :: x :: post)[ys.length]? = some y :=
      getElem?_reverse_append_length ys y (x :: post)
    have hless : lessValAt val (ys.reverse ++ y :: x :: post) ys.length =
        decide (val.distance < y.distance) := by
      unfold lessValAt
      rw [hget]
    rw [hless]
    by_cases hlt : val.distance < y.distance
    · rw [if_pos (by simpa using hlt)]
      have hmove : moveTo (ys.reverse ++ y :: x :: post) (ys.length + 1) ys.length =
          ys.reverse ++ y :: y :: post := by
        unfold moveTo
        rw [hget]
        show (ys.reverse ++ y :: x :: post).set (ys.length + 1) y = _
        have h := set_reverse_append_length (y :: ys) x y post
        rw [hv, List.length_cons] at h
        rw [h]
        simp
      rw [hmove, ih y (y :: post), insRev_cons, if_pos hlt]
      simp
    · rw [if_neg (by simpa using hlt)]
      have h := set_reverse_append_length (y :: ys) x val post
      rw [hv, List.length_cons] at h
      rw [h, insRev_cons, if_neg hlt]
      simp

theorem unguardedLinearInsert_eq (rpre : List Index) (x : Index) (post : List Index) :
    unguardedLinearInsert (rpre.reverse ++ x :: post) rpre.length =
      (insRev rpre x).reverse ++ post := by
  unfold unguardedLinearInsert
  rw [getElem?_reverse_append_length]
  exact linearInsertLoop_eq x rpre x post

theorem insertionStep_eq (rpre : List Index) (x : Index) (post : List Index)
    (hne : rpre ≠ []) (hdesc : rpre.Pairwise (fun b a => a.distance ≤ b.distance)) :
    insertionStep (rpre.reverse ++ x :: post) rpre.length = (insRev rpre x).reverse ++ post := by
  unfold insertionStep
  by_cases hless : lessAt (rpre.reverse ++ x :: post) rpre.length 0 = true
  · rw [if_pos hless, getElem?_reverse_append_length]
    simp only
    -- the front element is the smallest of the prefix
    obtain ⟨z, zs, hz⟩ : ∃ z zs, rpre.reverse = z :: zs := by
      cases h : rpre.reverse with
      | nil => exact absurd (List.reverse_eq_nil_iff.mp h) hne
      | cons z zs => exact ⟨z, zs, rfl⟩
    have hasc : (z :: zs).Pairwise (fun a b => a.distance ≤ b.distance) := by
      rw [← hz]
      exact List.pairwise_reverse.mpr hdesc
    have hxz : x.distance < z.distance := by
      unfold lessAt at hless
      rw [getElem?_reverse_append_length, hz] at hless
      simpa using hless
    have hall : ∀ y ∈ rpre, x.distance < y.distance := by
      intro y hy
      have hy' : y ∈ z :: zs := by rw [← hz]; exact List.mem_reverse.mpr hy
      rcases List.mem_cons.mp hy' with rfl | hmem
      · exact hxz
      · exact lt_of_lt_of_le hxz ((List.pairwise_cons.mp hasc).1 y hmem)
    rw [insRev_all_greater rpre x hall]
    have htake : (rpre.reverse ++ x :: post).take rpre.length = rpre.reverse := by
      rw [← List.length_reverse rpre]
      exact List.take_left _ _
    have hdrop : (rpre.reverse ++ x :: post).drop (rpre.length + 1) = post := by
      have h : rpre.reverse ++ x :: post = (rpre.reverse ++ [x]) ++ post := by simp
      rw [h]
      have hl : rpre.length + 1 = (rpre.reverse ++ [x]).length := by simp
      rw [hl]
      exact List.drop_left _ _
    rw [htake, hdrop]
    simp
  · rw [if_neg hless]
    exact unguardedLinearInsert_eq rpre x post

theorem insRev_desc (rpre : List Index) (x : Index)
    (hdesc : rpre.Pairwise (fun b a => a.distance ≤ b.distance)) :
    (insRev rpre x).Pairwise (fun b a => a.distance ≤ b.distance) := by
  have h := insRev_pairwise (fun _ _ => True) rpre x
    (hdesc.imp (fun {a b} h => by
      rcases lt_or_eq_of_le h with h1 | h1
      · exact Or.inl h1
      · exact Or.inr ⟨h1, trivial⟩))
    (fun _ _ => trivial)
  exact h.imp (fun {a b} h => by
    rcases h with h1 | h1
    · exact le_of_lt h1
    · exact le_of_eq h1.1)

theorem insRev_ne_nil (rpre : List Index) (x : Index) : insRev rpre x ≠ [] := by
  intro h
  have := insRev_length rpre x
  rw [h] at this
  simp at this

theorem insertionSortLoop_eq :
    ∀ (n : Nat) (rpre rest : List Index), rpre ≠ [] →
      rpre.Pairwise (fun b a => a.distance ≤ b.distance) → n ≤ rest.length →
      insertionSortLoop n rpre.length (rpre.reverse ++ rest) =
        ((rest.take n).foldl insRev rpre).reverse ++ rest.drop n := by
  intro n
  induction n with
  | zero =>
    intro rpre rest _ _ _
    rfl
  | succ n ih =>
    intro rpre rest hne hdesc hn
    cases rest with
    | nil => simp at hn
    | cons x post =>
      unfold insertionSortLoop
      rw [insertionStep_eq rpre x post hne hdesc]
      have hl : rpre.length + 1 = (insRev rpre x).length := (insRev_length rpre x).symm
      rw [hl, ih (insRev rpre x) post (insRev_ne_nil rpre x) (insRev_desc rpre x hdesc)
        (by simpa using hn)]
      rfl

theorem unguardedInsertionSortLoop_eq :
    ∀ (n : Nat) (rpre rest : List Index), n ≤ rest.length →
      unguardedInsertionSortLoop n rpre.length (rpre.reverse ++ rest) =
        ((rest.take n).foldl insRev rpre).reverse ++ rest.drop n := by
  intro n
  induction n with
  | zero =>
    intro rpre rest _
    rfl
  | succ n ih =>
    intro rpre rest hn
    cases rest with
    | nil => simp at hn
    | cons x post =>
      unfold unguardedInsertionSortLoop
      rw [unguardedLinearInsert_eq rpre x post]
      have hl : rpre.length + 1 = (insRev rpre x).length := (insRev_length rpre x).symm
      rw [hl, ih (insRev rpre x) post (by simpa using hn)]
      rfl

theorem foldl_insRev_length (l : List Index) :
    ∀ acc, (l.foldl insRev acc).length = acc.length + l.length := by
  intro acc
  have h := (foldl_insRev_perm l acc).length_eq
  rw [h]
  simp
  omega

theorem foldl_insRev_desc (l : List Index) :
    ∀ acc, acc.Pairwise (fun b a => a.distance ≤ b.distance) →
      (l.foldl insRev acc).Pairwise (fun b a => a.distance ≤ b.distance) := by
  induction l with
  | nil => intro acc h; exact h
  | cons x xs ih =>
    intro acc h
    exact ih (insRev acc x) (insRev_desc acc x h)

/-- The final insertion sort of libstdc++ is the straight insertion of the elements one after
the other, each behind the elements that are not larger. -/
theorem finalInsertionSort_eq (v : List Index) :
    finalInsertionSort v = (v.foldl insRev []).reverse := by
  cases v with
  | nil => rfl
  | cons x rest =>
    unfold finalInsertionSort
    have hfirst : ∀ n, n ≤ rest.length →
        insertionSortLoop n 1 (x :: rest) =
          ((rest.take n).foldl insRev [x]).reverse ++ rest.drop n := by
      intro n hn
      exact insertionSortLoop_eq n [x] rest (by simp) (List.pairwise_singleton _ _) hn
    by_cases hlen : (x :: rest).length > 16
    · rw [if_pos hlen]
      have h15 : 15 ≤ rest.length := by
        simp only [List.length_cons] at hlen
        omega
      rw [hfirst 15 h15]
      have hl : 16 = ((rest.take 15).foldl insRev [x]).length := by
        rw [foldl_insRev_length, List.length_take]
        simp
        omega
      have hn : (x :: rest).length - 16 = (rest.drop 15).length := by
        simp only [List.length_cons, List.length_drop]
        omega
      rw [hn]
      conv_lhs => rw [hl]
      rw [unguardedInsertionSortLoop_eq _ _ _ (le_refl _)]
      rw [List.take_length, List.drop_length, List.append_nil, ← List.foldl_append,
        List.take_append_drop]
      rfl
    · rw [if_neg hlen]
      have hn : (x :: rest).length - 1 = rest.length := by simp
      rw [hn, hfirst rest.length (le_refl _), List.take_length, List.drop_length,
        List.append_nil]
      rfl

theorem finalInsertionSort_perm (v : List Index) : (finalInsertionSort v).Perm v := by
  rw [finalInsertionSort_eq]
  have h := foldl_insRev_perm v []
  rw [List.append_nil] at h
  exact (List.reverse_perm _).trans (h.trans (List.reverse_perm v))

/-- The final insertion sort leaves the vector in ascending order of distance, and entries of
equal distance in the order `S` in which they were, whatever the order `S`. -/
theorem finalInsertionSort_pairwise (S : Index → Index → Prop) (v : List Index)
    (hv : v.Pairwise S) :
    (finalInsertionSort v).Pairwise
      (fun a b => a.distance < b.distance ∨ (a.distance = b.distance ∧ S a b)) := by
  rw [finalInsertionSort_eq]
  apply List.pairwise_reverse.mpr
  exact foldl_insRev_pairwise S v [] hv List.Pairwise.nil (fun _ h => by simp at h)

theorem finalInsertionSort_sorted (v : List Index) :
    (finalInsertionSort v).Pairwise (fun a b => ¬ b.distance < a.distance) := by
  rw [finalInsertionSort_eq]
  apply List.pairwise_reverse.mpr
  exact (foldl_insRev_desc v [] List.Pairwise.nil).imp (fun h => not_lt.mpr h)

/-! ## The partition of libstdc++ rearranges the vector -/

theorem getElem?_some_lt (v : List Index) (a : Nat) (x : Index) (h : v[a]? = some x) :
    a < v.length := by
  by_contra hn
  rw [List.getElem?_eq_none (not_lt.mp hn)] at h
  exact Option.noConfusion h

theorem getElem?_some_eq (v : List Index) (a : Nat) (x : Index) (h : v[a]? = some x) :
    ∃ ha : a < v.length, v[a] = x := by
  have ha := getElem?_some_lt v a x h
  refine ⟨ha, ?_⟩
  rw [List.getElem?_eq_getElem ha] at h
  exact Option.some.inj h

theorem set_perm_cons :
    ∀ (v : List Index) (b : Nat) (x z : Index), v[b]? = some z →
      (z :: v.set b x).Perm (x :: v) := by
  intro v
  induction v with
  | nil => intro b x z h; simp at h
  | cons y ys ih =>
    intro b x z h
    cases b with
    | zero =>
      have hz : y = z := by simpa using h
      subst hz
      exact List.Perm.swap _ _ _
    | succ b =>
      have h' : ys[b]? = some z := by simpa using h
      rw [List.set_cons_succ]
      exact (List.Perm.swap _ _ _).trans
        (((ih b x z h').cons y).trans (List.Perm.swap _ _ _))

/-- Writing the content of the cell `b` into the cell `a` and the content of the cell `a` into
the cell `b` rearranges the vector. -/
theorem swap_perm :
    ∀ (v : List Index) (a b : Nat) (x y : Index), v[a]? = some x → v[b]? = some y →
      ((v.set a y).set b x).Perm v := by
  intro v
  induction v with
  | nil => intro a b x y h; simp at h
  | cons z zs ih =>
    intro a b x y ha hb
    cases a with
    | zero =>
      have hx : z = x := by simpa using ha
      subst hx
      cases b with
      | zero =>
        have hy : z = y := by simpa using hb
        subst hy
        exact List.Perm.refl _
      | succ b =>
        have hb' : zs[b]? = some y := by simpa using hb
        exact set_perm_cons zs b z y hb'
    | succ a =>
      have ha' : zs[a]? = some x := by simpa using ha
      cases b with
      | zero =>
        have hy : z = y := by simpa using hb
        subst hy
        exact set_perm_cons zs a z x ha'
      | succ b =>
        have hb' : zs[b]? = some y := by simpa using hb
        exact (ih a b x y ha' hb').cons z

/-- A hole in the cell `h`: moving the content of the cell `c` into it and filling the cell `c`
gives a rearrangement of the vector with the hole filled. -/
theorem hole_move_perm (v : List Index) (h c : Nat) (x y : Index) (hc : v[c]? = some y)
    (hh : h < v.length) : ((v.set h y).set c x).Perm (v.set h x) := by
  by_cases hhc : h = c
  · subst hhc
    rw [List.set_set]
  · have hw1 : (v.set h x)[h]? = some x := by
      rw [List.getElem?_set_self hh]
    have hw2 : (v.set h x)[c]? = some y := by
      rw [List.getElem?_set_ne hhc]
      exact hc
    have := swap_perm (v.set h x) h c x y hw1 hw2
    rwa [List.set_set] at this

theorem iterSwap_perm (v : List Index) (a b : Nat) : (iterSwap v a b).Perm v := by
  unfold iterSwap
  cases ha : v[a]? with
  | none => exact List.Perm.refl _
  | some x =>
    cases hb : v[b]? with
    | none => exact List.Perm.refl _
    | some y => exact swap_perm v a b x y ha hb

theorem iterSwap_length (v : List Index) (a b : Nat) : (iterSwap v a b).length = v.length :=
  (iterSwap_perm v a b).length_eq

theorem moveMedianToFirst_perm (v : List Index) (result a b c : Nat) :
    (moveMedianToFirst v result a b c).Perm v := by
  unfold moveMedianToFirst
  split_ifs <;> exact iterSwap_perm _ _ _

theorem lessAt_true_lt (v : List Index) (a b : Nat) (h : lessAt v a b = true) :
    a < v.length ∧ b < v.length := by
  unfold lessAt at h
  cases ha : v[a]? with
  | none => rw [ha] at h; exact Bool.noConfusion h
  | some x =>
    cases hb : v[b]? with
    | none => rw [ha, hb] at h; exact Bool.noConfusion h
    | some y => exact ⟨getElem?_some_lt v a x ha, getElem?_some_lt v b y hb⟩

theorem scanUp_le (v : List Index) (pivot : Nat) :
    ∀ (fuel first : Nat), first ≤ v.length → scanUp v pivot fuel first ≤ v.length := by
  intro fuel
  induction fuel with
  | zero => intro first h; exact h
  | succ fuel ih =>
    intro first h
    unfold scanUp
    split
    · rename_i hl
      exact ih (first + 1) (lessAt_true_lt v first pivot hl).1
    · exact h

theorem scanDown_le (v : List Index) (pivot : Nat) : ∀ last, scanDown v pivot last ≤ last := by
  intro last
  induction last with
  | zero => exact le_refl _
  | succ last ih =>
    unfold scanDown
    split
    · exact le_trans ih (Nat.le_succ _)
    · exact le_refl _

theorem unguardedPartition_perm (pivot : Nat) :
    ∀ (fuel first last : Nat) (v : List Index),
      (unguardedPartition pivot fuel first last v).2.Perm v := by
  intro fuel
  induction fuel with
  | zero => intro first last v; exact List.Perm.refl _
  | succ fuel ih =>
    intro first last v
    unfold unguardedPartition
    simp only
    split
    · exact (ih _ _ _).trans (iterSwap_perm _ _ _)
    · exact List.Perm.refl _

theorem unguardedPartition_fst_le (pivot : Nat) :
    ∀ (fuel first last : Nat) (v : List Index), first ≤ v.length → last ≤ v.length →
      (unguardedPartition pivot fuel first last v).1 ≤ v.length := by
  intro fuel
  induction fuel with
  | zero => intro first last v h _; exact h
  | succ fuel ih =>
    intro first last v hf hl
    unfold unguardedPartition
    simp only
    have h1 := scanUp_le v pivot v.length first hf
    have h2 := scanDown_le v pivot (last - 1)
    split
    · rename_i hlt
      have h := ih (scanUp v pivot v.length first + 1) (scanDown v pivot (last - 1))
        (iterSwap v (scanUp v pivot v.length first) (scanDown v pivot (last - 1)))
        (by rw [iterSwap_length]; omega) (by rw [iterSwap_length]; omega)
      rwa [iterSwap_length] at h
    · exact h1

theorem unguardedPartitionPivot_perm (v : List Index) (first last : Nat) :
    (unguardedPartitionPivot v first last).2.Perm v := by
  unfold unguardedPartitionPivot
  exact (unguardedPartition_perm _ _ _ _ _).trans (moveMedianToFirst_perm _ _ _ _ _)

theorem unguardedPartitionPivot_fst_le (v : List Index) (first last : Nat)
    (hf : first < last) (hl : last ≤ v.length) :
    (unguardedPartitionPivot v first last).1 ≤ v.length := by
  unfold unguardedPartitionPivot
  have hlen := (moveMedianToFirst_perm v first (first + 1) (first + (last - first) / 2)
    (last - 1)).length_eq
  have h := unguardedPartition_fst_le first (last + 1) (first + 1) last
    (moveMedianToFirst v first (first + 1) (first + (last - first) / 2) (last - 1))
    (by rw [hlen]; omega) (by rw [hlen]; exact hl)
  rwa [hlen] at h

/-! ## The heap sort of libstdc++ rearranges the vector -/

theorem getElem?_of_lt (v : List Index) (a : Nat) (h : a < v.length) :
    ∃ y, v[a]? = some y :=
  ⟨v[a], List.getElem?_eq_getElem h⟩

theorem moveTo_of_some (v : List Index) (dst src : Nat) (y : Index) (h : v[src]? = some y) :
    moveTo v dst src = v.set dst y := by
  unfold moveTo
  rw [h]

theorem set_of_getElem? :
    ∀ (v : List Index) (a : Nat) (y : Index), v[a]? = some y → v.set a y = v := by
  intro v
  induction v with
  | nil => intro a y h; simp at h
  | cons z zs ih =>
    intro a y h
    cases a with
    | zero =>
      have hz : z = y := by simpa using h
      subst hz
      rfl
    | succ a =>
      have h' : zs[a]? = some y := by simpa using h
      rw [List.set_cons_succ, ih a y h']

theorem lessAtVal_true_lt (v : List Index) (a : Nat) (val : Index)
    (h : lessAtVal v a val = true) : a < v.length := by
  unfold lessAtVal at h
  cases ha : v[a]? with
  | none => rw [ha] at h; exact Bool.noConfusion h
  | some x => exact getElem?_some_lt v a x ha

theorem pushHeap_perm (first topIndex : Nat) (value : Index) :
    ∀ (fuel holeIndex : Nat) (v : List Index), first + holeIndex < v.length →
      (pushHeap first topIndex value fuel holeIndex v).Perm (v.set (first + holeIndex) value) := by
  intro fuel
  induction fuel with
  | zero => intro holeIndex v _; exact List.Perm.refl _
  | succ fuel ih =>
    intro holeIndex v hh
    unfold pushHeap
    simp only
    split
    · rename_i hc
      obtain ⟨y, hy⟩ := getElem?_of_lt v (first + (holeIndex - 1) / 2)
        (lessAtVal_true_lt v _ value hc.2)
      rw [moveTo_of_some v _ _ y hy]
      have hp : first + (holeIndex - 1) / 2 < (v.set (first + holeIndex) y).length := by
        rw [List.length_set]
        omega
      exact (ih ((holeIndex - 1) / 2) (v.set (first + holeIndex) y) hp).trans
        (hole_move_perm v (first + holeIndex) (first + (holeIndex - 1) / 2) value y hy hh)
    · exact List.Perm.refl _

theorem adjustHeapLoop_perm (first len : Nat) :
    ∀ (fuel holeIndex : Nat) (v : List Index), first + len ≤ v.length → holeIndex < len →
      (adjustHeapLoop first len fuel holeIndex v).1 < len ∧
        (adjustHeapLoop first len fuel holeIndex v).2.length = v.length ∧
        ∀ x, ((adjustHeapLoop first len fuel holeIndex v).2.set
            (first + (adjustHeapLoop first len fuel holeIndex v).1) x).Perm
          (v.set (first + holeIndex) x) := by
  intro fuel
  induction fuel with
  | zero => intro holeIndex v _ hh; exact ⟨hh, rfl, fun _ => List.Perm.refl _⟩
  | succ fuel ih =>
    intro holeIndex v hlen hh
    unfold adjustHeapLoop
    by_cases hlt : holeIndex < (len - 1) / 2
    · rw [if_pos hlt]
      simp only
      generalize hc : (if lessAt v (first + 2 * (holeIndex + 1))
          (first + (2 * (holeIndex + 1) - 1)) = true then 2 * (holeIndex + 1) - 1
        else 2 * (holeIndex + 1)) = c
      have hcl : c < len := by
        rw [← hc]
        split <;> omega
      obtain ⟨y, hy⟩ := getElem?_of_lt v (first + c) (by omega)
      rw [moveTo_of_some v _ _ y hy]
      have h1 := ih c (v.set (first + holeIndex) y) (by rw [List.length_set]; exact hlen) hcl
      refine ⟨h1.1, by rw [h1.2.1, List.length_set], fun x => ?_⟩
      exact (h1.2.2 x).trans
        (hole_move_perm v (first + holeIndex) (first + c) x y hy (by omega))
    · rw [if_neg hlt]
      exact ⟨hh, rfl, fun _ => List.Perm.refl _⟩

theorem adjustHeap_perm (v : List Index) (first holeIndex len : Nat) (value : Index)
    (hlen : first + len ≤ v.length) (hh : holeIndex < len) :
    (adjustHeap v first holeIndex len value).Perm (v.set (first + holeIndex) value) := by
  unfold adjustHeap
  obtain ⟨h1, h2, h3⟩ := adjustHeapLoop_perm first len len holeIndex v hlen hh
  generalize adjustHeapLoop first len len holeIndex v = r at h1 h2 h3
  simp only
  by_cases hc : len % 2 = 0 ∧ r.1 = (len - 2) / 2
  · rw [if_pos hc]
    simp only
    have hchild : 2 * (r.1 + 1) - 1 < len := by omega
    obtain ⟨y, hy⟩ := getElem?_of_lt r.2 (first + (2 * (r.1 + 1) - 1)) (by omega)
    rw [moveTo_of_some r.2 _ _ y hy]
    have hp := pushHeap_perm first holeIndex value (2 * (r.1 + 1) - 1) (2 * (r.1 + 1) - 1)
      (r.2.set (first + r.1) y) (by rw [List.length_set]; omega)
    exact hp.trans ((hole_move_perm r.2 (first + r.1) (first + (2 * (r.1 + 1) - 1)) value y hy
      (by omega)).trans (h3 value))
  · rw [if_neg hc]
    have hp := pushHeap_perm first holeIndex value r.1 r.1 r.2 (by omega)
    exact hp.trans (h3 value)

theorem popHeap_perm (v : List Index) (first last result : Nat) (hf : first < last)
    (hl : last ≤ v.length) : (popHeap v first last result).Perm v := by
  unfold popHeap
  cases hr : v[result]? with
  | none => exact List.Perm.refl _
  | some value =>
    simp only
    obtain ⟨y, hy⟩ := getElem?_of_lt v first (by omega)
    rw [moveTo_of_some v _ _ y hy]
    have h := adjustHeap_perm (v.set result y) first 0 (last - first) value
      (by rw [List.length_set]; omega) (by omega)
    exact h.trans (swap_perm v result first value y hr hy)

theorem makeHeapLoop_perm (first len : Nat) :
    ∀ (parent : Nat) (v : List Index), first + len ≤ v.length → parent < len →
      (makeHeapLoop first len parent v).Perm v := by
  intro parent
  induction parent with
  | zero =>
    intro v hlen hp
    unfold makeHeapLoop
    cases hv : v[first]? with
    | none => exact List.Perm.refl _
    | some value =>
      simp only
      have h := adjustHeap_perm v first 0 len value hlen hp
      rwa [Nat.add_zero, set_of_getElem? v first value hv] at h
  | succ parent ih =>
    intro v hlen hp
    unfold makeHeapLoop
    cases hv : v[first + (parent + 1)]? with
    | none => exact List.Perm.refl _
    | some value =>
      simp only
      have h := adjustHeap_perm v first (parent + 1) len value hlen hp
      rw [set_of_getElem? v _ value hv] at h
      exact (ih _ (by rw [h.length_eq]; exact hlen) (by omega)).trans h

theorem makeHeap_perm (v : List Index) (first last : Nat) (hl : last ≤ v.length) :
    (makeHeap v first last).Perm v := by
  unfold makeHeap
  split
  · exact List.Perm.refl _
  · exact makeHeapLoop_perm first (last - first) _ v (by omega) (by omega)

theorem sortHeap_perm (first : Nat) :
    ∀ (n : Nat) (v : List Index), first + n ≤ v.length → (sortHeap first n v).Perm v := by
  intro n
  induction n with
  | zero => intro v _; exact List.Perm.refl _
  | succ n ih =>
    intro v hlen
    cases n with
    | zero => exact List.Perm.refl _
    | succ n =>
      unfold sortHeap
      have h := popHeap_perm v first (first + (n + 1)) (first + (n + 1)) (by omega) (by omega)
      exact (ih _ (by rw [h.length_eq]; omega)).trans h

theorem partialSort_perm (v : List Index) (first last : Nat) (hl : last ≤ v.length) :
    (partialSort v first last).Perm v := by
  unfold partialSort
  have h := makeHeap_perm v first last hl
  by_cases hfl : first ≤ last
  · exact (sortHeap_perm first (last - first) _ (by rw [h.length_eq]; omega)).trans h
  · have h0 : last - first = 0 := by omega
    rw [h0]
    exact h

/-! ## The introsort loop and `std::sort` -/

theorem introsortLoop_perm :
    ∀ (depth first last : Nat) (v : List Index), last ≤ v.length →
      (introsortLoop depth first last v).Perm v := by
  intro depth
  induction depth with
  | zero =>
    intro first last v hl
    unfold introsortLoop
    split
    · exact partialSort_perm v first last hl
    · exact List.Perm.refl _
  | succ depth ih =>
    intro first last v hl
    unfold introsortLoop
    split
    · rename_i hgt
      simp only
      have hp := unguardedPartitionPivot_perm v first last
      have hcut := unguardedPartitionPivot_fst_le v first last (by omega) hl
      have h1 := ih (unguardedPartitionPivot v first last).1 last
        (unguardedPartitionPivot v first last).2 (by rw [hp.length_eq]; exact hl)
      have h2 := ih first (unguardedPartitionPivot v first last).1
        (introsortLoop depth (unguardedPartitionPivot v first last).1 last
          (unguardedPartitionPivot v first last).2)
        (by rw [h1.length_eq, hp.length_eq]; exact hcut)
      exact h2.trans (h1.trans hp)
    · exact List.Perm.refl _

theorem introsortLoop_small (depth first last : Nat) (v : List Index)
    (h : last - first ≤ 16) : introsortLoop depth first last v = v := by
  cases depth with
  | zero =>
    unfold introsortLoop
    rw [if_neg (by omega)]
  | succ depth =>
    unfold introsortLoop
    rw [if_neg (by omega)]

theorem stdSort_eq (v : List Index) :
    stdSort v = finalInsertionSort (introsortLoop (lg v.length v.length * 2) 0 v.length v) := by
  unfold stdSort
  split
  · rename_i h
    have hv : v = [] := List.length_eq_zero.mp h
    subst hv
    rfl
  · rfl

theorem stdSort_perm (v : List Index) : (stdSort v).Perm v := by
  rw [stdSort_eq]
  exact (finalInsertionSort_perm _).trans (introsortLoop_perm _ 0 v.length v (le_refl _))

/-- The sort of libstdc++ meets the contract of `std::sort`. -/
theorem stdSort_spec : SortSpec stdSort := by
  intro l
  refine ⟨stdSort_perm l, ?_⟩
  rw [stdSort_eq]
  exact finalInsertionSort_sorted _

/-- On a vector of at most 16 elements the sort of libstdc++ is the straight insertion alone:
entries of equal distance stay in the order `S` in which they were. -/
theorem stdSort_stable_small (S : Index → Index → Prop) (v : List Index)
    (hlen : v.length ≤ 16) (hv : v.Pairwise S) :
    (stdSort v).Pairwise
      (fun a b => a.distance < b.distance ∨ (a.distance = b.distance ∧ S a b)) := by
  rw [stdSort_eq, introsortLoop_small _ 0 v.length v (by omega)]
  exact finalInsertionSort_pairwise S v hv

/-! ## The bounded loops of the sort have rounds enough -/

theorem lessAt_of_le (v : List Index) (a b : Nat) (h : v.length ≤ a) : lessAt v a b = false := by
  unfold lessAt
  rw [List.getElem?_eq_none h]

/-- The scan `scanUp` ends on a cell that is not smaller than the pivot (or at the end of the
vector) within the rounds it is given. -/
theorem scanUp_stop (v : List Index) (pivot : Nat) :
    ∀ (fuel first : Nat), v.length ≤ first + fuel →
      lessAt v (scanUp v pivot fuel first) pivot = false := by
  intro fuel
  induction fuel with
  | zero => intro first h; exact lessAt_of_le v first pivot h
  | succ fuel ih =>
    intro first h
    unfold scanUp
    split
    · exact ih (first + 1) (by omega)
    · rename_i hn
      simpa using hn

theorem scanUp_ge (v : List Index) (pivot : Nat) :
    ∀ (fuel first : Nat), first ≤ scanUp v pivot fuel first := by
  intro fuel
  induction fuel with
  | zero => intro first; exact le_refl _
  | succ fuel ih =>
    intro first
    unfold scanUp
    split
    · exact le_trans (Nat.le_succ _) (ih (first + 1))
    · exact le_refl _

theorem unguardedPartition_succ (pivot fuel first last : Nat) (v : List Index) :
    unguardedPartition pivot (fuel + 1) first last v =
      if scanUp v pivot v.length first < scanDown v pivot (last - 1) then
        unguardedPartition pivot fuel (scanUp v pivot v.length first + 1)
          (scanDown v pivot (last - 1))
          (iterSwap v (scanUp v pivot v.length first) (scanDown v pivot (last - 1)))
      else (scanUp v pivot v.length first, v) := rfl

/-- More rounds than `last` change nothing in `unguardedPartition`. -/
theorem unguardedPartition_fuel (pivot : Nat) :
    ∀ (fuel first last : Nat) (v : List Index), last < fuel →
      unguardedPartition pivot (fuel + 1) first last v =
        unguardedPartition pivot fuel first last v := by
  intro fuel
  induction fuel with
  | zero => intro first last v h; omega
  | succ fuel ih =>
    intro first last v h
    conv_lhs => rw [unguardedPartition_succ]
    conv_rhs => rw [unguardedPartition_succ]
    have h2 := scanDown_le v pivot (last - 1)
    split
    · rename_i hlt
      exact ih _ _ _ (by omega)
    · rfl

theorem pushHeap_succ (first topIndex : Nat) (value : Index) (fuel holeIndex : Nat)
    (v : List Index) :
    pushHeap first topIndex value (fuel + 1) holeIndex v =
      if holeIndex > topIndex ∧ lessAtVal v (first + (holeIndex - 1) / 2) value = true then
        pushHeap first topIndex value fuel ((holeIndex - 1) / 2)
          (moveTo v (first + holeIndex) (first + (holeIndex - 1) / 2))
      else v.set (first + holeIndex) value := rfl

/-- More rounds than `holeIndex` change nothing in `pushHeap`. -/
theorem pushHeap_fuel (first topIndex : Nat) (value : Index) :
    ∀ (fuel holeIndex : Nat) (v : List Index), holeIndex ≤ fuel →
      pushHeap first topIndex value (fuel + 1) holeIndex v =
        pushHeap first topIndex value fuel holeIndex v := by
  intro fuel
  induction fuel with
  | zero =>
    intro holeIndex v h
    have h0 : holeIndex = 0 := by omega
    subst h0
    rw [pushHeap_succ, if_neg (by omega)]
    rfl
  | succ fuel ih =>
    intro holeIndex v h
    conv_lhs => rw [pushHeap_succ]
    conv_rhs => rw [pushHeap_succ]
    split
    · rename_i hc
      exact ih _ _ (by omega)
    · rfl

theorem adjustHeapLoop_succ (first len fuel holeIndex : Nat) (v : List Index) :
    adjustHeapLoop first len (fuel + 1) holeIndex v =
      if holeIndex < (len - 1) / 2 then
        adjustHeapLoop first len fuel
          (if lessAt v (first + 2 * (holeIndex + 1)) (first + (2 * (holeIndex + 1) - 1)) then
            2 * (holeIndex + 1) - 1 else 2 * (holeIndex + 1))
          (moveTo v (first + holeIndex)
            (first + (if lessAt v (first + 2 * (holeIndex + 1))
                (first + (2 * (holeIndex + 1) - 1)) then
              2 * (holeIndex + 1) - 1 else 2 * (holeIndex + 1))))
      else (holeIndex, v) := rfl

/-- More rounds than `len - holeIndex` change nothing in `adjustHeapLoop`. -/
theorem adjustHeapLoop_fuel (first len : Nat) :
    ∀ (fuel holeIndex : Nat) (v : List Index), len ≤ fuel + holeIndex →
      adjustHeapLoop first len (fuel + 1) holeIndex v =
        adjustHeapLoop first len fuel holeIndex v := by
  intro fuel
  induction fuel with
  | zero =>
    intro holeIndex v h
    rw [adjustHeapLoop_succ, if_neg (by omega)]
    rfl
  | succ fuel ih =>
    intro holeIndex v h
    conv_lhs => rw [adjustHeapLoop_succ]
    conv_rhs => rw [adjustHeapLoop_succ]
    split
    · apply ih
      split <;> omega
    · rfl

theorem lg_succ (fuel n : Nat) :
    lg (fuel + 1) n = if n < 2 then 0 else lg fuel (n / 2) + 1 := rfl

/-- More rounds than `n` change nothing in `lg`. -/
theorem lg_fuel : ∀ (fuel n : Nat), n ≤ fuel → lg (fuel + 1) n = lg fuel n := by
  intro fuel
  induction fuel with
  | zero =>
    intro n h
    have h0 : n = 0 := by omega
    subst h0
    rfl
  | succ fuel ih =>
    intro n h
    conv_lhs => rw [lg_succ]
    conv_rhs => rw [lg_succ]
    split
    · rfl
    · rw [ih (n / 2) (by omega)]

/-- The model `lg` gives the position of the highest set bit: `2 ^ lg n ≤ n < 2 ^ (lg n + 1)`. -/
theorem lg_spec : ∀ (fuel n : Nat), n ≤ fuel → 0 < n →
    2 ^ lg fuel n ≤ n ∧ n < 2 ^ (lg fuel n + 1) := by
  intro fuel
  induction fuel with
  | zero => intro n h h0; omega
  | succ fuel ih =>
    intro n h h0
    rw [lg_succ]
    split
    · rename_i h2
      have h1 : n = 1 := by omega
      subst h1
      simp
    · rename_i h2
      obtain ⟨a, b⟩ := ih (n / 2) (by omega) (by omega)
      rw [pow_succ, pow_succ]
      constructor <;> omega

/-! ## On at most 16 elements the sort of libstdc++ is the stable insertion sort -/

theorem buildDistances_length_le (m : DistanceMatrix) (h : m.size ≤ 6) :
    (buildDistances m).length ≤ 16 := by
  rw [buildDistances_length]
  have h1 : m.size * (m.size - 1) ≤ 6 * 5 := Nat.mul_le_mul h (by omega)
  omega

theorem insRev_append_of_le (b x : Index) (h : b.distance ≤ x.distance) :
    ∀ l : List Index, insRev (l ++ [b]) x = insRev l x ++ [b] := by
  intro l
  induction l with
  | nil =>
    show insRev [b] x = [x, b]
    rw [insRev_cons, if_neg (not_lt.mpr h)]
  | cons y l ih =>
    rw [List.cons_append, insRev_cons, insRev_cons]
    split
    · rw [ih]; rfl
    · rfl

/-- Insertion from the back of an ascending list is the ordered insertion from the front with
the strict order: the new element goes behind the elements that are not larger. -/
theorem insRev_reverse_eq (x : Index) :
    ∀ s : List Index, s.Pairwise (fun a b => a.distance ≤ b.distance) →
      (insRev s.reverse x).reverse =
        s.orderedInsert (fun a b => a.distance < b.distance) x := by
  intro s
  induction s with
  | nil => intro _; rfl
  | cons b t ih =>
    intro hs
    have hs' := List.pairwise_cons.mp hs
    rw [List.reverse_cons, List.orderedInsert]
    by_cases hlt : x.distance < b.distance
    · rw [if_pos hlt]
      have hall : ∀ y ∈ t.reverse ++ [b], x.distance < y.distance := by
        intro y hy
        rcases List.mem_append.mp hy with h | h
        · exact lt_of_lt_of_le hlt (hs'.1 y (List.mem_reverse.mp h))
        · rw [List.mem_singleton.mp h]; exact hlt
      rw [insRev_all_greater _ x hall]
      simp
    · rw [if_neg hlt, insRev_append_of_le b x (not_lt.mp hlt), List.reverse_append,
        ih hs'.2]
      rfl

/-- The two ordered insertions commute: `a` in front of the elements that are not smaller, `x`
behind the elements that are not larger. -/
theorem orderedInsert_comm (a x : Index) :
    ∀ s : List Index,
      (s.orderedInsert (fun a b => a.distance < b.distance) x).orderedInsert
          (fun a b => a.distance ≤ b.distance) a =
        (s.orderedInsert (fun a b => a.distance ≤ b.distance) a).orderedInsert
          (fun a b => a.distance < b.distance) x := by
  intro s
  induction s with
  | nil =>
    simp only [List.orderedInsert]
    by_cases h : a.distance ≤ x.distance
    · rw [if_pos h, if_neg (not_lt.mpr h)]
    · rw [if_neg h, if_pos (not_le.mp h)]
  | cons b t ih =>
    simp only [List.orderedInsert]
    by_cases hxb : x.distance < b.distance
    · rw [if_pos hxb]
      by_cases hab : a.distance ≤ b.distance
      · rw [if_pos hab]
        simp only [List.orderedInsert]
        by_cases hax : a.distance ≤ x.distance
        · rw [if_pos hax, if_neg (not_lt.mpr hax), if_pos hxb]
        · rw [if_neg hax, if_pos hab, if_pos (not_le.mp hax)]
      · rw [if_neg hab]
        simp only [List.orderedInsert]
        have hax : ¬ a.distance ≤ x.distance := by
          intro h
          exact hab (le_of_lt (lt_of_le_of_lt h hxb))
        rw [if_neg hax, if_neg hab, if_pos hxb]
    · rw [if_neg hxb]
      by_cases hab : a.distance ≤ b.distance
      · rw [if_pos hab]
        simp only [List.orderedInsert]
        have hxa : ¬ x.distance < a.distance := by
          intro h
          exact hxb (lt_of_lt_of_le h hab)
        rw [if_pos hab, if_neg hxa, if_neg hxb]
      · rw [if_neg hab]
        simp only [List.orderedInsert]
        rw [if_neg hab, if_neg hxb, ih]

theorem stableSort_concat (x : Index) :
    ∀ w : List Index,
      stableSort (w ++ [x]) =
        (stableSort w).orderedInsert (fun a b => a.distance < b.distance) x := by
  intro w
  induction w with
  | nil => rfl
  | cons a w ih =>
    show (stableSort (w ++ [x])).orderedInsert (fun a b => a.distance ≤ b.distance) a = _
    rw [ih, orderedInsert_comm]
    rfl

theorem stableSort_sorted (l : List Index) :
    (stableSort l).Pairwise (fun a b => a.distance ≤ b.distance) :=
  (stableSort_spec l).2.imp (fun h => not_lt.mp h)

/-- The final insertion sort of libstdc++ gives the list that the stable insertion sort
`stableSort` gives. -/
theorem finalInsertionSort_eq_stableSort (v : List Index) :
    finalInsertionSort v = stableSort v := by
  rw [finalInsertionSort_eq]
  induction v using List.reverseRecOn with
  | nil => rfl
  | append_singleton w x ih =>
    rw [List.foldl_append, List.foldl_cons, List.foldl_nil, stableSort_concat]
    have h : w.foldl insRev [] = (stableSort w).reverse := by
      rw [← ih, List.reverse_reverse]
    rw [h, insRev_reverse_eq x _ (stableSort_sorted w)]

/-- On a vector of at most 16 elements, as in every run on at most six labels, the sort of
libstdc++ gives the list that `stableSort` gives. -/
theorem stdSort_eq_stableSort (v : List Index) (hlen : v.length ≤ 16) :
    stdSort v = stableSort v := by
  rw [stdSort_eq, introsortLoop_small _ 0 v.length v (by omega)]
  exact finalInsertionSort_eq_stableSort v

/-- On at most six labels the run with the sort of libstdc++ is the run with `stableSort`. -/
theorem main_stdSort_small (m : DistanceMatrix) (nbSites nbCompleteSites : String → Nat)
    (coins : Nat → Bool) (p : Params) (h : m.size ≤ 6) :
    main stdSort m nbSites nbCompleteSites coins p =
      main stableSort m nbSites nbCompleteSites coins p := by
  unfold main initState
  rw [stdSort_eq_stableSort _ (buildDistances_length_le m h)]

/-! ## Under the length criteria the coins play no part -/

theorem removalStep_coins (m : DistanceMatrix) (critMeth : String) (sLen : Nat → Nat)
    (coins coins' : Nat → Bool) (hcrit : critMeth = "length" ∨ critMeth = "length.complete")
    (st : State) :
    removalStep m critMeth sLen coins st = removalStep m critMeth sLen coins' st := by
  unfold removalStep chooseRm
  rw [if_pos hcrit, if_pos hcrit]

theorem thresholdLoop_coins (m : DistanceMatrix) (critMeth : String) (sLen : Nat → Nat)
    (coins coins' : Nat → Bool) (hcrit : critMeth = "length" ∨ critMeth = "length.complete")
    (t : ℚ) :
    ∀ (fuel : Nat) (st : State),
      thresholdLoop m critMeth sLen coins t fuel st =
        thresholdLoop m critMeth sLen coins' t fuel st := by
  intro fuel
  induction fuel with
  | zero => intro st; rfl
  | succ fuel ih =>
    intro st
    unfold thresholdLoop
    rw [removalStep_coins m critMeth sLen coins coins' hcrit st]
    cases st.distances.head? with
    | none => rfl
    | some d0 =>
      simp only
      split
      · cases removalStep m critMeth sLen coins' st with
        | error e => rfl
        | ok st' =>
          simp only
          rw [ih st']
      · rfl

theorem sampleLoop_coins (m : DistanceMatrix) (critMeth : String) (sLen : Nat → Nat)
    (coins coins' : Nat → Bool) (hcrit : critMeth = "length" ∨ critMeth = "length.complete")
    (k : Nat) :
    ∀ (fuel : Nat) (st : State),
      sampleLoop m critMeth sLen coins k fuel st =
        sampleLoop m critMeth sLen coins' k fuel st := by
  intro fuel
  induction fuel with
  | zero => intro st; rfl
  | succ fuel ih =>
    intro st
    unfold sampleLoop
    rw [removalStep_coins m critMeth sLen coins coins' hcrit st]
    split
    · cases removalStep m critMeth sLen coins' st with
      | error e => rfl
      | ok st' =>
        simp only
        rw [ih st']
    · rfl

theorem main_coins (srt : List Index → List Index) (m : DistanceMatrix)
    (nbSites nbCompleteSites : String → Nat) (coins coins' : Nat → Bool) (p : Params)
    (hcrit : p.critMeth = "length" ∨ p.critMeth = "length.complete") :
    main srt m nbSites nbCompleteSites coins p = main srt m nbSites nbCompleteSites coins' p := by
  unfold main
  simp only
  rw [thresholdLoop_coins m p.critMeth _ coins coins' hcrit,
    sampleLoop_coins m p.critMeth _ coins coins' hcrit]

/-- The list of lines 166-169 is built in increasing `(i, j)` index order. -/
theorem buildDistances_indexLt (m : DistanceMatrix) : (buildDistances m).Pairwise IndexLt := by
  unfold buildDistances
  rw [List.pairwise_flatMap]
  constructor
  · intro i _
    rw [List.pairwise_map]
    refine (List.pairwise_lt_range' (i + 1) (m.size - (i + 1))).imp ?_
    intro a b hab
    exact Or.inr ⟨rfl, hab⟩
  · refine (List.pairwise_lt_range (m.size - 1)).imp ?_
    intro a b hab x hx y hy
    obtain ⟨j, _, rfl⟩ := List.mem_map.mp hx
    obtain ⟨j', _, rfl⟩ := List.mem_map.mp hy
    exact Or.inl hab

/-- C18, as the code has it (candidate list): the list built on lines 166-169 has exactly one
entry `(dist(i, j), i, j)` for each pair of indices `i < j < n` and nothing else, so
`n (n - 1) / 2` entries; the sort of line 170, as libstdc++ carries it out, leaves a
rearrangement of that list in ascending order of distance.  For at most six labels (at most 15
entries, sorted by straight insertion alone) entries of equal distance are in increasing
`(i, j)` index order; for more labels they need not be.  Under the criteria `length` and
`length.complete` the result of the run does not depend on the coin flips: it is a function of
the matrix, the scores and the parameters alone. -/
theorem candidate_list (m : DistanceMatrix) :
    (buildDistances m).length = m.size * (m.size - 1) / 2 ∧
      (∀ x, x ∈ buildDistances m ↔
        x.i1 < x.i2 ∧ x.i2 < m.size ∧ x.distance = m.dist x.i1 x.i2) ∧
      (∀ i j, i < j → j < m.size → (buildDistances m).count ⟨m.dist i j, i, j⟩ = 1) ∧
      (stdSort (buildDistances m)).Perm (buildDistances m) ∧
      (stdSort (buildDistances m)).Pairwise (fun a b => a.distance ≤ b.distance) ∧
      (m.size ≤ 6 → TieIndexOrder (stdSort (buildDistances m))) ∧
      (∀ (nbSites nbCompleteSites : String → Nat) (coins coins' : Nat → Bool) (p : Params),
        (p.critMeth = "length" ∨ p.critMeth = "length.complete") →
        main stdSort m nbSites nbCompleteSites coins p =
          main stdSort m nbSites nbCompleteSites coins' p) := by
  refine ⟨buildDistances_length m, mem_buildDistances m, ?_, stdSort_perm _,
    (stdSort_spec _).2.imp (fun h => not_lt.mp h), ?_, ?_⟩
  · intro i j hij hj
    exact List.count_eq_one_of_mem (buildDistances_nodup m)
      ((mem_buildDistances m _).mpr ⟨hij, hj, rfl⟩)
  · intro hsz
    exact stdSort_stable_small IndexLt _ (buildDistances_length_le m hsz)
      (buildDistances_indexLt m)
  · intro nbSites nbCompleteSites coins coins' p hcrit
    exact main_coins stdSort m nbSites nbCompleteSites coins coins' p hcrit

theorem candidate_list_witness :
    (buildDistances scenarioD).length = scenarioD.size * (scenarioD.size - 1) / 2 ∧
      (∀ x, x ∈ buildDistances scenarioD ↔
        x.i1 < x.i2 ∧ x.i2 < scenarioD.size ∧ x.distance = scenarioD.dist x.i1 x.i2) ∧
      (buildDistances scenarioD).count ⟨scenarioD.dist 0 2, 0, 2⟩ = 1 ∧
      (stdSort (buildDistances scenarioD)).Perm (buildDistances scenarioD) ∧
      (stdSort (buildDistances scenarioD)).Pairwise (fun a b => a.distance ≤ b.distance) ∧
      TieIndexOrder (stdSort (buildDistances scenarioD)) ∧
      stdSort (buildDistances scenarioD) =
        [⟨mkRat 1 1000, 0, 1⟩, ⟨mkRat 1 1000, 0, 2⟩, ⟨mkRat 1 1000, 1, 2⟩] ∧
      main stdSort scenarioD equalScores equalScores (constCoin false)
          ⟨"sample", "length", 0, 2⟩ =
        main stdSort scenarioD equalScores equalScores (constCoin true)
          ⟨"sample", "length", 0, 2⟩ :=
  ⟨(candidate_list scenarioD).1, (candidate_list scenarioD).2.1,
    (candidate_list scenarioD).2.2.1 0 2 (by decide) (by decide),
    (candidate_list scenarioD).2.2.2.1, (candidate_list scenarioD).2.2.2.2.1,
    (candidate_list scenarioD).2.2.2.2.2.1 (by decide), by decide,
    (candidate_list scenarioD).2.2.2.2.2.2 equalScores equalScores (constCoin false)
      (constCoin true) ⟨"sample", "length", 0, 2⟩ (Or.inl rfl)⟩

set_option maxRecDepth 100000 in
/-- C18 as stated fails for seven labels: on `sevenLabels` the list is built in ascending order
of distance and in index order among equal distances, the entry of A and B before the entry of
A and C, both at distance `0.001`.  The sort of libstdc++ (21 entries: one partition round, which
swaps the entry of A and B with the median entry, then the insertion sort) leaves the entry of
A and C in front of the entry of A and B, so the sorted list is not in index order among equal
distances.  The sample run with `k = 6` under the criterion `length`, A having the longest
sequence, removes C; on the list with ties in index order (the one `stableSort` gives, which is
the list as built) it would remove B. -/
theorem tie_order_counterexample :
    buildDistances sevenLabels =
        [⟨mkRat 1 1000, 0, 1⟩, ⟨mkRat 1 1000, 0, 2⟩, ⟨mkRat 13 1000, 0, 3⟩,
          ⟨mkRat 14 1000, 0, 4⟩, ⟨mkRat 15 1000, 0, 5⟩, ⟨mkRat 16 1000, 0, 6⟩,
          ⟨mkRat 22 1000, 1, 2⟩, ⟨mkRat 23 1000, 1, 3⟩, ⟨mkRat 24 1000, 1, 4⟩,
          ⟨mkRat 25 1000, 1, 5⟩, ⟨mkRat 26 1000, 1, 6⟩, ⟨mkRat 33 1000, 2, 3⟩,
          ⟨mkRat 34 1000, 2, 4⟩, ⟨mkRat 35 1000, 2, 5⟩, ⟨mkRat 36 1000, 2, 6⟩,
          ⟨mkRat 44 1000, 3, 4⟩, ⟨mkRat 45 1000, 3, 5⟩, ⟨mkRat 46 1000, 3, 6⟩,
          ⟨mkRat 55 1000, 4, 5⟩, ⟨mkRat 56 1000, 4, 6⟩, ⟨mkRat 66 1000, 5, 6⟩] ∧
      TieIndexOrder (buildDistances sevenLabels) ∧
      (unguardedPartitionPivot (buildDistances sevenLabels) 0 21).1 = 11 ∧
      ((unguardedPartitionPivot (buildDistances sevenLabels) 0 21).2.map
          (fun x => (x.i1, x.i2))).take 11 =
        [(1, 6), (0, 2), (0, 3), (0, 4), (0, 5), (0, 6), (1, 2), (1, 3), (1, 4), (1, 5),
          (0, 1)] ∧
      stdSort (buildDistances sevenLabels) =
        [⟨mkRat 1 1000, 0, 2⟩, ⟨mkRat 1 1000, 0, 1⟩, ⟨mkRat 13 1000, 0, 3⟩,
          ⟨mkRat 14 1000, 0, 4⟩, ⟨mkRat 15 1000, 0, 5⟩, ⟨mkRat 16 1000, 0, 6⟩,
          ⟨mkRat 22 1000, 1, 2⟩, ⟨mkRat 23 1000, 1, 3⟩, ⟨mkRat 24 1000, 1, 4⟩,
          ⟨mkRat 25 1000, 1, 5⟩, ⟨mkRat 26 1000, 1, 6⟩, ⟨mkRat 33 1000, 2, 3⟩,
          ⟨mkRat 34 1000, 2, 4⟩, ⟨mkRat 35 1000, 2, 5⟩, ⟨mkRat 36 1000, 2, 6⟩,
          ⟨mkRat 44 1000, 3, 4⟩, ⟨mkRat 45 1000, 3, 5⟩, ⟨mkRat 46 1000, 3, 6⟩,
          ⟨mkRat 55 1000, 4, 5⟩, ⟨mkRat 56 1000, 4, 6⟩, ⟨mkRat 66 1000, 5, 6⟩] ∧
      ¬ TieIndexOrder (stdSort (buildDistances sevenLabels)) ∧
      removedLabels (main stdSort sevenLabels longerA longerA (constCoin false)
        ⟨"sample", "length", 0, 6⟩) = some ["C"] ∧
      retained (main stdSort sevenLabels longerA longerA (constCoin false)
        ⟨"sample", "length", 0, 6⟩) = some ["A", "B", "D", "E", "F", "G"] ∧
      stableSort (buildDistances sevenLabels) = buildDistances sevenLabels ∧
      removedLabels (main stableSort sevenLabels longerA longerA (constCoin false)
        ⟨"sample", "length", 0, 6⟩) = some ["B"] := by
  refine ⟨?_, ?_, ?_, ?_, ?_, ?_, ?_, ?_, ?_, ?_⟩ <;> decide

/-! ## The distance reported by sample mode -/

/-- A sample loop started with at least `k` names ends with exactly `k` names. -/
theorem sampleLoop_length_eq (m : DistanceMatrix) (critMeth : String) (sLen : Nat → Nat)
    (coins : Nat → Bool) (k : Nat) :
    ∀ (fuel : Nat) (st st' : State), k ≤ st.seqNames.length →
      sampleLoop m critMeth sLen coins k fuel st = .ok st' → st'.seqNames.length = k := by
  intro fuel
  induction fuel with
  | zero => intro st st' _ h; simp [sampleLoop] at h
  | succ fuel ih =>
    intro st st' hle h
    unfold sampleLoop at h
    by_cases hgt : st.seqNames.length > k
    · rw [if_pos hgt] at h
      cases hs : removalStep m critMeth sLen coins st with
      | error e => rw [hs] at h; simp at h
      | ok st1 =>
        rw [hs] at h
        have := removalStep_length m critMeth sLen coins st st1 hs
        exact ih st1 st' (by omega) h
    · rw [if_neg hgt] at h
      cases h
      omega

/-- C19, as the code has it (reported minimal distance): on a matrix of uniquely named labels
with a conforming sort, for every `sample` run that ends without error with `2 ≤ k ≤ n`, the
entry read for the line `Minimal distance in final data set` joins two retained labels `i < j`,
neither of them removed, the value reported is `dist(i, j)`, and it is the least matrix distance
over the pairs of retained labels. -/
theorem reported_minimum (srt : List Index → List Index) (hs : SortSpec srt)
    (m : DistanceMatrix) (hu : m.UniqueNames)
    (nbSites nbCompleteSites : String → Nat) (coins : Nat → Bool) (p : Params) (out : Output)
    (hd : p.deleteMeth = "sample") (hk2 : 2 ≤ p.sampleSize) (hkn : p.sampleSize ≤ m.size)
    (hrun : main srt m nbSites nbCompleteSites coins p = .ok out) :
    ∃ i j, i < j ∧ j < m.size ∧ out.distances.head? = some ⟨m.dist i j, i, j⟩ ∧
      out.minimalDistance = some (m.dist i j) ∧
      m.getName i ∈ out.seqNames ∧ m.getName j ∈ out.seqNames ∧
      m.getName i ∉ out.removed ∧ m.getName j ∉ out.removed ∧
      ∀ i' j', i' < j' → j' < m.size → m.getName i' ∈ out.seqNames →
        m.getName j' ∈ out.seqNames → m.dist i j ≤ m.dist i' j' := by
  have hc := candidates_of_sort srt hs m
  have hperm := main_perm srt m nbSites nbCompleteSites coins p out hrun
  have hnd : (out.removed ++ out.seqNames).Nodup := hperm.nodup_iff.mpr hu
  have hdisj := (List.nodup_append.mp hnd).2.2
  obtain ⟨st, d0, htr, hnames, _, hdist, hhead, hmode⟩ :=
    main_ok_state srt m nbSites nbCompleteSites coins p out
      (Tracked m (srt (buildDistances m)))
      (fun a b => tracked_step m hu _ hc p.critMeth _ coins a b)
      (initState_tracked srt m) hrun
  rcases hmode with ⟨hd', _⟩ | ⟨_, _, hmin, hloop⟩
  · rw [hd] at hd'
    exact absurd hd' (by decide)
  · have hlen := sampleLoop_length_eq m p.critMeth _ coins p.sampleSize _ _ st
      (by rw [initState_names_length]; exact hkn) hloop
    obtain ⟨⟨R, hcl⟩, _⟩ := htr
    obtain ⟨d0', tl, hd0, hmem, hlive, hleast⟩ := clean_front m _ hc R st hcl (by omega)
    rw [hd0] at hhead
    have he : d0' = d0 := Option.some.inj hhead
    subst he
    obtain ⟨h12, h2s, hdd⟩ := hc.wf d0' hmem
    have hl : d0'.i1 ∉ R ∧ d0'.i2 ∉ R := by simpa [live] using hlive
    have hi := clean_mem_of_live m _ R st hcl d0'.i1 (by omega) hl.1
    have hj := clean_mem_of_live m _ R st hcl d0'.i2 h2s hl.2
    rw [← hnames] at hi hj
    refine ⟨d0'.i1, d0'.i2, h12, h2s, ?_, ?_, hi, hj, fun h => hdisj h hi,
      fun h => hdisj h hj, ?_⟩
    · rw [hdist, hd0, ← hdd]
      rfl
    · rw [hmin, hdd]
    · intro i' j' hij hj' hi'' hj''
      rw [hnames] at hi'' hj''
      have hiR := (clean_mem_names m hu _ R st hcl i' (by omega)).mp hi''
      have hjR := (clean_mem_names m hu _ R st hcl j' hj').mp hj''
      have := hleast ⟨m.dist i' j', i', j'⟩ (hc.complete i' j' hij hj')
        (by simp [live, hiR, hjR])
      rw [← hdd]
      simpa using this

theorem reported_minimum_witness :
    ∃ i j, i < j ∧ j < scenarioA.size ∧
      (some (⟨mkRat 1 2, 2, 3⟩ : Index)) = some ⟨scenarioA.dist i j, i, j⟩ ∧
      some (mkRat 1 2) = some (scenarioA.dist i j) ∧
      scenarioA.getName i ∈ ["C", "D"] ∧ scenarioA.getName j ∈ ["C", "D"] ∧
      scenarioA.getName i ∉ ["A", "B"] ∧ scenarioA.getName j ∉ ["A", "B"] ∧
      ∀ i' j', i' < j' → j' < scenarioA.size → scenarioA.getName i' ∈ ["C", "D"] →
        scenarioA.getName j' ∈ ["C", "D"] → scenarioA.dist i j ≤ scenarioA.dist i' j' :=
  reported_minimum stableSort stableSort_spec scenarioA (by decide) equalScores equalScores
    (constCoin false) ⟨"sample", "length", 0, 2⟩
    { seqNames := ["C", "D"], removed := ["A", "B"],
      distances := [⟨mkRat 1 2, 2, 3⟩, ⟨mkRat 1 2, 2, 3⟩, ⟨mkRat 1 2, 2, 3⟩,
        ⟨mkRat 1 2, 1, 2⟩, ⟨mkRat 1 2, 1, 3⟩, ⟨mkRat 1 2, 2, 3⟩],
      numberKept := none, minimalDistance := some (mkRat 1 2) }
    rfl (by decide) (by decide) (by decide)

/-- C19 as stated fails for `k = 1`: on `chain3` with equal scores and the criterion `length`
the sample run with `k = 1` ends without error and retains C alone, so no pair of retained
labels exists; the value it reports, `0.9`, is read from the entry of A and C, and A has been
removed. -/
theorem reported_minimum_counterexample :
    main stableSort chain3 equalScores equalScores (constCoin false)
        ⟨"sample", "length", 0, 1⟩ =
      .ok { seqNames := ["C"], removed := ["A", "B"],
            distances := [⟨mkRat 9 10, 0, 2⟩, ⟨mkRat 2 1000, 1, 2⟩, ⟨mkRat 9 10, 0, 2⟩],
            numberKept := none, minimalDistance := some (mkRat 9 10) } ∧
      chain3.getName 0 = "A" ∧ chain3.dist 0 2 = mkRat 9 10 := by
  decide

/-! ## The vector `distances` never shrinks -/

/-- When every element satisfies the predicate, `remove_if` leaves the vector as it is. -/
theorem remove_if_all (v : List Index) (pred : Index → Bool)
    (h : ∀ x ∈ v, pred x = true) : remove_if v pred = v := by
  rw [remove_if_eq]
  unfold shifted
  have : v.filter (fun x => !pred x) = [] := by
    rw [List.filter_eq_nil_iff]
    intro a ha
    simp [h a ha]
  rw [this]
  rfl

theorem thresholdLoop_ne_allRemoved (m : DistanceMatrix) (critMeth : String)
    (sLen : Nat → Nat) (coins : Nat → Bool) (t : ℚ) :
    ∀ (fuel : Nat) (st : State),
      thresholdLoop m critMeth sLen coins t fuel st ≠ .error .allRemoved := by
  intro fuel
  induction fuel with
  | zero => intro st; simp [thresholdLoop]
  | succ fuel ih =>
    intro st
    unfold thresholdLoop
    cases hd : st.distances.head? with
    | none => simp
    | some d0 =>
      simp only
      split
      · cases hs : removalStep m critMeth sLen coins st with
        | error e =>
          simp only
          rcases removalStep_error m critMeth sLen coins st e hs with h1 | h1 | h1 <;>
            simp [h1]
        | ok st' =>
          simp only
          have hl := removalStep_distances_length m critMeth sLen coins st st' hs
          have hne : st.distances ≠ [] := by
            intro e
            rw [e] at hd
            simp at hd
          have h0 : ¬ st'.distances.length = 0 := by
            rw [hl]
            exact fun e => hne (List.length_eq_zero.mp e)
          rw [if_neg h0]
          exact ih st'
      · simp

theorem sampleLoop_ne_allRemoved (m : DistanceMatrix) (critMeth : String)
    (sLen : Nat → Nat) (coins : Nat → Bool) (k : Nat) :
    ∀ (fuel : Nat) (st : State),
      sampleLoop m critMeth sLen coins k fuel st ≠ .error .allRemoved := by
  intro fuel
  induction fuel with
  | zero => intro st; simp [sampleLoop]
  | succ fuel ih =>
    intro st
    unfold sampleLoop
    split
    · cases hs : removalStep m critMeth sLen coins st with
      | error e =>
        simp only
        rcases removalStep_error m critMeth sLen coins st e hs with h1 | h1 | h1 <;>
          simp [h1]
      | ok st' =>
        simp only
        exact ih st'
    · simp

theorem main_ne_allRemoved (srt : List Index → List Index) (m : DistanceMatrix)
    (nbSites nbCompleteSites : String → Nat) (coins : Nat → Bool) (p : Params) :
    main srt m nbSites nbCompleteSites coins p ≠ .error .allRemoved := by
  by_cases hd : p.deleteMeth = "threshold"
  · rw [main_threshold srt m nbSites nbCompleteSites coins p hd]
    have := thresholdLoop_ne_allRemoved m p.critMeth
      (seqLen m nbSites nbCompleteSites p.critMeth) coins p.threshold (m.size + 1)
      (initState srt m)
    cases hl : thresholdLoop m p.critMeth (seqLen m nbSites nbCompleteSites p.critMeth) coins
        p.threshold (m.size + 1) (initState srt m) with
    | error e =>
      rw [hl] at this
      simp only
      intro h
      cases h
      exact this rfl
    | ok st => simp
  · by_cases hd' : p.deleteMeth = "sample"
    · rw [main_sample srt m nbSites nbCompleteSites coins p hd']
      have := sampleLoop_ne_allRemoved m p.critMeth
        (seqLen m nbSites nbCompleteSites p.critMeth) coins p.sampleSize (m.size + 1)
        (initState srt m)
      cases hl : sampleLoop m p.critMeth (seqLen m nbSites nbCompleteSites p.critMeth) coins
          p.sampleSize (m.size + 1) (initState srt m) with
      | error e =>
        rw [hl] at this
        simp only
        intro h
        cases h
        exact this rfl
      | ok st =>
        simp only
        cases st.distances.head? <;> simp
    · unfold main
      simp only [hd, hd', if_false]
      simp

/-- C20 (`remove_if` without `erase`): a call of `remove_if` keeps the length of the vector,
and when every entry satisfies the predicate (every entry touches `rm`) it leaves the whole
vector, so also `distances[0]`, unchanged.  On a matrix of `n ≥ 2` labels with a conforming
sort, in every state in which either loop evaluates its condition `distances` has its initial
length `n (n - 1) / 2`, which is not `0`: the test `distances.size() == 0` of line 200 is false
each time, and no run ends in the error `all sequences have been removed`. -/
theorem distances_never_shrinks (srt : List Index → List Index) (hs : SortSpec srt)
    (m : DistanceMatrix) (hn : 2 ≤ m.size)
    (nbSites nbCompleteSites : String → Nat) (coins : Nat → Bool) (p : Params) :
    (∀ (v : List Index) (pred : Index → Bool), (remove_if v pred).length = v.length) ∧
      (∀ (v : List Index) (rm : Nat), (∀ x ∈ v, Test rm x = true) →
        remove_if v (Test rm) = v ∧ (remove_if v (Test rm)).head? = v.head?) ∧
      (∀ s, (s ∈ thresholdVisited m p.critMeth (seqLen m nbSites nbCompleteSites p.critMeth)
            coins p.threshold (m.size + 1) (initState srt m) ∨
          s ∈ sampleVisited m p.critMeth (seqLen m nbSites nbCompleteSites p.critMeth)
            coins p.sampleSize (m.size + 1) (initState srt m)) →
        s.distances.length = m.size * (m.size - 1) / 2 ∧ s.distances.length ≠ 0) ∧
      main srt m nbSites nbCompleteSites coins p ≠ .error .allRemoved := by
  have hinit : (initState srt m).distances.length = m.size * (m.size - 1) / 2 := by
    simp only [initState]
    rw [(hs _).1.length_eq, buildDistances_length]
  have hne := initState_distances_ne_nil srt hs m hn
  refine ⟨remove_if_length, ?_, ?_, main_ne_allRemoved srt m nbSites nbCompleteSites coins p⟩
  · intro v rm h
    have := remove_if_all v (Test rm) h
    exact ⟨this, by rw [this]⟩
  · intro s hvis
    have hlen : s.distances.length = (initState srt m).distances.length := by
      rcases hvis with h | h
      · exact thresholdVisited_invariant m p.critMeth _ coins p.threshold
          (fun a => a.distances.length = (initState srt m).distances.length)
          (fun a b ha hab =>
            (removalStep_distances_length m p.critMeth _ coins a b hab).trans ha)
          _ _ rfl s h
      · exact sampleVisited_invariant m p.critMeth _ coins p.sampleSize
          (fun a => a.distances.length = (initState srt m).distances.length)
          (fun a b ha hab =>
            (removalStep_distances_length m p.critMeth _ coins a b hab).trans ha)
          _ _ rfl s h
    refine ⟨hlen.trans hinit, ?_⟩
    rw [hlen]
    exact fun e => hne (List.length_eq_zero.mp e)

theorem distances_never_shrinks_witness :
    (∀ (v : List Index) (pred : Index → Bool), (remove_if v pred).length = v.length) ∧
      (∀ (v : List Index) (rm : Nat), (∀ x ∈ v, Test rm x = true) →
        remove_if v (Test rm) = v ∧ (remove_if v (Test rm)).head? = v.head?) ∧
      (∀ s, (s ∈ thresholdVisited scenarioD "length"
            (seqLen scenarioD equalScores equalScores "length")
            (constCoin false) (mkRat 1 100) (scenarioD.size + 1)
            (initState stableSort scenarioD) ∨
          s ∈ sampleVisited scenarioD "length"
            (seqLen scenarioD equalScores equalScores "length")
            (constCoin false) 1 (scenarioD.size + 1) (initState stableSort scenarioD)) →
        s.distances.length = scenarioD.size * (scenarioD.size - 1) / 2 ∧
          s.distances.length ≠ 0) ∧
      main stableSort scenarioD equalScores equalScores (constCoin false)
        ⟨"threshold", "length", mkRat 1 100, 1⟩ ≠ .error .allRemoved :=
  distances_never_shrinks stableSort stableSort_spec scenarioD (by decide) equalScores
    equalScores (constCoin false) ⟨"threshold", "length", mkRat 1 100, 1⟩

end BppPhySamp
